import Mathlib

/-!
# Pathfinding visualizer: Dijkstra versus BFS on a 40 x 30 grid

A shallow embedding of `src/PathfindingVisualizer.cpp`.  The global variables of the
program become the fields of `Model`; every function that mutates the globals becomes a
function on `Model`.  The `while` loops of the source are embedded through `whileLoop`,
which runs a loop body a bounded number of times and returns `none` when the bound is
exhausted, so that termination of the source loops is a theorem rather than an assumption.

C++ `int` values are embedded as `Int`: all values that occur stay between `0` and
`1000005`, so 32-bit wrap-around never happens.  The `double` clock readings of
`GetTime()` are inputs of the run functions, embedded as rationals.
-/

namespace Pathfinding

/-! ## Data model -/

/-- Number of grid columns, `const int COLS = 40`. -/
abbrev COLS : Nat := 40

/-- Number of grid rows, `const int ROWS = 30`. -/
abbrev ROWS : Nat := 30

/-- Pixel size of a cell, `const int CELL = 20`. -/
abbrev CELL : Nat := 20

/-- An index `[i][j]` into `Node grid[COLS][ROWS]`; a `Node*` into the grid is such an index. -/
abbrev Cell := Fin COLS × Fin ROWS

/-- The `struct Node` of the source. -/
structure Node where
  x : Int
  y : Int
  dist : Int
  parent : Option Cell
  isWall : Bool
  isMud : Bool
  visited : Bool

/-- The array `Node grid[COLS][ROWS]`. -/
abbrev Grid := Cell → Node

/-- An array `bool arr[COLS][ROWS]`. -/
abbrev PathArray := Cell → Bool

/-- All global variables of the program. -/
structure Model where
  grid : Grid
  currentPath : PathArray
  previousPath : PathArray
  visitedCount : Int
  elapsedTime : Rat
  pathFound : Bool
  algorithmRan : Bool
  lastWasDijkstra : Bool
  dijkstraRan : Bool
  dijkstraVisited : Int
  dijkstraTime : Rat
  dijkstraFound : Bool
  dijkstraCost : Int
  bfsRan : Bool
  bfsVisited : Int
  bfsTime : Rat
  bfsFound : Bool
  bfsHops : Int
  bfsRealCost : Int

/-- The value `1000000` that the resets store in `dist`. -/
def SENTINEL : Int := 1000000

/-- The pointer `&grid[5][15]` held by `startNode` in `main`. -/
def startNode : Cell := (5, 15)

/-- The pointer `&grid[35][15]` held by `endNode` in `main`. -/
def endNode : Cell := (35, 15)

/-- The bounds test `nx < 0 || nx >= COLS || ny < 0 || ny >= ROWS` followed by the
array access `grid[nx][ny]`: `none` when the test rejects the coordinates. -/
def cellAt (nx ny : Int) : Option Cell :=
  if h : nx < 0 ∨ nx ≥ COLS ∨ ny < 0 ∨ ny ≥ ROWS then none
  else some (⟨nx.toNat, by omega⟩, ⟨ny.toNat, by omega⟩)

/-- The offset table `dx[] = {1,-1,0,0}`. -/
def dx : List Int := [1, -1, 0, 0]

/-- The offset table `dy[] = {0,0,1,-1}`. -/
def dy : List Int := [0, 0, 1, -1]

/-- The pairs `(dx[i], dy[i])` for `i = 0..3`, in loop order. -/
def dirs : List (Int × Int) := List.zip dx dy

/-- The expression `isMud ? 5 : 1` applied to cell `c`. -/
def cellCost (g : Grid) (c : Cell) : Int := if (g c).isMud then 5 else 1

/-! ## Bounded while loops -/

/-- Outcome of one execution of a loop body: go round again, leave the loop, or fail
(an array access outside its bounds). -/
inductive Step (σ ρ : Type) where
  | next (s : σ)
  | done (r : ρ)
  | fail

/-- Runs `body` until it leaves the loop; `none` when `fuel` iterations did not suffice
or the body failed. -/
def whileLoop {σ ρ : Type} (body : σ → Step σ ρ) : Nat → σ → Option ρ
  | 0, _ => none
  | fuel + 1, s =>
    match body s with
    | Step.next s1 => whileLoop body fuel s1
    | Step.done r => some r
    | Step.fail => none

/-- Iteration bound handed to every loop; the theorems show that no loop of a run that
starts from a well-formed grid ever reaches it. -/
def loopFuel : Nat := 5 * COLS * ROWS + 2

/-! ## Path reconstruction and costing -/

/-- The function `ClearPathArray`: every entry becomes `false`. -/
def ClearPathArray : PathArray := fun _ => false

/-- One iteration of the loop of `SnapshotPath`; the state is `(temp, arr)`. -/
def snapshotBody (g : Grid) (startN : Cell) (s : Option Cell × PathArray) :
    Step (Option Cell × PathArray) PathArray :=
  match s.1 with
  | none => Step.done s.2
  | some t =>
    if t = startN then Step.done s.2
    else
      match cellAt (g t).x (g t).y with
      | none => Step.fail
      | some c => Step.next ((g t).parent, Function.update s.2 c true)

/-- The function `SnapshotPath(endNode, startNode, arr)`; the result is the new content
of `arr`. -/
def SnapshotPath (g : Grid) (endN startN : Cell) : Option PathArray :=
  whileLoop (snapshotBody g startN) loopFuel ((g endN).parent, ClearPathArray)

/-- One iteration of the loop of `CalcRealCost`; the state is `(temp, total)`. -/
def calcBody (g : Grid) (startN : Cell) (s : Option Cell × Int) :
    Step (Option Cell × Int) Int :=
  match s.1 with
  | none => Step.done s.2
  | some t =>
    if t = startN then Step.done s.2
    else Step.next ((g t).parent, s.2 + (if (g t).isMud then 5 else 1))

/-- The function `CalcRealCost(endNode, startNode)`. -/
def CalcRealCost (g : Grid) (endN startN : Cell) : Option Int :=
  whileLoop (calcBody g startN) loopFuel (some endN, 0)

/-! ## Resets and terrain edits -/

/-- The function `FullReset`. -/
def FullReset (m : Model) : Model :=
  { m with
    grid := fun c =>
      { x := (c.1.val : Int), y := (c.2.val : Int), dist := 1000000, parent := none,
        isWall := false, isMud := false, visited := false }
    currentPath := ClearPathArray
    previousPath := ClearPathArray
    visitedCount := 0
    elapsedTime := 0
    pathFound := false
    algorithmRan := false
    dijkstraRan := false
    bfsRan := false
    dijkstraCost := 0
    bfsHops := 0
    bfsRealCost := 0 }

/-- The function `PartialReset`. -/
def PartialReset (m : Model) : Model :=
  { m with
    grid := fun c => { m.grid c with dist := 1000000, parent := none, visited := false }
    visitedCount := 0
    elapsedTime := 0
    pathFound := false
    algorithmRan := false }

/-- The two kinds of terrain edit: left mouse button (wall), right mouse button (mud). -/
inductive TerrainKind where
  | Wall
  | Mud
  deriving DecidableEq

/-- The body of the two mouse handlers of `main` for the cell coordinates `(mx, my)`. -/
def EditTerrain (kind : TerrainKind) (mx my : Int) (m : Model) : Model :=
  match cellAt mx my with
  | none => m
  | some c =>
    if c ≠ startNode ∧ c ≠ endNode then
      match kind with
      | TerrainKind.Wall =>
        { m with grid := Function.update m.grid c { m.grid c with isWall := true, isMud := false } }
      | TerrainKind.Mud =>
        { m with grid := Function.update m.grid c { m.grid c with isMud := true, isWall := false } }
    else m

/-! ## Dijkstra -/

/-- Position of `&grid[x][y]` in memory, counted in nodes from `&grid[0][0]`. -/
def addr (c : Cell) : Nat := c.1.val * ROWS + c.2.val

/-- The order `pair<int,Node*>::operator<=`: first by `dist`, then by address. -/
def entryLe (a b : Int × Cell) : Bool :=
  decide (a.1 < b.1) || (decide (a.1 = b.1) && decide (addr a.2 ≤ addr b.2))

/-- The call `pq.top()` of a min-heap (`greater`): a least entry of the queue content. -/
def pqTop : List (Int × Cell) → Option (Int × Cell)
  | [] => none
  | e :: es =>
    match pqTop es with
    | none => some e
    | some b => if entryLe e b then some e else some b

/-- The variables the search loops read and write: the grid, `visitedCount`, `pathFound`
and the local priority queue. -/
structure DijkstraState where
  grid : Grid
  visitedCount : Int
  pathFound : Bool
  pq : List (Int × Cell)

/-- The body of the `for` loop of `RunDijkstra` for the offset `d = (dx[i], dy[i])`. -/
def relaxStep (curr : Cell) (s : DijkstraState) (d : Int × Int) : DijkstraState :=
  match cellAt ((s.grid curr).x + d.1) ((s.grid curr).y + d.2) with
  | none => s
  | some n =>
    if (s.grid n).isWall then s
    else
      let cost : Int := if (s.grid n).isMud then 5 else 1
      if (s.grid n).dist > (s.grid curr).dist + cost then
        { s with
          grid := Function.update s.grid n
            { s.grid n with dist := (s.grid curr).dist + cost, parent := some curr }
          pq := ((s.grid curr).dist + cost, n) :: s.pq }
      else s

/-- One iteration of the `while (!pq.empty())` loop of `RunDijkstra`. -/
def dijkstraBody (endN : Cell) (s : DijkstraState) : Step DijkstraState DijkstraState :=
  match pqTop s.pq with
  | none => Step.done s
  | some e =>
    let curr := e.2
    let s1 : DijkstraState := { s with pq := s.pq.erase e }
    if curr = endN then Step.done { s1 with pathFound := true }
    else if (s1.grid curr).visited then Step.next s1
    else
      let s2 : DijkstraState :=
        { s1 with
          grid := Function.update s1.grid curr { s1.grid curr with visited := true }
          visitedCount := s1.visitedCount + 1 }
      Step.next (dirs.foldl (relaxStep curr) s2)

/-- The state in which `RunDijkstra` enters its loop. -/
def dijkstraInit (m : Model) (startN : Cell) : DijkstraState :=
  { grid := Function.update m.grid startN { m.grid startN with dist := 0 }
    visitedCount := m.visitedCount
    pathFound := m.pathFound
    pq := [(0, startN)] }

/-- The function `RunDijkstra(startNode, endNode)`; `t0` and `t1` are the two readings of
`GetTime()`. -/
def RunDijkstra (startN endN : Cell) (t0 t1 : Rat) (m : Model) : Option Model :=
  match whileLoop (dijkstraBody endN) loopFuel (dijkstraInit m startN) with
  | none => none
  | some s =>
    match (if s.pathFound then SnapshotPath s.grid endN startN else some ClearPathArray) with
    | none => none
    | some cur =>
      some { m with
        grid := s.grid
        visitedCount := s.visitedCount
        pathFound := s.pathFound
        elapsedTime := t1 - t0
        lastWasDijkstra := true
        algorithmRan := true
        previousPath := m.currentPath
        currentPath := cur
        dijkstraRan := true
        dijkstraVisited := s.visitedCount
        dijkstraTime := t1 - t0
        dijkstraFound := s.pathFound
        dijkstraCost := if s.pathFound then (s.grid endN).dist else 0 }

/-! ## Breadth-first search -/

/-- The variables the loop of `RunBFS` reads and writes; `q` is the FIFO queue, front first. -/
structure BfsState where
  grid : Grid
  visitedCount : Int
  pathFound : Bool
  q : List Cell

/-- The body of the `for` loop of `RunBFS` for the offset `d = (dx[i], dy[i])`. -/
def visitStep (curr : Cell) (s : BfsState) (d : Int × Int) : BfsState :=
  match cellAt ((s.grid curr).x + d.1) ((s.grid curr).y + d.2) with
  | none => s
  | some n =>
    if (s.grid n).isWall || (s.grid n).visited then s
    else
      { s with
        grid := Function.update s.grid n
          { s.grid n with dist := (s.grid curr).dist + 1, parent := some curr, visited := true }
        q := s.q ++ [n] }

/-- One iteration of the `while (!q.empty())` loop of `RunBFS`. -/
def bfsBody (endN : Cell) (s : BfsState) : Step BfsState BfsState :=
  match s.q with
  | [] => Step.done s
  | curr :: rest =>
    let s1 : BfsState := { s with q := rest, visitedCount := s.visitedCount + 1 }
    if curr = endN then Step.done { s1 with pathFound := true }
    else Step.next (dirs.foldl (visitStep curr) s1)

/-- The state in which `RunBFS` enters its loop. -/
def bfsInit (m : Model) (startN : Cell) : BfsState :=
  { grid := Function.update m.grid startN { m.grid startN with dist := 0, visited := true }
    visitedCount := m.visitedCount
    pathFound := m.pathFound
    q := [startN] }

/-- The function `RunBFS(startNode, endNode)`; `t0` and `t1` are the two readings of
`GetTime()`. -/
def RunBFS (startN endN : Cell) (t0 t1 : Rat) (m : Model) : Option Model :=
  match whileLoop (bfsBody endN) loopFuel (bfsInit m startN) with
  | none => none
  | some s =>
    match (if s.pathFound then CalcRealCost s.grid endN startN else some 0) with
    | none => none
    | some real =>
      match (if s.pathFound then SnapshotPath s.grid endN startN else some ClearPathArray) with
      | none => none
      | some cur =>
        some { m with
          grid := s.grid
          visitedCount := s.visitedCount
          pathFound := s.pathFound
          elapsedTime := t1 - t0
          lastWasDijkstra := false
          algorithmRan := true
          previousPath := m.currentPath
          currentPath := cur
          bfsRealCost := real
          bfsRan := true
          bfsVisited := s.visitedCount
          bfsTime := t1 - t0
          bfsFound := s.pathFound
          bfsHops := if s.pathFound then (s.grid endN).dist else 0 }

/-! ## Controller -/

/-- The key handler `PartialReset(); RunDijkstra(startNode, endNode);` of `main`. -/
def runDijkstraCmd (t0 t1 : Rat) (m : Model) : Option Model :=
  RunDijkstra startNode endNode t0 t1 (PartialReset m)

/-- The key handler `PartialReset(); RunBFS(startNode, endNode);` of `main`. -/
def runBfsCmd (t0 t1 : Rat) (m : Model) : Option Model :=
  RunBFS startNode endNode t0 t1 (PartialReset m)

/-- The commands that the event loop of `main` serves: a terrain edit at cell coordinates
`(x, y)`, the two run keys with their clock readings, and the reset key. -/
inductive Command where
  | editTerrain (kind : TerrainKind) (x y : Int)
  | runDijkstra (t0 t1 : Rat)
  | runBfs (t0 t1 : Rat)
  | fullReset

/-- One command served by the event loop of `main`. -/
def applyCommand (m : Model) : Command → Option Model
  | Command.editTerrain kind x y => some (EditTerrain kind x y m)
  | Command.runDijkstra t0 t1 => runDijkstraCmd t0 t1 m
  | Command.runBfs t0 t1 => runBfsCmd t0 t1 m
  | Command.fullReset => some (FullReset m)

/-- A finite sequence of commands, served from left to right. -/
def applyCommands (m : Model) : List Command → Option Model
  | [] => some m
  | c :: cs =>
    match applyCommand m c with
    | none => none
    | some m1 => applyCommands m1 cs

/-- The values of the globals when `main` starts: static storage is zero-initialised
and the scalars carry their initialisers. -/
def staticInit : Model :=
  { grid := fun _ =>
      { x := 0, y := 0, dist := 0, parent := none, isWall := false, isMud := false,
        visited := false }
    currentPath := fun _ => false
    previousPath := fun _ => false
    visitedCount := 0
    elapsedTime := 0
    pathFound := false
    algorithmRan := false
    lastWasDijkstra := true
    dijkstraRan := false
    dijkstraVisited := 0
    dijkstraTime := 0
    dijkstraFound := false
    dijkstraCost := 0
    bfsRan := false
    bfsVisited := 0
    bfsTime := 0
    bfsFound := false
    bfsHops := 0
    bfsRealCost := 0 }

/-- The model after the call of `FullReset` that `main` makes before its event loop. -/
def initModel : Model := FullReset staticInit

/-! ## Notions used to state the properties -/

/-- Cardinal adjacency: the two cells are one step apart in exactly one coordinate. -/
def adjacent (a b : Cell) : Prop :=
  Int.natAbs ((a.1.val : Int) - (b.1.val : Int)) + Int.natAbs ((a.2.val : Int) - (b.2.val : Int)) = 1

instance adjacentDecidable (a b : Cell) : Decidable (adjacent a b) := by
  unfold adjacent
  infer_instance

/-- The statement `Walk g a steps c`: entering the cells of `steps` one after the other,
starting on `a`, ends on `c`; every cell entered is cardinally adjacent to the cell before
it and is not a wall.  The sequence of cells of the walk is `a :: steps`. -/
def Walk (g : Grid) : Cell → List Cell → Cell → Prop
  | a, [], c => a = c
  | a, b :: rest, c => adjacent a b ∧ (g b).isWall = false ∧ Walk g b rest c

/-- Sum of the entry costs (mud 5, otherwise 1) of the cells entered. -/
def walkCost (g : Grid) (steps : List Cell) : Int := (steps.map (cellCost g)).sum

/-- Every node stores its own grid coordinates, as `FullReset` arranges. -/
def WellFormed (g : Grid) : Prop := ∀ c, (g c).x = (c.1.val : Int) ∧ (g c).y = (c.2.val : Int)

/-- The start cell and the end cell are neither wall nor mud. -/
def Clear (g : Grid) : Prop :=
  (g startNode).isWall = false ∧ (g startNode).isMud = false ∧
  (g endNode).isWall = false ∧ (g endNode).isMud = false

/-- No cell is a wall and no cell is mud. -/
def OpenGrid (g : Grid) : Prop := ∀ c, (g c).isWall = false ∧ (g c).isMud = false

/-- The cells whose `visited` flag is set. -/
def visitedCells (g : Grid) : Finset Cell := Finset.univ.filter (fun c => (g c).visited = true)

/-- The cells marked in a path array. -/
def markedCells (arr : PathArray) : Finset Cell := Finset.univ.filter (fun c => arr c = true)

/-- The cells met when following parent links from `temp` until the start cell or a null
parent is reached, the start cell excluded; `none` when `fuel` links did not suffice. -/
def parentChain (g : Grid) (startN : Cell) : Nat → Option Cell → Option (List Cell)
  | 0, _ => none
  | _ + 1, none => some []
  | fuel + 1, some t =>
    if t = startN then some []
    else (parentChain g startN fuel (g t).parent).map (fun l => t :: l)

/-- The statement `Route g a c cells`: the sequence `cells` starts with `a`, ends with `c`,
contains no wall, and each of its cells is cardinally adjacent to the next. -/
def Route (g : Grid) (a c : Cell) (cells : List Cell) : Prop :=
  cells.head? = some a ∧ cells.getLast? = some c ∧ (∀ x ∈ cells, (g x).isWall = false) ∧
    cells.Chain' adjacent

/-- Sum of the entry costs of the cells of a route, its first cell not counted. -/
def routeCost (g : Grid) (cells : List Cell) : Int := walkCost g cells.tail

/-- Number of edges of a route. -/
def routeHops (cells : List Cell) : Nat := cells.tail.length

/-! ## Definitions used by the proofs: invariants, measures, scenarios -/

/-- The conditions under which parent links form a chain back to the start cell: `R` marks
the cells reached by the search and `w` is the amount by which `dist` grows along a link. -/
structure ChainOK (g : Grid) (startN : Cell) (R : Cell → Prop) (w : Cell → Int) : Prop where
  nonneg : ∀ c, R c → 0 ≤ (g c).dist
  link : ∀ c, c ≠ startN → R c →
    ∃ p, (g c).parent = some p ∧ R p ∧ adjacent p c ∧ (g c).isWall = false ∧
      (g c).dist = (g p).dist + w c
  wpos : ∀ c, 1 ≤ w c

/-- What path reconstruction and costing return after a search whose parent links form
chains: `l` lists the cells strictly between the end cell and the start cell, in the order
in which the parent links meet them. -/
structure PathFacts (g : Grid) (startN endN : Cell) (R : Cell → Prop) (w : Cell → Int)
    (l : List Cell) (cur : PathArray) : Prop where
  chain : parentChain g startN loopFuel (some endN) = some (endN :: l)
  snapshot : SnapshotPath g endN startN = some cur
  marks : ∀ c, cur c = true ↔ c ∈ l
  real : CalcRealCost g endN startN = some (walkCost g (endN :: l))
  walk : Walk g startN (endN :: l).reverse endN
  sum : ((endN :: l).map w).sum + (g startN).dist = (g endN).dist
  decr : (endN :: l).Pairwise (fun a b => (g b).dist < (g a).dist)
  mem : ∀ x ∈ endN :: l, R x ∧ x ≠ startN
  parent : ∃ p, (g endN).parent = some p ∧ adjacent p endN ∧
    parentChain g startN loopFuel (some p) = some l
  links : List.Chain' (fun a b => (g a).parent = some b) (endN :: l ++ [startN])

/-- The pairs `(curr, n)` whose relaxation is still outstanding while the `for` loop over the
offsets `ds` runs. -/
def todoPairs (curr : Cell) (ds : List (Int × Int)) (v n : Cell) : Prop :=
  v = curr ∧ ∃ d ∈ ds, cellAt ((v.1.val : Int) + d.1) ((v.2.val : Int) + d.2) = some n

/-- Invariant of the `while` loop of `RunDijkstra`; `g0` is the grid before the run and
`todo` exempts the edges that the running `for` loop has yet to relax. -/
structure DInv (g0 : Grid) (startN endN : Cell) (todo : Cell → Cell → Prop)
    (s : DijkstraState) : Prop where
  coords : WellFormed s.grid
  terrain : ∀ c, (s.grid c).isWall = (g0 c).isWall ∧ (s.grid c).isMud = (g0 c).isMud
  start0 : (s.grid startN).dist = 0 ∧ (s.grid startN).parent = none
  range : ∀ c, 0 ≤ (s.grid c).dist ∧
    ((s.grid c).dist = SENTINEL ∨ (s.grid c).dist ≤ 5 * s.visitedCount)
  count : s.visitedCount = ((visitedCells s.grid).card : Int)
  keys : ∀ e ∈ s.pq, (s.grid e.2).dist ≤ e.1 ∧ e.1 ≤ 5 * s.visitedCount
  queued : ∀ c, (s.grid c).visited = false → (s.grid c).dist < SENTINEL →
    ((s.grid c).dist, c) ∈ s.pq
  mono : ∀ v, (s.grid v).visited = true → ∀ e ∈ s.pq, (s.grid v).dist ≤ e.1
  relaxed : ∀ v n, (s.grid v).visited = true → adjacent v n → ¬ todo v n →
    (s.grid n).isWall = false → (s.grid n).dist ≤ (s.grid v).dist + cellCost s.grid n
  link : ∀ c, c ≠ startN → (s.grid c).dist < SENTINEL →
    ∃ p, (s.grid c).parent = some p ∧ (s.grid p).visited = true ∧ adjacent p c ∧
      (s.grid c).dist = (s.grid p).dist + cellCost s.grid c ∧ (s.grid c).isWall = false
  settled : ∀ v, (s.grid v).visited = true → (s.grid v).dist < SENTINEL
  endOpen : (s.grid endN).visited = false
  found : s.pathFound = false

/-- What holds in addition while the neighbours of the settled cell `curr` are relaxed. -/
structure DCur (curr : Cell) (L : Nat) (ds : List (Int × Int)) (s : DijkstraState) : Prop where
  currV : (s.grid curr).visited = true
  currMax : ∀ v, (s.grid v).visited = true → (s.grid v).dist ≤ (s.grid curr).dist
  currRange : (s.grid curr).dist + 5 ≤ 5 * s.visitedCount
  sub : ∀ d ∈ ds, d ∈ dirs
  len : s.pq.length + ds.length ≤ L

/-- The exemption used between iterations of the `while` loop: none. -/
def noTodo (_ _ : Cell) : Prop := False

/-- The quantity that every iteration of the `while` loop of `RunDijkstra` lowers. -/
def dijkstraMeasure (s : DijkstraState) : Nat :=
  s.pq.length + 4 * (1200 - (visitedCells s.grid).card)

/-- A model as `PartialReset` leaves it: no search data, counters cleared. -/
structure Fresh (m : Model) : Prop where
  coords : WellFormed m.grid
  dist : ∀ c, (m.grid c).dist = SENTINEL
  parent : ∀ c, (m.grid c).parent = none
  visited : ∀ c, (m.grid c).visited = false
  vc : m.visitedCount = 0
  pf : m.pathFound = false

/-- What the loop of `RunDijkstra` guarantees on exit: the invariant held when the last
iteration began, and that iteration either found the queue empty or popped the end cell. -/
def DPost (g0 : Grid) (startN endN : Cell) (r : DijkstraState) : Prop :=
  ∃ s, DInv g0 startN endN noTodo s ∧ r.grid = s.grid ∧ r.visitedCount = s.visitedCount ∧
    ((s.pq = [] ∧ r.pathFound = false) ∨
      (r.pathFound = true ∧ ∃ e, pqTop s.pq = some e ∧ e.2 = endN))

/-- Everything the handler `PartialReset(); RunDijkstra(startNode, endNode);` does to the
model `m`, with `m1` the model afterwards. -/
structure DijkstraOutcome (m m1 : Model) (t0 t1 : Rat) : Prop where
  post : DPost (PartialReset m).grid startNode endNode
    { grid := m1.grid, visitedCount := m1.visitedCount, pathFound := m1.pathFound, pq := [] }
  previous : m1.previousPath = m.currentPath
  current : if m1.pathFound = true then SnapshotPath m1.grid endNode startNode = some m1.currentPath
    else m1.currentPath = ClearPathArray
  last : m1.lastWasDijkstra = true
  ran : m1.algorithmRan = true ∧ m1.dijkstraRan = true
  visitedEq : m1.dijkstraVisited = m1.visitedCount
  time : m1.elapsedTime = t1 - t0 ∧ m1.dijkstraTime = t1 - t0
  foundEq : m1.dijkstraFound = m1.pathFound
  cost : m1.dijkstraCost = if m1.pathFound = true then (m1.grid endNode).dist else 0
  bfs : m1.bfsRan = m.bfsRan ∧ m1.bfsVisited = m.bfsVisited ∧ m1.bfsTime = m.bfsTime ∧
    m1.bfsFound = m.bfsFound ∧ m1.bfsHops = m.bfsHops ∧ m1.bfsRealCost = m.bfsRealCost

/-- Invariant of the `while` loop of `RunBFS`; `g0` is the grid before the run and `todo`
exempts the neighbours that the running `for` loop has yet to look at. -/
structure BInv (g0 : Grid) (startN endN : Cell) (todo : Cell → Cell → Prop)
    (s : BfsState) : Prop where
  coords : WellFormed s.grid
  terrain : ∀ c, (s.grid c).isWall = (g0 c).isWall ∧ (s.grid c).isMud = (g0 c).isMud
  start0 : (s.grid startN).dist = 0 ∧ (s.grid startN).parent = none ∧
    (s.grid startN).visited = true
  inQ : ∀ c ∈ s.q, (s.grid c).visited = true
  nodup : s.q.Nodup
  sorted : s.q.Pairwise (fun a b => (s.grid a).dist ≤ (s.grid b).dist)
  band : ∀ a ∈ s.q, ∀ b ∈ s.q, (s.grid b).dist ≤ (s.grid a).dist + 1
  procMax : ∀ p, (s.grid p).visited = true → p ∉ s.q → ∀ c ∈ s.q, (s.grid p).dist ≤ (s.grid c).dist
  expanded : ∀ p n, (s.grid p).visited = true → p ∉ s.q → adjacent p n → ¬ todo p n →
    (s.grid n).isWall = false → (s.grid n).visited = true ∧ (s.grid n).dist ≤ (s.grid p).dist + 1
  link : ∀ c, c ≠ startN → (s.grid c).visited = true →
    ∃ p, (s.grid c).parent = some p ∧ (s.grid p).visited = true ∧ adjacent p c ∧
      (s.grid c).dist = (s.grid p).dist + 1 ∧ (s.grid c).isWall = false
  range : ∀ c, (s.grid c).visited = true → 0 ≤ (s.grid c).dist ∧ (s.grid c).dist ≤ s.visitedCount
  count : s.visitedCount + (s.q.length : Int) = ((visitedCells s.grid).card : Int)
  endQ : (s.grid endN).visited = true → endN ∈ s.q
  found : s.pathFound = false

/-- What holds in addition while the neighbours of the dequeued cell `curr` are visited. -/
structure BCur (curr : Cell) (ds : List (Int × Int)) (s : BfsState) : Prop where
  currV : (s.grid curr).visited = true
  currOut : curr ∉ s.q
  currBand : ∀ a ∈ s.q, (s.grid curr).dist ≤ (s.grid a).dist ∧ (s.grid a).dist ≤ (s.grid curr).dist + 1
  currMax : ∀ p, (s.grid p).visited = true → p ∉ s.q → (s.grid p).dist ≤ (s.grid curr).dist
  currRange : (s.grid curr).dist + 1 ≤ s.visitedCount
  sub : ∀ d ∈ ds, d ∈ dirs

/-- The quantity that every iteration of the `while` loop of `RunBFS` lowers. -/
def bfsMeasure (s : BfsState) : Nat := (1200 - s.visitedCount).toNat

/-- What the loop of `RunBFS` guarantees on exit: the invariant held when the last
iteration began, and that iteration either found the queue empty or dequeued the end cell. -/
def BPost (g0 : Grid) (startN endN : Cell) (r : BfsState) : Prop :=
  ∃ s, BInv g0 startN endN noTodo s ∧ r.grid = s.grid ∧
    ((s.q = [] ∧ r.pathFound = false ∧ r.visitedCount = s.visitedCount) ∨
      (r.pathFound = true ∧ r.visitedCount = s.visitedCount + 1 ∧ ∃ rest, s.q = endN :: rest))

/-- Everything the handler `PartialReset(); RunBFS(startNode, endNode);` does to the model
`m`, with `m1` the model afterwards. -/
structure BfsOutcome (m m1 : Model) (t0 t1 : Rat) : Prop where
  post : BPost (PartialReset m).grid startNode endNode
    { grid := m1.grid, visitedCount := m1.visitedCount, pathFound := m1.pathFound, q := [] }
  previous : m1.previousPath = m.currentPath
  current : if m1.pathFound = true then SnapshotPath m1.grid endNode startNode = some m1.currentPath
    else m1.currentPath = ClearPathArray
  real : if m1.pathFound = true then CalcRealCost m1.grid endNode startNode = some m1.bfsRealCost
    else m1.bfsRealCost = 0
  last : m1.lastWasDijkstra = false
  ran : m1.algorithmRan = true ∧ m1.bfsRan = true
  visitedEq : m1.bfsVisited = m1.visitedCount
  time : m1.elapsedTime = t1 - t0 ∧ m1.bfsTime = t1 - t0
  foundEq : m1.bfsFound = m1.pathFound
  hops : m1.bfsHops = if m1.pathFound = true then (m1.grid endNode).dist else 0
  dijkstra : m1.dijkstraRan = m.dijkstraRan ∧ m1.dijkstraVisited = m.dijkstraVisited ∧
    m1.dijkstraTime = m.dijkstraTime ∧ m1.dijkstraFound = m.dijkstraFound ∧
    m1.dijkstraCost = m.dijkstraCost

/-- The terrain edits of `cells`, applied from left to right. -/
def editAll (kind : TerrainKind) (cells : List (Int × Int)) (m : Model) : Model :=
  cells.foldl (fun acc p => EditTerrain kind p.1 p.2 acc) m

/-- Scenario S3: after a full reset, mud on every cell `(x, 15)` with `10 ≤ x ≤ 30`. -/
def scenarioS3 (m : Model) : Model :=
  editAll TerrainKind.Mud ((List.range 21).map (fun (i : Nat) => ((10 : Int) + (i : Int), (15 : Int))))
    (FullReset m)

/-- Scenario S4: after a full reset, walls on every cell `(20, y)` with `0 ≤ y ≤ 29`. -/
def scenarioS4 (m : Model) : Model :=
  editAll TerrainKind.Wall ((List.range 30).map (fun (i : Nat) => ((20 : Int), (i : Int))))
    (FullReset m)

/-- The cell `c` is the target of one of the edits `cells` and is neither endpoint. -/
def editHits (cells : List (Int × Int)) (c : Cell) : Prop :=
  ∃ p ∈ cells, cellAt p.1 p.2 = some c ∧ c ≠ startNode ∧ c ≠ endNode

/-- Sum of `f (x + 1), ..., f (x + n)`: the cost of the straight walk of `n` steps to the
right of column `x` when `f` gives the entry cost of each column. -/
def rowSum (f : Nat → Int) : Nat → Nat → Int
  | _, 0 => 0
  | x, n + 1 => f (x + 1) + rowSum f (x + 1) n

/-- Entry cost by column on row 15 of scenario S3. -/
def s3RowCost (x : Nat) : Int := if 10 ≤ x ∧ x ≤ 30 then 5 else 1

/-! ## Dashboard and reachable states -/

/-- The four layouts between which the dashboard code of `main` chooses. -/
inductive DashboardMode where
  | idle
  | both
  | singleDijkstra
  | singleBfs
  deriving DecidableEq

/-- The mode selection of the dashboard in `main`: the chain
`if (!algorithmRan && !dijkstraRan && !bfsRan) ... else if (dijkstraRan && bfsRan) ... else`
with the test of `lastWasDijkstra` in the last branch. -/
def dashboardMode (m : Model) : DashboardMode :=
  if (!m.algorithmRan && !m.dijkstraRan && !m.bfsRan) = true then DashboardMode.idle
  else if (m.dijkstraRan && m.bfsRan) = true then DashboardMode.both
  else if m.lastWasDijkstra = true then DashboardMode.singleDijkstra
  else DashboardMode.singleBfs

/-- The terrain invariants of the data model: no cell is both wall and mud, and the two
endpoints are neither. -/
def TerrainOK (g : Grid) : Prop :=
  (∀ c, ¬ ((g c).isWall = true ∧ (g c).isMud = true)) ∧ Clear g

/-- The run flags agree with `lastWasDijkstra`: a run that is recorded as the current one
sets the flag of its algorithm. -/
def LastOK (m : Model) : Prop :=
  (m.algorithmRan = true → m.dijkstraRan = true ∨ m.bfsRan = true) ∧
  (m.dijkstraRan = true ∨ m.bfsRan = true →
    (m.lastWasDijkstra = true → m.dijkstraRan = true) ∧
    (m.lastWasDijkstra = false → m.bfsRan = true))

/-- What every state of the event loop satisfies: nodes store their own coordinates, the
terrain invariants hold, and the run flags agree with `lastWasDijkstra`. -/
def StateOK (m : Model) : Prop := WellFormed m.grid ∧ TerrainOK m.grid ∧ LastOK m

/-! ## Basic facts: loops, coordinates, the priority queue -/

/-- Loop rule: an invariant kept by every iteration and a measure that every iteration
lowers make the loop leave within `fuel` iterations, in a state that the exits allow. -/
theorem whileLoop_spec {σ ρ : Type} (body : σ → Step σ ρ) (Inv : σ → Prop) (Post : ρ → Prop)
    (μ : σ → Nat)
    (hnext : ∀ s s1, Inv s → body s = Step.next s1 → Inv s1 ∧ μ s1 < μ s)
    (hdone : ∀ s r, Inv s → body s = Step.done r → Post r)
    (hfail : ∀ s, Inv s → body s ≠ Step.fail) :
    ∀ fuel s, Inv s → μ s < fuel → ∃ r, whileLoop body fuel s = some r ∧ Post r := by
  intro fuel
  induction fuel with
  | zero => intro s _ h; omega
  | succ n ih =>
    intro s hs hμ
    unfold whileLoop
    cases hb : body s with
    | next s1 =>
      obtain ⟨h1, h2⟩ := hnext s s1 hs hb
      exact ih s1 h1 (by omega)
    | done r => exact ⟨r, rfl, hdone s r hs hb⟩
    | fail => exact absurd hb (hfail s hs)

theorem cellAt_eq_some {nx ny : Int} {n : Cell} :
    cellAt nx ny = some n ↔ (n.1.val : Int) = nx ∧ (n.2.val : Int) = ny := by
  unfold cellAt
  have h1 := n.1.isLt
  have h2 := n.2.isLt
  split
  · constructor
    · intro h; cases h
    · rintro ⟨rfl, rfl⟩; omega
  · constructor
    · intro h
      injection h with h
      subst h
      constructor <;> simp <;> omega
    · rintro ⟨rfl, rfl⟩
      simp

theorem cellAt_self (c : Cell) : cellAt (c.1.val : Int) (c.2.val : Int) = some c :=
  cellAt_eq_some.mpr ⟨rfl, rfl⟩

theorem dirs_eq : dirs = [(1, 0), (-1, 0), (0, 1), (0, -1)] := rfl

theorem cell_ext {a b : Cell} (h1 : (a.1.val : Int) = b.1.val) (h2 : (a.2.val : Int) = b.2.val) :
    a = b := by
  apply Prod.ext <;> apply Fin.ext <;> omega

theorem adjacent_iff_dirs (a b : Cell) :
    adjacent a b ↔ ∃ d ∈ dirs, cellAt ((a.1.val : Int) + d.1) ((a.2.val : Int) + d.2) = some b := by
  simp only [dirs_eq, adjacent, cellAt_eq_some, List.mem_cons, List.mem_singleton,
    List.not_mem_nil, or_false, exists_eq_or_imp, exists_eq_left]
  omega

theorem adjacent_symm {a b : Cell} (h : adjacent a b) : adjacent b a := by
  unfold adjacent at *
  omega

theorem adjacent_ne {a b : Cell} (h : adjacent a b) : a ≠ b := by
  rintro rfl
  unfold adjacent at h
  simp at h

theorem dir_ne_zero {d : Int × Int} (h : d ∈ dirs) (c : Cell) :
    cellAt ((c.1.val : Int) + d.1) ((c.2.val : Int) + d.2) ≠ some c := by
  intro hc
  exact adjacent_ne ((adjacent_iff_dirs c c).mpr ⟨d, h, hc⟩) rfl

theorem pqTop_eq_none {l : List (Int × Cell)} : pqTop l = none ↔ l = [] := by
  cases l with
  | nil => simp [pqTop]
  | cons e es =>
    simp only [pqTop]
    cases pqTop es with
    | none => simp
    | some b => by_cases h : entryLe e b = true <;> simp [h]

theorem pqTop_mem : ∀ {l : List (Int × Cell)} {e : Int × Cell}, pqTop l = some e → e ∈ l := by
  intro l
  induction l with
  | nil => intro e h; simp [pqTop] at h
  | cons a es ih =>
    intro e h
    simp only [pqTop] at h
    cases hb : pqTop es with
    | none =>
      rw [hb] at h
      simp at h
      simp [h]
    | some b =>
      rw [hb] at h
      by_cases hle : entryLe a b = true
      · simp [hle] at h
        simp [h]
      · simp [hle] at h
        subst h
        exact List.mem_cons_of_mem _ (ih hb)

theorem pqTop_le : ∀ {l : List (Int × Cell)} {e : Int × Cell}, pqTop l = some e →
    ∀ e1 ∈ l, e.1 ≤ e1.1 := by
  intro l
  induction l with
  | nil => intro e h; simp [pqTop] at h
  | cons a es ih =>
    intro e h e1 he1
    simp only [pqTop] at h
    cases hb : pqTop es with
    | none =>
      rw [hb] at h
      simp at h
      subst h
      have : es = [] := pqTop_eq_none.mp hb
      subst this
      simp at he1
      subst he1
      exact le_refl _
    | some b =>
      rw [hb] at h
      have hb1 := ih hb
      by_cases hle : entryLe a b = true
      · simp [hle] at h
        subst h
        have hab : a.1 ≤ b.1 := by
          simp only [entryLe, Bool.or_eq_true, Bool.and_eq_true, decide_eq_true_eq] at hle
          omega
        rcases List.mem_cons.mp he1 with rfl | h2
        · exact le_refl _
        · exact le_trans hab (hb1 e1 h2)
      · simp [hle] at h
        subst h
        have hab : b.1 ≤ a.1 := by
          simp only [entryLe, Bool.or_eq_true, Bool.and_eq_true, decide_eq_true_eq] at hle
          omega
        rcases List.mem_cons.mp he1 with rfl | h2
        · exact hab
        · exact hb1 e1 h2

theorem cellCost_pos (g : Grid) (c : Cell) : 1 ≤ cellCost g c ∧ cellCost g c ≤ 5 := by
  unfold cellCost
  split <;> omega

theorem sentinel_val : SENTINEL = 1000000 := rfl

theorem card_cells : Fintype.card Cell = 1200 := by
  simp [Cell, COLS, ROWS]

theorem visitedCells_card_le (g : Grid) : (visitedCells g).card ≤ 1200 := by
  have := Finset.card_le_univ (visitedCells g)
  rw [card_cells] at this
  exact this

theorem mem_visitedCells {g : Grid} {c : Cell} : c ∈ visitedCells g ↔ (g c).visited = true := by
  simp [visitedCells]

theorem visitedCells_congr {g g1 : Grid} (h : ∀ c, (g1 c).visited = (g c).visited) :
    visitedCells g1 = visitedCells g := by
  ext c
  simp [mem_visitedCells, h]

theorem visitedCells_mark {g g1 : Grid} {n : Cell} (hn : (g n).visited = false)
    (hn1 : (g1 n).visited = true) (h : ∀ c, c ≠ n → (g1 c).visited = (g c).visited) :
    (visitedCells g1).card = (visitedCells g).card + 1 := by
  have : visitedCells g1 = insert n (visitedCells g) := by
    ext c
    by_cases hc : c = n
    · subst hc; simp [mem_visitedCells, hn1]
    · simp [mem_visitedCells, h c hc, hc]
  rw [this, Finset.card_insert_of_not_mem]
  simp [mem_visitedCells, hn]

/-! ## Walks and parent chains -/

theorem walk_congr {g g1 : Grid} (h : ∀ c, (g1 c).isWall = (g c).isWall) :
    ∀ (steps : List Cell) (a c : Cell), Walk g1 a steps c ↔ Walk g a steps c := by
  intro steps
  induction steps with
  | nil => intro a c; simp [Walk]
  | cons b rest ih =>
    intro a c
    simp only [Walk, h b, ih b c]

theorem cellCost_congr {g g1 : Grid} (h : ∀ c, (g1 c).isMud = (g c).isMud) (c : Cell) :
    cellCost g1 c = cellCost g c := by
  unfold cellCost
  rw [h c]

theorem walkCost_congr {g g1 : Grid} (h : ∀ c, (g1 c).isMud = (g c).isMud) (steps : List Cell) :
    walkCost g1 steps = walkCost g steps := by
  unfold walkCost
  congr 1
  apply List.map_congr_left
  intro c _
  exact cellCost_congr h c

theorem walkCost_nil (g : Grid) : walkCost g [] = 0 := rfl

theorem walkCost_cons (g : Grid) (b : Cell) (rest : List Cell) :
    walkCost g (b :: rest) = cellCost g b + walkCost g rest := by
  simp [walkCost]

theorem walkCost_append (g : Grid) (l1 l2 : List Cell) :
    walkCost g (l1 ++ l2) = walkCost g l1 + walkCost g l2 := by
  simp [walkCost]

theorem walkCost_reverse (g : Grid) (l : List Cell) : walkCost g l.reverse = walkCost g l := by
  simp [walkCost, List.sum_reverse]

theorem walkCost_nonneg (g : Grid) (steps : List Cell) : 0 ≤ walkCost g steps := by
  induction steps with
  | nil => simp [walkCost]
  | cons b rest ih =>
    rw [walkCost_cons]
    have := cellCost_pos g b
    omega

/-- The entry costs are at least one each, so a walk costs at least its number of steps. -/
theorem length_le_walkCost (g : Grid) (steps : List Cell) :
    (steps.length : Int) ≤ walkCost g steps := by
  induction steps with
  | nil => simp [walkCost]
  | cons b rest ih =>
    rw [walkCost_cons]
    have := cellCost_pos g b
    simp only [List.length_cons]
    push_cast
    omega

theorem walk_append {g : Grid} : ∀ (l1 : List Cell) {a b c : Cell} {l2 : List Cell},
    Walk g a l1 b → Walk g b l2 c → Walk g a (l1 ++ l2) c := by
  intro l1
  induction l1 with
  | nil =>
    intro a b c l2 h1 h2
    simp only [Walk] at h1
    subst h1
    exact h2
  | cons x rest ih =>
    intro a b c l2 h1 h2
    simp only [Walk] at h1
    simp only [List.cons_append, Walk]
    exact ⟨h1.1, h1.2.1, ih h1.2.2 h2⟩

theorem walk_snoc {g : Grid} {a p c : Cell} {l : List Cell} (h : Walk g a l p)
    (hadj : adjacent p c) (hw : (g c).isWall = false) : Walk g a (l ++ [c]) c :=
  walk_append l h (by simp only [Walk]; exact ⟨hadj, hw, trivial⟩)

theorem parentChain_mono (g : Grid) (startN : Cell) :
    ∀ (fuel : Nat) (t : Option Cell) (l : List Cell), parentChain g startN fuel t = some l →
      ∀ fuel1, fuel ≤ fuel1 → parentChain g startN fuel1 t = some l := by
  intro fuel
  induction fuel with
  | zero => intro t l h; simp [parentChain] at h
  | succ n ih =>
    intro t l h fuel1 hle
    obtain ⟨k, rfl⟩ : ∃ k, fuel1 = k + 1 := ⟨fuel1 - 1, by omega⟩
    cases t with
    | none => simpa [parentChain] using h
    | some t =>
      simp only [parentChain] at h ⊢
      by_cases hts : t = startN
      · simpa [hts] using h
      · rw [if_neg hts] at h ⊢
        cases hp : parentChain g startN n (g t).parent with
        | none => rw [hp] at h; simp at h
        | some l1 =>
          rw [hp] at h
          rw [ih _ l1 hp k (by omega)]
          exact h

/-- A parent chain none of whose cells has a null parent stops at the start cell: each of
its cells has the next one as its parent, and the last one has the start cell. -/
theorem parentChain_links {g : Grid} {startN : Cell} :
    ∀ (fuel : Nat) (t : Cell) (chain : List Cell),
      parentChain g startN fuel (some t) = some chain → t ≠ startN →
      (∀ x ∈ chain, ∃ p, (g x).parent = some p) →
      ∃ rest, chain = t :: rest ∧
        List.Chain (fun a b => (g a).parent = some b) t (rest ++ [startN]) := by
  intro fuel
  induction fuel with
  | zero => intro t chain h; simp [parentChain] at h
  | succ n ih =>
    intro t chain h hts hpar
    simp only [parentChain, if_neg hts] at h
    cases hq : parentChain g startN n (g t).parent with
    | none => rw [hq] at h; simp at h
    | some l1 =>
      rw [hq] at h
      simp only [Option.map_some', Option.some.injEq] at h
      subst h
      refine ⟨l1, rfl, ?_⟩
      obtain ⟨p, hp⟩ := hpar t (List.mem_cons_self _ _)
      rw [hp] at hq
      by_cases hps : p = startN
      · have hl : l1 = [] := by
          cases n with
          | zero => simp [parentChain] at hq
          | succ k =>
            simp only [parentChain, if_pos hps, Option.some.injEq] at hq
            exact hq.symm
        rw [hl, ← hps]
        exact List.Chain.cons hp List.Chain.nil
      · obtain ⟨rest, hr, hc⟩ :=
          ih p l1 hq hps (fun x hx => hpar x (List.mem_cons_of_mem _ hx))
        rw [hr]
        exact List.Chain.cons hp hc

/-- Following parent links from a reached cell arrives at the start cell; the cells met,
read backwards, are a walk from the start cell, and `dist` adds up along them. -/
theorem chain_spec {g : Grid} {startN : Cell} {R : Cell → Prop} {w : Cell → Int}
    (h : ChainOK g startN R w) :
    ∀ (fuel : Nat) (c : Cell), R c → (g c).dist < (fuel : Int) →
      ∃ l, parentChain g startN fuel (some c) = some l ∧ Walk g startN l.reverse c ∧
        (l.map w).sum + (g startN).dist = (g c).dist ∧
        (∀ x ∈ l, R x ∧ x ≠ startN ∧ (g x).dist ≤ (g c).dist) ∧
        l.Pairwise (fun a b => (g b).dist < (g a).dist) ∧
        (c ≠ startN → ∃ p l1, (g c).parent = some p ∧ l = c :: l1 ∧
          parentChain g startN fuel (some p) = some l1) := by
  intro fuel
  induction fuel with
  | zero =>
    intro c hc hlt
    have := h.nonneg c hc
    simp at hlt
    omega
  | succ n ih =>
    intro c hc hlt
    by_cases hcs : c = startN
    · subst hcs
      refine ⟨[], by simp [parentChain], by simp [Walk], by simp, by simp, by simp, ?_⟩
      intro hne
      exact absurd rfl hne
    · obtain ⟨p, hp1, hp2, hp3, hp4, hp5⟩ := h.link c hcs hc
      have hw := h.wpos c
      have hplt : (g p).dist < (n : Int) := by push_cast at hlt; omega
      obtain ⟨l1, hl1, hl2, hl3, hl4, hl5, _⟩ := ih p hp2 hplt
      refine ⟨c :: l1, ?_, ?_, ?_, ?_, ?_, ?_⟩
      · simp only [parentChain, if_neg hcs, hp1, hl1, Option.map_some']
      · rw [List.reverse_cons]
        exact walk_snoc hl2 hp3 hp4
      · simp only [List.map_cons, List.sum_cons]
        omega
      · intro x hx
        rcases List.mem_cons.mp hx with rfl | hx1
        · exact ⟨hc, hcs, le_refl _⟩
        · obtain ⟨a1, a2, a3⟩ := hl4 x hx1
          exact ⟨a1, a2, by omega⟩
      · rw [List.pairwise_cons]
        refine ⟨?_, hl5⟩
        intro x hx
        have := (hl4 x hx).2.2
        omega
      · intro _
        exact ⟨p, l1, hp1, rfl, parentChain_mono g startN n _ l1 hl1 (n + 1) (by omega)⟩

/-- The loop of `CalcRealCost` adds up the entry costs of the cells of the parent chain. -/
theorem calcLoop_of_chain (g : Grid) (startN : Cell) :
    ∀ (fuel : Nat) (t : Option Cell) (acc : Int) (l : List Cell),
      parentChain g startN fuel t = some l →
      whileLoop (calcBody g startN) fuel (t, acc) = some (acc + walkCost g l) := by
  intro fuel
  induction fuel with
  | zero => intro t acc l h; simp [parentChain] at h
  | succ n ih =>
    intro t acc l h
    cases t with
    | none =>
      simp only [parentChain] at h
      cases h
      simp [whileLoop, calcBody, walkCost]
    | some t =>
      simp only [parentChain] at h
      by_cases hts : t = startN
      · rw [if_pos hts] at h
        cases h
        simp [whileLoop, calcBody, walkCost, hts]
      · rw [if_neg hts] at h
        cases hp : parentChain g startN n (g t).parent with
        | none => rw [hp] at h; simp at h
        | some l1 =>
          rw [hp] at h
          simp only [Option.map_some', Option.some.injEq] at h
          subst h
          simp only [whileLoop, calcBody, if_neg hts]
          rw [ih _ _ l1 hp, walkCost_cons]
          unfold cellCost
          congr 1
          omega

/-- The loop of `SnapshotPath` marks exactly the cells of the parent chain. -/
theorem snapshotLoop_of_chain {g : Grid} (hg : WellFormed g) (startN : Cell) :
    ∀ (fuel : Nat) (t : Option Cell) (arr : PathArray) (l : List Cell),
      parentChain g startN fuel t = some l →
      ∃ arr1, whileLoop (snapshotBody g startN) fuel (t, arr) = some arr1 ∧
        ∀ c, arr1 c = true ↔ (arr c = true ∨ c ∈ l) := by
  intro fuel
  induction fuel with
  | zero => intro t arr l h; simp [parentChain] at h
  | succ n ih =>
    intro t arr l h
    cases t with
    | none =>
      simp only [parentChain] at h
      cases h
      exact ⟨arr, by simp [whileLoop, snapshotBody], by simp⟩
    | some t =>
      simp only [parentChain] at h
      by_cases hts : t = startN
      · rw [if_pos hts] at h
        cases h
        exact ⟨arr, by simp [whileLoop, snapshotBody, hts], by simp⟩
      · rw [if_neg hts] at h
        cases hp : parentChain g startN n (g t).parent with
        | none => rw [hp] at h; simp at h
        | some l1 =>
          rw [hp] at h
          simp only [Option.map_some', Option.some.injEq] at h
          subst h
          obtain ⟨arr1, ha1, ha2⟩ := ih _ (Function.update arr t true) l1 hp
          refine ⟨arr1, ?_, ?_⟩
          · simp only [whileLoop, snapshotBody, if_neg hts, (hg t).1, (hg t).2, cellAt_self]
            exact ha1
          · intro c
            rw [ha2 c]
            by_cases hct : c = t
            · subst hct; simp
            · simp [Function.update_noteq hct, hct]

theorem pathFacts_of_chain {g : Grid} {startN endN : Cell} {R : Cell → Prop} {w : Cell → Int}
    (hg : WellFormed g) (h : ChainOK g startN R w) (hR : R endN)
    (hlt : (g endN).dist < (loopFuel : Int)) (hne : endN ≠ startN) :
    ∃ l cur, PathFacts g startN endN R w l cur := by
  obtain ⟨l0, h1, h2, h3, h4, h5, h6⟩ := chain_spec h loopFuel endN hR hlt
  obtain ⟨p, l, hp, rfl, hl⟩ := h6 hne
  obtain ⟨arr1, ha1, ha2⟩ := snapshotLoop_of_chain hg startN loopFuel (some p) ClearPathArray l hl
  obtain ⟨p1, hp1, _, hp3, _, _⟩ := h.link endN hne hR
  have hpp : p1 = p := by
    rw [hp] at hp1
    exact (Option.some.inj hp1).symm
  subst hpp
  refine ⟨l, arr1, ?_⟩
  exact
    { chain := h1
      snapshot := by
        unfold SnapshotPath
        rw [hp]
        exact ha1
      marks := by
        intro c
        rw [ha2 c]
        simp [ClearPathArray]
      real := by
        unfold CalcRealCost
        rw [calcLoop_of_chain g startN loopFuel (some endN) 0 _ h1]
        simp
      walk := h2
      sum := h3
      decr := h5
      mem := fun x hx => ⟨(h4 x hx).1, (h4 x hx).2.1⟩
      parent := ⟨p1, hp, hp3, hl⟩
      links := by
        obtain ⟨rest, hr, hc⟩ := parentChain_links loopFuel endN _ h1 hne (fun x hx => by
          obtain ⟨q, hq, _⟩ := h.link x (h4 x hx).2.1 (h4 x hx).1
          exact ⟨q, hq⟩)
        cases hr
        exact hc }

/-! ## Dijkstra: loop invariant -/

theorem DInv.dijkstra_vc_le {g0 : Grid} {startN endN : Cell} {todo : Cell → Cell → Prop}
    {s : DijkstraState} (h : DInv g0 startN endN todo s) : s.visitedCount ≤ 1200 := by
  have := visitedCells_card_le s.grid
  rw [h.count]
  exact_mod_cast this

/-- An offset that needs no update leaves the invariant in place. -/
theorem DInv.dijkstra_shrink {g0 : Grid} {startN endN curr : Cell} {d : Int × Int}
    {ds : List (Int × Int)} {s : DijkstraState}
    (h : DInv g0 startN endN (todoPairs curr (d :: ds)) s)
    (hd : ∀ n, cellAt ((curr.1.val : Int) + d.1) ((curr.2.val : Int) + d.2) = some n →
      (s.grid n).isWall = false → (s.grid n).dist ≤ (s.grid curr).dist + cellCost s.grid n) :
    DInv g0 startN endN (todoPairs curr ds) s :=
  { coords := h.coords
    terrain := h.terrain
    start0 := h.start0
    range := h.range
    count := h.count
    keys := h.keys
    queued := h.queued
    mono := h.mono
    relaxed := by
      intro v n hv hadj hnt hw
      by_cases ht : todoPairs curr (d :: ds) v n
      · obtain ⟨rfl, d1, hd1, hc⟩ := ht
        rcases List.mem_cons.mp hd1 with rfl | hmem
        · exact hd n hc hw
        · exact absurd ⟨rfl, d1, hmem, hc⟩ hnt
      · exact h.relaxed v n hv hadj ht hw
    link := h.link
    settled := h.settled
    endOpen := h.endOpen
    found := h.found }

/-- Relaxing the edge from `curr` to `n` keeps the invariant. -/
theorem DInv.relax {g0 : Grid} {startN endN curr n : Cell} {d : Int × Int}
    {ds : List (Int × Int)} {s s1 : DijkstraState} {L : Nat}
    (h : DInv g0 startN endN (todoPairs curr (d :: ds)) s) (hc : DCur curr L (d :: ds) s)
    (hcell : cellAt ((curr.1.val : Int) + d.1) ((curr.2.val : Int) + d.2) = some n)
    (hw : (s.grid n).isWall = false)
    (hlt : (s.grid n).dist > (s.grid curr).dist + cellCost s.grid n)
    (hgs : s1.grid n =
      { s.grid n with dist := (s.grid curr).dist + cellCost s.grid n, parent := some curr })
    (hgn : ∀ c, c ≠ n → s1.grid c = s.grid c)
    (hpq : s1.pq = ((s.grid curr).dist + cellCost s.grid n, n) :: s.pq)
    (hvc : s1.visitedCount = s.visitedCount) (hpf : s1.pathFound = s.pathFound) :
    DInv g0 startN endN (todoPairs curr ds) s1 ∧ DCur curr L ds s1 := by
  have hcp := cellCost_pos s.grid n
  have hc0 := (h.range curr).1
  have hnv : (s.grid n).visited = false := by
    by_contra hv
    have := hc.currMax n (by simpa using hv)
    omega
  have hncurr : n ≠ curr := by
    rintro rfl
    omega
  have hnstart : n ≠ startN := by
    rintro rfl
    have := h.start0.1
    omega
  have hadj : adjacent curr n := (adjacent_iff_dirs curr n).mpr ⟨d, hc.sub d (by simp), hcell⟩
  have hvis : ∀ c, (s1.grid c).visited = (s.grid c).visited := by
    intro c
    by_cases hcn : c = n
    · subst hcn; rw [hgs]
    · rw [hgn c hcn]
  have hcost : ∀ c, cellCost s1.grid c = cellCost s.grid c := by
    intro c
    unfold cellCost
    by_cases hcn : c = n
    · subst hcn; rw [hgs]
    · rw [hgn c hcn]
  have hdn : (s1.grid n).dist = (s.grid curr).dist + cellCost s.grid n := by rw [hgs]
  have hdle : ∀ c, (s1.grid c).dist ≤ (s.grid c).dist := by
    intro c
    by_cases hcn : c = n
    · subst hcn; omega
    · rw [hgn c hcn]
  have hdv : ∀ c, (s.grid c).visited = true → s1.grid c = s.grid c := by
    intro c hv
    apply hgn
    rintro rfl
    rw [hnv] at hv
    cases hv
  constructor
  · refine
    { coords := ?_, terrain := ?_, start0 := ?_, range := ?_, count := ?_, keys := ?_,
      queued := ?_, mono := ?_, relaxed := ?_, link := ?_, settled := ?_, endOpen := ?_,
      found := hpf.trans h.found }
    · intro c
      by_cases hcn : c = n
      · subst hcn; rw [hgs]; exact h.coords c
      · rw [hgn c hcn]; exact h.coords c
    · intro c
      by_cases hcn : c = n
      · subst hcn; rw [hgs]; exact h.terrain c
      · rw [hgn c hcn]; exact h.terrain c
    · rw [hgn startN (Ne.symm hnstart)]
      exact h.start0
    · intro c
      rw [hvc]
      by_cases hcn : c = n
      · subst hcn
        have := hc.currRange
        constructor
        · omega
        · right; omega
      · rw [hgn c hcn]; exact h.range c
    · rw [visitedCells_congr hvis, hvc]
      exact h.count
    · intro e he
      rw [hpq] at he
      rw [hvc]
      rcases List.mem_cons.mp he with rfl | he1
      · have := hc.currRange
        simp only
        omega
      · have := h.keys e he1
        have := hdle e.2
        omega
    · intro c hcv hcd
      rw [hpq]
      by_cases hcn : c = n
      · subst hcn
        rw [hdn]
        exact List.mem_cons_self _ _
      · rw [hgn c hcn] at hcv hcd ⊢
        exact List.mem_cons_of_mem _ (h.queued c hcv hcd)
    · intro v hv e he
      rw [hvis] at hv
      rw [hdv v hv]
      rw [hpq] at he
      rcases List.mem_cons.mp he with rfl | he1
      · have := hc.currMax v hv
        simp only
        omega
      · exact h.mono v hv e he1
    · intro v m hv hadjvm hnt hwm
      rw [hvis] at hv
      rw [hdv v hv, hcost]
      by_cases hmn : m = n
      · subst hmn
        by_cases hvc1 : v = curr
        · subst hvc1
          rw [hdn]
        · have hold := h.relaxed v m hv hadjvm (fun ht => hvc1 ht.1) hw
          have := hdle m
          omega
      · rw [hgn m hmn] at hwm ⊢
        apply h.relaxed v m hv hadjvm _ hwm
        rintro ⟨rfl, d1, hd1, hcm⟩
        rcases List.mem_cons.mp hd1 with rfl | hmem
        · rw [hcell] at hcm
          exact hmn (Option.some.inj hcm).symm
        · exact hnt ⟨rfl, d1, hmem, hcm⟩
    · intro c hcs hcd
      by_cases hcn : c = n
      · subst hcn
        refine ⟨curr, ?_, ?_, hadj, ?_, ?_⟩
        · rw [hgs]
        · rw [hvis]; exact hc.currV
        · rw [hdn, hgn curr (Ne.symm hncurr), hcost]
        · rw [hgs]; exact hw
      · rw [hgn c hcn] at hcd ⊢
        obtain ⟨p, hp1, hp2, hp3, hp4, hp5⟩ := h.link c hcs hcd
        refine ⟨p, hp1, ?_, hp3, ?_, hp5⟩
        · rw [hvis]; exact hp2
        · rw [hdv p hp2, hcost]; exact hp4
    · intro v hv
      rw [hvis] at hv
      rw [hdv v hv]
      exact h.settled v hv
    · rw [hvis]
      exact h.endOpen
  · refine { currV := ?_, currMax := ?_, currRange := ?_, sub := ?_, len := ?_ }
    · rw [hvis]; exact hc.currV
    · intro v hv
      rw [hvis] at hv
      rw [hdv v hv, hdv curr hc.currV]
      exact hc.currMax v hv
    · rw [hdv curr hc.currV, hvc]
      exact hc.currRange
    · intro d1 hd1
      exact hc.sub d1 (List.mem_cons_of_mem _ hd1)
    · have := hc.len
      rw [hpq]
      simp only [List.length_cons] at this ⊢
      omega

/-- One pass of the `for` loop body keeps the invariant and retires one offset. -/
theorem relaxStep_inv {g0 : Grid} {startN endN curr : Cell} {d : Int × Int}
    {ds : List (Int × Int)} {s : DijkstraState} {L : Nat}
    (h : DInv g0 startN endN (todoPairs curr (d :: ds)) s) (hc : DCur curr L (d :: ds) s) :
    DInv g0 startN endN (todoPairs curr ds) (relaxStep curr s d) ∧
      DCur curr L ds (relaxStep curr s d) := by
  have hsame : DCur curr L ds s :=
    { currV := hc.currV, currMax := hc.currMax, currRange := hc.currRange
      sub := fun d1 hd1 => hc.sub d1 (List.mem_cons_of_mem _ hd1)
      len := by have := hc.len; simp only [List.length_cons] at this; omega }
  unfold relaxStep
  rw [(h.coords curr).1, (h.coords curr).2]
  cases hcell : cellAt ((curr.1.val : Int) + d.1) ((curr.2.val : Int) + d.2) with
  | none =>
    refine ⟨h.dijkstra_shrink ?_, hsame⟩
    intro n hn
    rw [hcell] at hn
    cases hn
  | some n =>
    simp only
    by_cases hw : (s.grid n).isWall = true
    · rw [if_pos hw]
      refine ⟨h.dijkstra_shrink ?_, hsame⟩
      intro n1 hn1 hw1
      rw [hcell] at hn1
      cases hn1
      rw [hw] at hw1
      cases hw1
    · rw [if_neg hw]
      have hw0 : (s.grid n).isWall = false := by simpa using hw
      have hcostEq : (if (s.grid n).isMud = true then (5 : Int) else 1) = cellCost s.grid n := rfl
      rw [hcostEq]
      by_cases hlt : (s.grid n).dist > (s.grid curr).dist + cellCost s.grid n
      · rw [if_pos hlt]
        exact DInv.relax h hc hcell hw0 hlt (Function.update_same _ _ _)
          (fun c hcn => Function.update_noteq hcn _ _) rfl rfl rfl
      · rw [if_neg hlt]
        refine ⟨h.dijkstra_shrink ?_, hsame⟩
        intro n1 hn1 _
        rw [hcell] at hn1
        cases hn1
        omega

/-- The whole `for` loop keeps the invariant and relaxes every edge out of `curr`. -/
theorem relaxAll_inv {g0 : Grid} {startN endN curr : Cell} {L : Nat} :
    ∀ (ds : List (Int × Int)) (s : DijkstraState),
      DInv g0 startN endN (todoPairs curr ds) s → DCur curr L ds s →
      DInv g0 startN endN (todoPairs curr []) (ds.foldl (relaxStep curr) s) ∧
        DCur curr L [] (ds.foldl (relaxStep curr) s) := by
  intro ds
  induction ds with
  | nil => intro s h hc; exact ⟨h, hc⟩
  | cons d ds ih =>
    intro s h hc
    obtain ⟨h1, h2⟩ := relaxStep_inv h hc
    exact ih _ h1 h2

/-- Replacing the exemption by an equivalent one. -/
theorem DInv.dijkstra_todo_congr {g0 : Grid} {startN endN : Cell} {todo todo1 : Cell → Cell → Prop}
    {s : DijkstraState} (h : DInv g0 startN endN todo s)
    (ht : ∀ v n, (s.grid v).visited = true → adjacent v n → todo v n → todo1 v n) :
    DInv g0 startN endN todo1 s :=
  { coords := h.coords
    terrain := h.terrain
    start0 := h.start0
    range := h.range
    count := h.count
    keys := h.keys
    queued := h.queued
    mono := h.mono
    relaxed := fun v n hv hadj hnt hw => h.relaxed v n hv hadj (fun t => hnt (ht v n hv hadj t)) hw
    link := h.link
    settled := h.settled
    endOpen := h.endOpen
    found := h.found }

/-- Popping a stale entry keeps the invariant. -/
theorem DInv.stale {g0 : Grid} {startN endN : Cell} {s : DijkstraState} {e : Int × Cell}
    (h : DInv g0 startN endN noTodo s) (hv : (s.grid e.2).visited = true) :
    DInv g0 startN endN noTodo { s with pq := s.pq.erase e } :=
  { coords := h.coords
    terrain := h.terrain
    start0 := h.start0
    range := h.range
    count := h.count
    keys := fun e1 he1 => h.keys e1 (List.mem_of_mem_erase he1)
    queued := by
      intro c hcv hcd
      have hne : ((s.grid c).dist, c) ≠ e := by
        rintro rfl
        simp only at hv
        rw [hcv] at hv
        cases hv
      exact (List.mem_erase_of_ne hne).mpr (h.queued c hcv hcd)
    mono := fun v hv1 e1 he1 => h.mono v hv1 e1 (List.mem_of_mem_erase he1)
    relaxed := h.relaxed
    link := h.link
    settled := h.settled
    endOpen := h.endOpen
    found := h.found }

/-- The popped key of an unvisited cell is its current `dist`. -/
theorem DInv.top_key {g0 : Grid} {startN endN : Cell} {s : DijkstraState} {e : Int × Cell}
    (h : DInv g0 startN endN noTodo s) (he : pqTop s.pq = some e)
    (hv : (s.grid e.2).visited = false) : (s.grid e.2).dist = e.1 := by
  have hmem := pqTop_mem he
  have hk := h.keys e hmem
  have hvc := h.dijkstra_vc_le
  have hlt : (s.grid e.2).dist < SENTINEL := by
    rw [sentinel_val]; omega
  have := pqTop_le he _ (h.queued e.2 hv hlt)
  simp only at this
  omega

/-- Settling the popped cell establishes the invariant of the `for` loop. -/
theorem DInv.settle {g0 : Grid} {startN endN : Cell} {s s1 : DijkstraState} {e : Int × Cell}
    (h : DInv g0 startN endN noTodo s) (he : pqTop s.pq = some e)
    (hv : (s.grid e.2).visited = false) (hend : e.2 ≠ endN)
    (hgs : s1.grid e.2 = { s.grid e.2 with visited := true })
    (hgn : ∀ c, c ≠ e.2 → s1.grid c = s.grid c)
    (hpq : s1.pq = s.pq.erase e)
    (hvc : s1.visitedCount = s.visitedCount + 1) (hpf : s1.pathFound = s.pathFound) :
    DInv g0 startN endN (todoPairs e.2 dirs) s1 ∧ DCur e.2 (s.pq.length + 3) dirs s1 := by
  have hmem := pqTop_mem he
  have hkey := h.top_key he hv
  have hk := h.keys e hmem
  have hvcle := h.dijkstra_vc_le
  have hdist : ∀ c, (s1.grid c).dist = (s.grid c).dist := by
    intro c
    by_cases hcn : c = e.2
    · rw [hcn, hgs]
    · rw [hgn c hcn]
  have hcost : ∀ c, cellCost s1.grid c = cellCost s.grid c := by
    intro c
    unfold cellCost
    by_cases hcn : c = e.2
    · rw [hcn, hgs]
    · rw [hgn c hcn]
  have hvis : ∀ c, (s1.grid c).visited = true ↔ (c = e.2 ∨ (s.grid c).visited = true) := by
    intro c
    by_cases hcn : c = e.2
    · rw [hcn, hgs]; simp
    · rw [hgn c hcn]; simp [hcn]
  have hcard : (visitedCells s1.grid).card = (visitedCells s.grid).card + 1 :=
    visitedCells_mark hv (by rw [hgs]) (fun c hcn => by rw [hgn c hcn])
  constructor
  · refine
    { coords := ?_, terrain := ?_, start0 := ?_, range := ?_, count := ?_, keys := ?_,
      queued := ?_, mono := ?_, relaxed := ?_, link := ?_, settled := ?_, endOpen := ?_,
      found := hpf.trans h.found }
    · intro c
      by_cases hcn : c = e.2
      · rw [hcn, hgs]; exact h.coords e.2
      · rw [hgn c hcn]; exact h.coords c
    · intro c
      by_cases hcn : c = e.2
      · rw [hcn, hgs]; exact h.terrain e.2
      · rw [hgn c hcn]; exact h.terrain c
    · by_cases hcn : startN = e.2
      · rw [hcn, hgs]; rw [hcn] at h; exact h.start0
      · rw [hgn startN hcn]; exact h.start0
    · intro c
      rw [hdist, hvc]
      have := h.range c
      omega
    · rw [hvc, hcard, h.count]
      push_cast
      rfl
    · intro e1 he1
      rw [hpq] at he1
      have := h.keys e1 (List.mem_of_mem_erase he1)
      rw [hdist, hvc]
      omega
    · intro c hcv hcd
      rw [hdist] at hcd ⊢
      rw [hpq]
      have hcn : c ≠ e.2 := by
        rintro rfl
        rw [hgs] at hcv
        cases hcv
      rw [hgn c hcn] at hcv
      have hne : ((s.grid c).dist, c) ≠ e := by
        rintro rfl
        exact hcn rfl
      exact (List.mem_erase_of_ne hne).mpr (h.queued c hcv hcd)
    · intro v hv1 e1 he1
      rw [hpq] at he1
      have he2 := List.mem_of_mem_erase he1
      rw [hdist]
      rcases (hvis v).mp hv1 with rfl | hv2
      · rw [hkey]
        exact pqTop_le he e1 he2
      · exact h.mono v hv2 e1 he2
    · intro v n hv1 hadj hnt hw
      rw [hdist, hdist, hcost]
      have hw1 : (s.grid n).isWall = false := by
        by_cases hcn : n = e.2
        · rw [hcn, hgs] at hw; rw [hcn]; exact hw
        · rw [hgn n hcn] at hw; exact hw
      rcases (hvis v).mp hv1 with rfl | hv2
      · exact absurd ⟨rfl, (adjacent_iff_dirs _ n).mp hadj⟩ hnt
      · exact h.relaxed v n hv2 hadj (fun t => t) hw1
    · intro c hcs hcd
      rw [hdist] at hcd
      obtain ⟨p, hp1, hp2, hp3, hp4, hp5⟩ := h.link c hcs hcd
      refine ⟨p, ?_, (hvis p).mpr (Or.inr hp2), hp3, ?_, ?_⟩
      · by_cases hcn : c = e.2
        · rw [hcn, hgs]; rw [hcn] at hp1; exact hp1
        · rw [hgn c hcn]; exact hp1
      · rw [hdist, hdist, hcost]; exact hp4
      · by_cases hcn : c = e.2
        · rw [hcn, hgs]; rw [hcn] at hp5; exact hp5
        · rw [hgn c hcn]; exact hp5
    · intro v hv1
      rw [hdist]
      rcases (hvis v).mp hv1 with rfl | hv2
      · rw [hkey, sentinel_val]; omega
      · exact h.settled v hv2
    · rw [hgn endN (Ne.symm hend)]
      exact h.endOpen
  · refine { currV := (hvis e.2).mpr (Or.inl rfl), currMax := ?_, currRange := ?_,
             sub := fun d hd => hd, len := ?_ }
    · intro v hv1
      rw [hdist, hdist, hkey]
      rcases (hvis v).mp hv1 with rfl | hv2
      · rw [hkey]
      · exact h.mono v hv2 e hmem
    · rw [hdist, hvc, hkey]
      omega
    · rw [hpq, List.length_erase_of_mem hmem, dirs_eq]
      have : 0 < s.pq.length := List.length_pos_of_mem hmem
      simp only [List.length_cons, List.length_nil]
      omega

theorem fresh_partialReset {m : Model} (h : WellFormed m.grid) : Fresh (PartialReset m) :=
  { coords := fun c => h c
    dist := fun _ => rfl
    parent := fun _ => rfl
    visited := fun _ => rfl
    vc := rfl
    pf := rfl }

theorem dijkstraInit_inv {m : Model} (hm : Fresh m) (startN endN : Cell) :
    DInv m.grid startN endN noTodo (dijkstraInit m startN) := by
  have hgs : (dijkstraInit m startN).grid startN = { m.grid startN with dist := 0 } :=
    Function.update_same _ _ _
  have hgn : ∀ c, c ≠ startN → (dijkstraInit m startN).grid c = m.grid c :=
    fun c hc => Function.update_noteq hc _ _
  have hpq : (dijkstraInit m startN).pq = [(0, startN)] := rfl
  have hvc : (dijkstraInit m startN).visitedCount = 0 := hm.vc
  have hvis : ∀ c, ((dijkstraInit m startN).grid c).visited = false := by
    intro c
    by_cases hc : c = startN
    · rw [hc, hgs]; exact hm.visited startN
    · rw [hgn c hc]; exact hm.visited c
  have hds : ((dijkstraInit m startN).grid startN).dist = 0 := by rw [hgs]
  have hdn : ∀ c, c ≠ startN → ((dijkstraInit m startN).grid c).dist = SENTINEL := by
    intro c hc
    rw [hgn c hc]; exact hm.dist c
  refine
    { coords := ?_, terrain := ?_, start0 := ?_, range := ?_, count := ?_, keys := ?_,
      queued := ?_, mono := ?_, relaxed := ?_, link := ?_, settled := ?_, endOpen := hvis endN,
      found := hm.pf }
  · intro c
    by_cases hc : c = startN
    · rw [hc, hgs]; exact hm.coords startN
    · rw [hgn c hc]; exact hm.coords c
  · intro c
    by_cases hc : c = startN
    · rw [hc, hgs]; exact ⟨rfl, rfl⟩
    · rw [hgn c hc]; exact ⟨rfl, rfl⟩
  · refine ⟨hds, ?_⟩
    rw [hgs]; exact hm.parent startN
  · intro c
    by_cases hc : c = startN
    · rw [hc, hds, hvc]; omega
    · rw [hdn c hc, sentinel_val]; omega
  · rw [hvc]
    have : visitedCells (dijkstraInit m startN).grid = ∅ := by
      ext c
      simp [mem_visitedCells, hvis c]
    rw [this]
    rfl
  · intro e he
    rw [hpq] at he
    simp only [List.mem_singleton] at he
    subst he
    rw [hvc]
    simp only
    omega
  · intro c _ hcd
    by_cases hc : c = startN
    · rw [hc, hds, hpq]; simp
    · rw [hdn c hc] at hcd; omega
  · intro v hv
    rw [hvis v] at hv; cases hv
  · intro v n hv
    rw [hvis v] at hv; cases hv
  · intro c hcs hcd
    rw [hdn c hcs] at hcd; omega
  · intro v hv
    rw [hvis v] at hv; cases hv

theorem relaxStep_vc (curr : Cell) (s : DijkstraState) (d : Int × Int) :
    (relaxStep curr s d).visitedCount = s.visitedCount := by
  unfold relaxStep
  cases cellAt ((s.grid curr).x + d.1) ((s.grid curr).y + d.2) with
  | none => rfl
  | some n =>
    simp only
    split_ifs <;> rfl

theorem relaxAll_vc (curr : Cell) : ∀ (ds : List (Int × Int)) (s : DijkstraState),
    (ds.foldl (relaxStep curr) s).visitedCount = s.visitedCount := by
  intro ds
  induction ds with
  | nil => intro s; rfl
  | cons d ds ih =>
    intro s
    rw [List.foldl_cons, ih, relaxStep_vc]

/-- Settling the popped cell and relaxing its four neighbours keeps the invariant and
lowers the measure. -/
theorem settle_relax_spec {g0 : Grid} {startN endN : Cell} {s s2 : DijkstraState}
    {e : Int × Cell} (h : DInv g0 startN endN noTodo s) (he : pqTop s.pq = some e)
    (hv : (s.grid e.2).visited = false) (hend : e.2 ≠ endN)
    (hgs : s2.grid e.2 = { s.grid e.2 with visited := true })
    (hgn : ∀ c, c ≠ e.2 → s2.grid c = s.grid c)
    (hpq : s2.pq = s.pq.erase e)
    (hvc : s2.visitedCount = s.visitedCount + 1) (hpf : s2.pathFound = s.pathFound) :
    DInv g0 startN endN noTodo (dirs.foldl (relaxStep e.2) s2) ∧
      dijkstraMeasure (dirs.foldl (relaxStep e.2) s2) < dijkstraMeasure s := by
  obtain ⟨h1, h2⟩ := DInv.settle h he hv hend hgs hgn hpq hvc hpf
  obtain ⟨h3, h4⟩ := relaxAll_inv dirs _ h1 h2
  have h5 : DInv g0 startN endN noTodo (dirs.foldl (relaxStep e.2) s2) :=
    h3.dijkstra_todo_congr (fun v n _ _ t => by
      obtain ⟨_, d, hd, _⟩ := t
      cases hd)
  refine ⟨h5, ?_⟩
  unfold dijkstraMeasure
  have hlen := h4.len
  have hc1 := h5.count
  have hc0 := h.count
  have hvcfold := relaxAll_vc e.2 dirs s2
  have hcardle := visitedCells_card_le (dirs.foldl (relaxStep e.2) s2).grid
  rw [hvcfold, hvc] at hc1
  simp only [List.length_nil] at hlen
  omega

/-- One iteration of the `while` loop of `RunDijkstra`: it continues with the invariant and
a smaller measure, or it leaves the loop as `DPost` describes. -/
theorem dijkstraBody_spec {g0 : Grid} {startN endN : Cell} {s : DijkstraState}
    (h : DInv g0 startN endN noTodo s) :
    (∀ s1, dijkstraBody endN s = Step.next s1 →
      DInv g0 startN endN noTodo s1 ∧ dijkstraMeasure s1 < dijkstraMeasure s) ∧
    (∀ r, dijkstraBody endN s = Step.done r → DPost g0 startN endN r) ∧
    dijkstraBody endN s ≠ Step.fail := by
  unfold dijkstraBody
  cases he : pqTop s.pq with
  | none =>
    refine ⟨?_, ?_, ?_⟩
    · intro s1 h1; cases h1
    · intro r hr
      injection hr with hr
      subst hr
      exact ⟨s, h, rfl, rfl, Or.inl ⟨pqTop_eq_none.mp he, h.found⟩⟩
    · intro h1; cases h1
  | some e =>
    have hmem := pqTop_mem he
    simp only
    by_cases hend : e.2 = endN
    · rw [if_pos hend]
      refine ⟨?_, ?_, ?_⟩
      · intro s1 h1; cases h1
      · intro r hr
        injection hr with hr
        subst hr
        exact ⟨s, h, rfl, rfl, Or.inr ⟨rfl, e, he, hend⟩⟩
      · intro h1; cases h1
    · rw [if_neg hend]
      by_cases hv : (s.grid e.2).visited = true
      · rw [if_pos hv]
        refine ⟨?_, ?_, ?_⟩
        · intro s1 h1
          injection h1 with h1
          subst h1
          refine ⟨h.stale hv, ?_⟩
          unfold dijkstraMeasure
          simp only
          rw [List.length_erase_of_mem hmem]
          have : 0 < s.pq.length := List.length_pos_of_mem hmem
          omega
        · intro r hr; cases hr
        · intro h1; cases h1
      · rw [if_neg hv]
        have hv0 : (s.grid e.2).visited = false := by simpa using hv
        refine ⟨?_, ?_, ?_⟩
        · intro s1 h1
          injection h1 with h1
          subst h1
          exact settle_relax_spec h he hv0 hend (Function.update_same _ _ _)
            (fun c hc => Function.update_noteq hc _ _) rfl rfl rfl
        · intro r hr; cases hr
        · intro h1; cases h1

/-! ## Dijkstra: what the invariant says about walks -/

/-- Along any walk that leaves a settled cell, either some unsettled cell with a finite
`dist` is at most as far as the walk is long, or the walk ends on a settled cell whose
`dist` is at most the cost of the walk. -/
theorem DInv.dijkstra_walk_bound {g0 : Grid} {startN endN : Cell} {s : DijkstraState}
    (h : DInv g0 startN endN noTodo s) :
    ∀ (steps : List Cell) (a c : Cell) (w : Int), Walk g0 a steps c →
      (s.grid a).visited = true → (s.grid a).dist ≤ w →
      (∃ y, (s.grid y).visited = false ∧ (s.grid y).dist < SENTINEL ∧
        (s.grid y).dist ≤ w + walkCost g0 steps) ∨
      ((s.grid c).visited = true ∧ (s.grid c).dist ≤ w + walkCost g0 steps) := by
  intro steps
  induction steps with
  | nil =>
    intro a c w hw hv hd
    simp only [Walk] at hw
    subst hw
    right
    exact ⟨hv, by simpa [walkCost] using hd⟩
  | cons b rest ih =>
    intro a c w hw hv hd
    simp only [Walk] at hw
    obtain ⟨hadj, hwall, hrest⟩ := hw
    have hwall1 : (s.grid b).isWall = false := by rw [(h.terrain b).1]; exact hwall
    have hrel := h.relaxed a b hv hadj (fun t => t) hwall1
    have hcost : cellCost s.grid b = cellCost g0 b := cellCost_congr (fun c => (h.terrain c).2) b
    rw [hcost] at hrel
    have hcp := cellCost_pos g0 b
    rw [walkCost_cons]
    by_cases hvb : (s.grid b).visited = true
    · have := ih b c (w + cellCost g0 b) hrest hvb (by omega)
      rcases this with ⟨y, hy1, hy2, hy3⟩ | ⟨hc1, hc2⟩
      · left; exact ⟨y, hy1, hy2, by omega⟩
      · right; exact ⟨hc1, by omega⟩
    · left
      have hvb0 : (s.grid b).visited = false := by simpa using hvb
      have hnn := walkCost_nonneg g0 rest
      have hsa := h.settled a hv
      have hra := h.range a
      have hvc := h.dijkstra_vc_le
      refine ⟨b, hvb0, ?_, by omega⟩
      rw [sentinel_val] at hsa hra ⊢
      omega

/-- When the end cell is popped, its `dist` is at most the cost of every walk from the
start cell to the end cell, and it is below the sentinel. -/
theorem DInv.dijkstra_end_optimal {g0 : Grid} {startN endN : Cell} {s : DijkstraState}
    {e : Int × Cell} (h : DInv g0 startN endN noTodo s) (he : pqTop s.pq = some e)
    (hend : e.2 = endN) :
    (s.grid endN).dist < SENTINEL ∧
    ∀ steps, Walk g0 startN steps endN → (s.grid endN).dist ≤ walkCost g0 steps := by
  have hkey := h.top_key he (by rw [hend]; exact h.endOpen)
  rw [hend] at hkey
  have hk := h.keys e (pqTop_mem he)
  have hvc := h.dijkstra_vc_le
  refine ⟨by rw [sentinel_val]; omega, ?_⟩
  intro steps hw
  have hnn := walkCost_nonneg g0 steps
  by_cases hsv : (s.grid startN).visited = true
  · rcases h.dijkstra_walk_bound steps startN endN 0 hw hsv (by rw [h.start0.1]) with
      ⟨y, hy1, hy2, hy3⟩ | ⟨hc1, _⟩
    · have := pqTop_le he _ (h.queued y hy1 hy2)
      simp only at this
      omega
    · rw [h.endOpen] at hc1
      cases hc1
  · have hsv0 : (s.grid startN).visited = false := by simpa using hsv
    have h0 := h.start0.1
    have := pqTop_le he _ (h.queued startN hsv0 (by rw [h0, sentinel_val]; omega))
    simp only at this
    omega

/-- When the queue runs empty, every cell that a walk from the start cell reaches is settled. -/
theorem DInv.dijkstra_empty_complete {g0 : Grid} {startN endN : Cell} {s : DijkstraState}
    (h : DInv g0 startN endN noTodo s) (hq : s.pq = []) :
    ∀ steps c, Walk g0 startN steps c → (s.grid c).visited = true := by
  intro steps c hw
  have hsv : (s.grid startN).visited = true := by
    by_contra hsv
    have hsv0 : (s.grid startN).visited = false := by simpa using hsv
    have := h.queued startN hsv0 (by rw [h.start0.1, sentinel_val]; omega)
    rw [hq] at this
    cases this
  rcases h.dijkstra_walk_bound steps startN c 0 hw hsv (by rw [h.start0.1]) with
    ⟨y, hy1, hy2, _⟩ | ⟨hc1, _⟩
  · have := h.queued y hy1 hy2
    rw [hq] at this
    cases this
  · exact hc1

/-- The parent links written by Dijkstra form chains back to the start cell. -/
theorem DInv.dijkstra_chainOK {g0 : Grid} {startN endN : Cell} {s : DijkstraState}
    (h : DInv g0 startN endN noTodo s) :
    ChainOK s.grid startN (fun c => (s.grid c).dist < SENTINEL) (cellCost s.grid) :=
  { nonneg := fun c _ => (h.range c).1
    link := by
      intro c hcs hc
      obtain ⟨p, hp1, hp2, hp3, hp4, hp5⟩ := h.link c hcs hc
      exact ⟨p, hp1, h.settled p hp2, hp3, hp5, hp4⟩
    wpos := fun c => (cellCost_pos s.grid c).1 }

theorem DInv.dijkstra_dist_lt_fuel {g0 : Grid} {startN endN : Cell} {s : DijkstraState}
    (h : DInv g0 startN endN noTodo s) {c : Cell} (hc : (s.grid c).dist < SENTINEL) :
    (s.grid c).dist < (loopFuel : Int) := by
  have := h.range c
  have := h.dijkstra_vc_le
  have hf : (loopFuel : Int) = 6002 := by simp [loopFuel]
  rw [hf]
  omega

/-- The loop of `RunDijkstra` terminates within the iteration bound, in a state described by
`DPost`. -/
theorem dijkstra_loop {m : Model} (hm : Fresh m) (startN endN : Cell) :
    ∃ r, whileLoop (dijkstraBody endN) loopFuel (dijkstraInit m startN) = some r ∧
      DPost m.grid startN endN r := by
  apply whileLoop_spec (dijkstraBody endN) (DInv m.grid startN endN noTodo)
    (DPost m.grid startN endN) dijkstraMeasure
  · intro s s1 hs hb
    exact (dijkstraBody_spec hs).1 s1 hb
  · intro s r hs hb
    exact (dijkstraBody_spec hs).2.1 r hb
  · intro s hs
    exact (dijkstraBody_spec hs).2.2
  · exact dijkstraInit_inv hm startN endN
  · unfold dijkstraMeasure
    have : (dijkstraInit m startN).pq.length = 1 := rfl
    rw [this]
    simp only [loopFuel, COLS, ROWS]
    omega

/-! ## Dijkstra: the key handler as a whole -/

theorem end_ne_start : endNode ≠ startNode := by decide

theorem not_adjacent_start_end : ¬ adjacent startNode endNode := by decide

/-- After a Dijkstra loop that popped the end cell, the parent links from the end cell
form a chain to the start cell along which `dist` adds up the entry costs. -/
theorem DPost.dijkstra_loop_pathFacts {g0 : Grid} {startN endN : Cell} {r : DijkstraState}
    (h : DPost g0 startN endN r) (hf : r.pathFound = true) (hne : endN ≠ startN) :
    ∃ l cur, PathFacts r.grid startN endN (fun c => (r.grid c).dist < SENTINEL)
      (cellCost r.grid) l cur := by
  obtain ⟨s, hs, hg, _, hcase⟩ := h
  rcases hcase with ⟨_, hnf⟩ | ⟨_, e, he, hend⟩
  · rw [hf] at hnf; cases hnf
  · rw [hg]
    have hopt := hs.dijkstra_end_optimal he hend
    exact pathFacts_of_chain hs.coords hs.dijkstra_chainOK hopt.1 (hs.dijkstra_dist_lt_fuel hopt.1) hne

/-- The handler for the space key terminates on every well-formed grid. -/
theorem runDijkstraCmd_spec (t0 t1 : Rat) {m : Model} (hm : WellFormed m.grid) :
    ∃ m1, runDijkstraCmd t0 t1 m = some m1 ∧ DijkstraOutcome m m1 t0 t1 := by
  obtain ⟨r, hr, hpost⟩ := dijkstra_loop (fresh_partialReset hm) startNode endNode
  unfold runDijkstraCmd RunDijkstra
  rw [hr]
  simp only
  by_cases hf : r.pathFound = true
  · obtain ⟨l, cur, hpf⟩ := hpost.dijkstra_loop_pathFacts hf end_ne_start
    rw [if_pos hf, hpf.snapshot]
    refine ⟨_, rfl, ?_⟩
    exact
      { post := hpost
        previous := rfl
        current := by simp only [hf, if_true]; exact hpf.snapshot
        last := rfl
        ran := ⟨rfl, rfl⟩
        visitedEq := rfl
        time := ⟨rfl, rfl⟩
        foundEq := rfl
        cost := rfl
        bfs := ⟨rfl, rfl, rfl, rfl, rfl, rfl⟩ }
  · rw [if_neg hf]
    refine ⟨_, rfl, ?_⟩
    exact
      { post := hpost
        previous := rfl
        current := by simp [hf]
        last := rfl
        ran := ⟨rfl, rfl⟩
        visitedEq := rfl
        time := ⟨rfl, rfl⟩
        foundEq := rfl
        cost := rfl
        bfs := ⟨rfl, rfl, rfl, rfl, rfl, rfl⟩ }

/-! ## Breadth-first search: loop invariant -/

theorem BInv.bfs_vc_le {g0 : Grid} {startN endN : Cell} {todo : Cell → Cell → Prop}
    {s : BfsState} (h : BInv g0 startN endN todo s) :
    s.visitedCount + (s.q.length : Int) ≤ 1200 := by
  have := visitedCells_card_le s.grid
  rw [h.count]
  exact_mod_cast this

/-- An offset whose neighbour needs no visit leaves the invariant in place. -/
theorem BInv.bfs_shrink {g0 : Grid} {startN endN curr : Cell} {d : Int × Int}
    {ds : List (Int × Int)} {s : BfsState}
    (h : BInv g0 startN endN (todoPairs curr (d :: ds)) s)
    (hd : ∀ n, cellAt ((curr.1.val : Int) + d.1) ((curr.2.val : Int) + d.2) = some n →
      (s.grid n).isWall = false →
      (s.grid n).visited = true ∧ (s.grid n).dist ≤ (s.grid curr).dist + 1) :
    BInv g0 startN endN (todoPairs curr ds) s :=
  { coords := h.coords
    terrain := h.terrain
    start0 := h.start0
    inQ := h.inQ
    nodup := h.nodup
    sorted := h.sorted
    band := h.band
    procMax := h.procMax
    expanded := by
      intro p n hp hpq hadj hnt hw
      by_cases ht : todoPairs curr (d :: ds) p n
      · obtain ⟨rfl, d1, hd1, hc⟩ := ht
        rcases List.mem_cons.mp hd1 with rfl | hmem
        · exact hd n hc hw
        · exact absurd ⟨rfl, d1, hmem, hc⟩ hnt
      · exact h.expanded p n hp hpq hadj ht hw
    link := h.link
    range := h.range
    count := h.count
    endQ := h.endQ
    found := h.found }

theorem BCur.tail {curr : Cell} {d : Int × Int} {ds : List (Int × Int)} {s : BfsState}
    (hc : BCur curr (d :: ds) s) : BCur curr ds s :=
  { currV := hc.currV
    currOut := hc.currOut
    currBand := hc.currBand
    currMax := hc.currMax
    currRange := hc.currRange
    sub := fun d1 hd1 => hc.sub d1 (List.mem_cons_of_mem _ hd1) }

/-- Visiting the unvisited neighbour `n` of `curr` keeps the invariant. -/
theorem BInv.visit {g0 : Grid} {startN endN curr n : Cell} {d : Int × Int}
    {ds : List (Int × Int)} {s s1 : BfsState}
    (h : BInv g0 startN endN (todoPairs curr (d :: ds)) s) (hc : BCur curr (d :: ds) s)
    (hcell : cellAt ((curr.1.val : Int) + d.1) ((curr.2.val : Int) + d.2) = some n)
    (hw : (s.grid n).isWall = false) (hnv : (s.grid n).visited = false)
    (hgs : s1.grid n =
      { s.grid n with dist := (s.grid curr).dist + 1, parent := some curr, visited := true })
    (hgn : ∀ c, c ≠ n → s1.grid c = s.grid c)
    (hq : s1.q = s.q ++ [n])
    (hvc : s1.visitedCount = s.visitedCount) (hpf : s1.pathFound = s.pathFound) :
    BInv g0 startN endN (todoPairs curr ds) s1 ∧ BCur curr ds s1 := by
  have hncurr : n ≠ curr := by
    rintro rfl
    rw [hc.currV] at hnv
    cases hnv
  have hnstart : n ≠ startN := by
    rintro rfl
    rw [h.start0.2.2] at hnv
    cases hnv
  have hnq : n ∉ s.q := by
    intro hmem
    rw [h.inQ n hmem] at hnv
    cases hnv
  have hadj : adjacent curr n := (adjacent_iff_dirs curr n).mpr ⟨d, hc.sub d (by simp), hcell⟩
  have hdn : (s1.grid n).dist = (s.grid curr).dist + 1 := by rw [hgs]
  have hvn : (s1.grid n).visited = true := by rw [hgs]
  have hvis : ∀ c, (s1.grid c).visited = true ↔ (c = n ∨ (s.grid c).visited = true) := by
    intro c
    by_cases hcn : c = n
    · rw [hcn, hvn]; simp
    · rw [hgn c hcn]; simp [hcn]
  have hdv : ∀ c, (s.grid c).visited = true → s1.grid c = s.grid c := by
    intro c hv
    apply hgn
    rintro rfl
    rw [hnv] at hv
    cases hv
  have hdq : ∀ c ∈ s.q, s1.grid c = s.grid c := fun c hcq => hdv c (h.inQ c hcq)
  have hcurr : s1.grid curr = s.grid curr := hdv curr hc.currV
  have hmemq : ∀ c, c ∈ s1.q ↔ (c ∈ s.q ∨ c = n) := by
    intro c
    rw [hq]
    simp
  have hold : ∀ p, (s1.grid p).visited = true → p ∉ s1.q →
      (s.grid p).visited = true ∧ p ∉ s.q ∧ p ≠ n := by
    intro p hp hpq
    have hpn : p ≠ n := fun hpn => hpq ((hmemq p).mpr (Or.inr hpn))
    refine ⟨?_, fun hm => hpq ((hmemq p).mpr (Or.inl hm)), hpn⟩
    rcases (hvis p).mp hp with hp1 | hp1
    · exact absurd hp1 hpn
    · exact hp1
  have hc0 := (h.range curr hc.currV).1
  constructor
  · refine
    { coords := ?_, terrain := ?_, start0 := ?_, inQ := ?_, nodup := ?_, sorted := ?_,
      band := ?_, procMax := ?_, expanded := ?_, link := ?_, range := ?_, count := ?_,
      endQ := ?_, found := hpf.trans h.found }
    · intro c
      by_cases hcn : c = n
      · subst hcn; rw [hgs]; exact h.coords c
      · rw [hgn c hcn]; exact h.coords c
    · intro c
      by_cases hcn : c = n
      · subst hcn; rw [hgs]; exact h.terrain c
      · rw [hgn c hcn]; exact h.terrain c
    · rw [hgn startN (Ne.symm hnstart)]
      exact h.start0
    · intro c hcq
      rcases (hmemq c).mp hcq with hc1 | hc1
      · exact (hvis c).mpr (Or.inr (h.inQ c hc1))
      · exact (hvis c).mpr (Or.inl hc1)
    · rw [hq]
      exact List.Nodup.append h.nodup (List.nodup_singleton n) (by simpa using hnq)
    · rw [hq, List.pairwise_append]
      refine ⟨?_, List.pairwise_singleton _ _, ?_⟩
      · exact h.sorted.imp_of_mem (fun {a b} ha hb hab => by rw [hdq a ha, hdq b hb]; exact hab)
      · intro a ha b hb
        simp only [List.mem_singleton] at hb
        subst hb
        rw [hdq a ha, hdn]
        exact (hc.currBand a ha).2
    · intro a ha b hb
      have ha1 : (s.grid curr).dist ≤ (s1.grid a).dist := by
        rcases (hmemq a).mp ha with ha1 | ha1
        · rw [hdq a ha1]; exact (hc.currBand a ha1).1
        · rw [ha1, hdn]; omega
      have hb1 : (s1.grid b).dist ≤ (s.grid curr).dist + 1 := by
        rcases (hmemq b).mp hb with hb1 | hb1
        · rw [hdq b hb1]; exact (hc.currBand b hb1).2
        · rw [hb1, hdn]
      omega
    · intro p hp hpq c hcq
      obtain ⟨hp1, hp2, _⟩ := hold p hp hpq
      rw [hdv p hp1]
      have := hc.currMax p hp1 hp2
      rcases (hmemq c).mp hcq with hc1 | hc1
      · rw [hdq c hc1]
        have := (hc.currBand c hc1).1
        omega
      · rw [hc1, hdn]; omega
    · intro p m hp hpq hadjpm hnt hwm
      obtain ⟨hp1, hp2, hp3⟩ := hold p hp hpq
      rw [hdv p hp1]
      by_cases hmn : m = n
      · subst hmn
        refine ⟨hvn, ?_⟩
        by_cases hpc : p = curr
        · subst hpc
          rw [hdn]
        · have := (h.expanded p m hp1 hp2 hadjpm (fun ht => hpc ht.1) hw).1
          rw [hnv] at this
          cases this
      · rw [hgn m hmn] at hwm ⊢
        have hres := h.expanded p m hp1 hp2 hadjpm (by
          rintro ⟨rfl, d1, hd1, hcm⟩
          rcases List.mem_cons.mp hd1 with rfl | hmem
          · rw [hcell] at hcm
            exact hmn (Option.some.inj hcm).symm
          · exact hnt ⟨rfl, d1, hmem, hcm⟩) hwm
        exact hres
    · intro c hcs hcv
      by_cases hcn : c = n
      · subst hcn
        refine ⟨curr, ?_, ?_, hadj, ?_, ?_⟩
        · rw [hgs]
        · exact (hvis curr).mpr (Or.inr hc.currV)
        · rw [hdn, hcurr]
        · rw [hgs]; exact hw
      · have hcv1 : (s.grid c).visited = true := by
          rcases (hvis c).mp hcv with h1 | h1
          · exact absurd h1 hcn
          · exact h1
        rw [hgn c hcn]
        obtain ⟨p, hp1, hp2, hp3, hp4, hp5⟩ := h.link c hcs hcv1
        refine ⟨p, hp1, (hvis p).mpr (Or.inr hp2), hp3, ?_, hp5⟩
        rw [hdv p hp2]; exact hp4
    · intro c hcv
      rw [hvc]
      rcases (hvis c).mp hcv with h1 | h1
      · rw [h1, hdn]
        have := hc.currRange
        omega
      · rw [hdv c h1]; exact h.range c h1
    · rw [hvc, hq, visitedCells_mark hnv hvn (fun c hcn => by rw [hgn c hcn])]
      have := h.count
      simp only [List.length_append, List.length_singleton]
      push_cast
      omega
    · intro hev
      rcases (hvis endN).mp hev with h1 | h1
      · exact (hmemq endN).mpr (Or.inr h1)
      · exact (hmemq endN).mpr (Or.inl (h.endQ h1))
  · refine { currV := ?_, currOut := ?_, currBand := ?_, currMax := ?_, currRange := ?_,
             sub := fun d1 hd1 => hc.sub d1 (List.mem_cons_of_mem _ hd1) }
    · exact (hvis curr).mpr (Or.inr hc.currV)
    · intro hmem
      rcases (hmemq curr).mp hmem with h1 | h1
      · exact hc.currOut h1
      · exact hncurr h1.symm
    · intro a ha
      rw [hcurr]
      rcases (hmemq a).mp ha with h1 | h1
      · rw [hdq a h1]; exact hc.currBand a h1
      · rw [h1, hdn]; omega
    · intro p hp hpq
      obtain ⟨hp1, hp2, _⟩ := hold p hp hpq
      rw [hdv p hp1, hcurr]
      exact hc.currMax p hp1 hp2
    · rw [hcurr, hvc]
      exact hc.currRange

/-- One pass of the `for` loop body of `RunBFS` keeps the invariant and retires one offset. -/
theorem visitStep_inv {g0 : Grid} {startN endN curr : Cell} {d : Int × Int}
    {ds : List (Int × Int)} {s : BfsState}
    (h : BInv g0 startN endN (todoPairs curr (d :: ds)) s) (hc : BCur curr (d :: ds) s) :
    BInv g0 startN endN (todoPairs curr ds) (visitStep curr s d) ∧
      BCur curr ds (visitStep curr s d) := by
  unfold visitStep
  rw [(h.coords curr).1, (h.coords curr).2]
  cases hcell : cellAt ((curr.1.val : Int) + d.1) ((curr.2.val : Int) + d.2) with
  | none =>
    refine ⟨h.bfs_shrink ?_, hc.tail⟩
    intro n hn
    rw [hcell] at hn
    cases hn
  | some n =>
    simp only
    by_cases hcond : ((s.grid n).isWall || (s.grid n).visited) = true
    · rw [if_pos hcond]
      refine ⟨h.bfs_shrink ?_, hc.tail⟩
      intro n1 hn1 hw1
      rw [hcell] at hn1
      cases hn1
      have hv : (s.grid n).visited = true := by
        rw [hw1] at hcond
        simpa using hcond
      refine ⟨hv, ?_⟩
      by_cases hq : n ∈ s.q
      · exact (hc.currBand n hq).2
      · have := hc.currMax n hv hq
        omega
    · rw [if_neg hcond]
      have hw0 : (s.grid n).isWall = false := by
        cases hw : (s.grid n).isWall
        · rfl
        · rw [hw] at hcond; simp at hcond
      have hv0 : (s.grid n).visited = false := by
        cases hv : (s.grid n).visited
        · rfl
        · rw [hv] at hcond; simp at hcond
      exact BInv.visit h hc hcell hw0 hv0 (Function.update_same _ _ _)
        (fun c hcn => Function.update_noteq hcn _ _) rfl rfl rfl

/-- The whole `for` loop of `RunBFS` keeps the invariant and looks at every neighbour. -/
theorem visitAll_inv {g0 : Grid} {startN endN curr : Cell} :
    ∀ (ds : List (Int × Int)) (s : BfsState),
      BInv g0 startN endN (todoPairs curr ds) s → BCur curr ds s →
      BInv g0 startN endN (todoPairs curr []) (ds.foldl (visitStep curr) s) ∧
        BCur curr [] (ds.foldl (visitStep curr) s) := by
  intro ds
  induction ds with
  | nil => intro s h hc; exact ⟨h, hc⟩
  | cons d ds ih =>
    intro s h hc
    obtain ⟨h1, h2⟩ := visitStep_inv h hc
    exact ih _ h1 h2

theorem visitStep_vc (curr : Cell) (s : BfsState) (d : Int × Int) :
    (visitStep curr s d).visitedCount = s.visitedCount := by
  unfold visitStep
  cases cellAt ((s.grid curr).x + d.1) ((s.grid curr).y + d.2) with
  | none => rfl
  | some n =>
    simp only
    split_ifs <;> rfl

theorem visitAll_vc (curr : Cell) : ∀ (ds : List (Int × Int)) (s : BfsState),
    (ds.foldl (visitStep curr) s).visitedCount = s.visitedCount := by
  intro ds
  induction ds with
  | nil => intro s; rfl
  | cons d ds ih =>
    intro s
    rw [List.foldl_cons, ih, visitStep_vc]

theorem BInv.bfs_todo_congr {g0 : Grid} {startN endN : Cell} {todo todo1 : Cell → Cell → Prop}
    {s : BfsState} (h : BInv g0 startN endN todo s)
    (ht : ∀ v n, todo v n → todo1 v n) :
    BInv g0 startN endN todo1 s :=
  { coords := h.coords
    terrain := h.terrain
    start0 := h.start0
    inQ := h.inQ
    nodup := h.nodup
    sorted := h.sorted
    band := h.band
    procMax := h.procMax
    expanded := fun p n hp hpq hadj hnt hw =>
      h.expanded p n hp hpq hadj (fun t => hnt (ht p n t)) hw
    link := h.link
    range := h.range
    count := h.count
    endQ := h.endQ
    found := h.found }

/-- Dequeuing the front cell establishes the invariant of the `for` loop. -/
theorem BInv.pop {g0 : Grid} {startN endN curr : Cell} {rest : List Cell} {s s1 : BfsState}
    (h : BInv g0 startN endN noTodo s) (hq : s.q = curr :: rest) (hend : curr ≠ endN)
    (hg : s1.grid = s.grid) (hq1 : s1.q = rest)
    (hvc : s1.visitedCount = s.visitedCount + 1) (hpf : s1.pathFound = s.pathFound) :
    BInv g0 startN endN (todoPairs curr dirs) s1 ∧ BCur curr dirs s1 := by
  have hnd := h.nodup
  rw [hq, List.nodup_cons] at hnd
  have hsorted := h.sorted
  rw [hq, List.pairwise_cons] at hsorted
  have hcq : curr ∈ s.q := by rw [hq]; exact List.mem_cons_self _ _
  have hsub : ∀ c, c ∈ rest → c ∈ s.q := fun c hc => by rw [hq]; exact List.mem_cons_of_mem _ hc
  have hout : ∀ p, p ∉ rest → p ≠ curr → p ∉ s.q := by
    intro p hp hpc hmem
    rw [hq] at hmem
    rcases List.mem_cons.mp hmem with h1 | h1
    · exact hpc h1
    · exact hp h1
  have hcv := h.inQ curr hcq
  constructor
  · refine
    { coords := ?_, terrain := ?_, start0 := ?_, inQ := ?_, nodup := ?_, sorted := ?_,
      band := ?_, procMax := ?_, expanded := ?_, link := ?_, range := ?_, count := ?_,
      endQ := ?_, found := hpf.trans h.found }
    · rw [hg]; exact h.coords
    · rw [hg]; exact h.terrain
    · rw [hg]; exact h.start0
    · rw [hg, hq1]; exact fun c hc => h.inQ c (hsub c hc)
    · rw [hq1]; exact hnd.2
    · rw [hg, hq1]; exact hsorted.2
    · rw [hg, hq1]; exact fun a ha b hb => h.band a (hsub a ha) b (hsub b hb)
    · rw [hg, hq1]
      intro p hp hpq c hc
      by_cases hpc : p = curr
      · rw [hpc]; exact hsorted.1 c hc
      · exact h.procMax p hp (hout p hpq hpc) c (hsub c hc)
    · rw [hg, hq1]
      intro p n hp hpq hadj hnt hw
      by_cases hpc : p = curr
      · exact absurd ⟨hpc, (adjacent_iff_dirs p n).mp hadj⟩ hnt
      · exact h.expanded p n hp (hout p hpq hpc) hadj (fun t => t) hw
    · rw [hg]; exact h.link
    · rw [hg, hvc]
      intro c hc
      have := h.range c hc
      omega
    · rw [hg, hvc, hq1]
      have := h.count
      rw [hq] at this
      simp only [List.length_cons] at this
      push_cast at this
      omega
    · rw [hg, hq1]
      intro hev
      have := h.endQ hev
      rw [hq] at this
      rcases List.mem_cons.mp this with h1 | h1
      · exact absurd h1.symm hend
      · exact h1
  · refine { currV := ?_, currOut := ?_, currBand := ?_, currMax := ?_, currRange := ?_,
             sub := fun d hd => hd }
    · rw [hg]; exact hcv
    · rw [hq1]; exact hnd.1
    · rw [hg, hq1]
      intro a ha
      exact ⟨hsorted.1 a ha, h.band curr hcq a (hsub a ha)⟩
    · rw [hg, hq1]
      intro p hp hpq
      by_cases hpc : p = curr
      · rw [hpc]
      · exact h.procMax p hp (hout p hpq hpc) curr hcq
    · rw [hg, hvc]
      have := (h.range curr hcv).2
      omega

/-- One iteration of the `while` loop of `RunBFS`. -/
theorem bfsBody_spec {g0 : Grid} {startN endN : Cell} {s : BfsState}
    (h : BInv g0 startN endN noTodo s) :
    (∀ s1, bfsBody endN s = Step.next s1 →
      BInv g0 startN endN noTodo s1 ∧ bfsMeasure s1 < bfsMeasure s) ∧
    (∀ r, bfsBody endN s = Step.done r → BPost g0 startN endN r) ∧
    bfsBody endN s ≠ Step.fail := by
  unfold bfsBody
  cases hq : s.q with
  | nil =>
    refine ⟨?_, ?_, ?_⟩
    · intro s1 h1; cases h1
    · intro r hr
      injection hr with hr
      subst hr
      exact ⟨s, h, rfl, Or.inl ⟨hq, h.found, rfl⟩⟩
    · intro h1; cases h1
  | cons curr rest =>
    simp only
    by_cases hend : curr = endN
    · rw [if_pos hend]
      refine ⟨?_, ?_, ?_⟩
      · intro s1 h1; cases h1
      · intro r hr
        injection hr with hr
        subst hr
        exact ⟨s, h, rfl, Or.inr ⟨rfl, rfl, rest, by rw [hq, hend]⟩⟩
      · intro h1; cases h1
    · rw [if_neg hend]
      refine ⟨?_, ?_, ?_⟩
      · intro s1 h1
        injection h1 with h1
        subst h1
        obtain ⟨h1, h2⟩ := @BInv.pop g0 startN endN curr rest s
          { grid := s.grid, visitedCount := s.visitedCount + 1, pathFound := s.pathFound,
            q := rest } h hq hend rfl rfl rfl rfl
        obtain ⟨h3, _⟩ := visitAll_inv dirs _ h1 h2
        have h5 : BInv g0 startN endN noTodo _ :=
          h3.bfs_todo_congr (fun v n t => by
            obtain ⟨_, d, hd, _⟩ := t
            cases hd)
        refine ⟨h5, ?_⟩
        have hle := h5.bfs_vc_le
        have hvcfold := visitAll_vc curr dirs
          { grid := s.grid, visitedCount := s.visitedCount + 1, pathFound := s.pathFound,
            q := rest }
        unfold bfsMeasure
        rw [hvcfold] at hle ⊢
        simp only at hle ⊢
        omega
      · intro r hr; cases hr
      · intro h1; cases h1

theorem bfsInit_inv {m : Model} (hm : Fresh m) (startN endN : Cell) :
    BInv m.grid startN endN noTodo (bfsInit m startN) := by
  have hgs : (bfsInit m startN).grid startN =
      { m.grid startN with dist := 0, visited := true } := Function.update_same _ _ _
  have hgn : ∀ c, c ≠ startN → (bfsInit m startN).grid c = m.grid c :=
    fun c hc => Function.update_noteq hc _ _
  have hq : (bfsInit m startN).q = [startN] := rfl
  have hvc : (bfsInit m startN).visitedCount = 0 := hm.vc
  have hvs : ((bfsInit m startN).grid startN).visited = true := by rw [hgs]
  have hds : ((bfsInit m startN).grid startN).dist = 0 := by rw [hgs]
  have hvis : ∀ c, ((bfsInit m startN).grid c).visited = true → c = startN := by
    intro c hc
    by_contra hne
    rw [hgn c hne, hm.visited c] at hc
    cases hc
  refine
    { coords := ?_, terrain := ?_, start0 := ?_, inQ := ?_, nodup := ?_, sorted := ?_,
      band := ?_, procMax := ?_, expanded := ?_, link := ?_, range := ?_, count := ?_,
      endQ := ?_, found := hm.pf }
  · intro c
    by_cases hc : c = startN
    · rw [hc, hgs]; exact hm.coords startN
    · rw [hgn c hc]; exact hm.coords c
  · intro c
    by_cases hc : c = startN
    · rw [hc, hgs]; exact ⟨rfl, rfl⟩
    · rw [hgn c hc]; exact ⟨rfl, rfl⟩
  · refine ⟨hds, ?_, hvs⟩
    rw [hgs]; exact hm.parent startN
  · intro c hc
    rw [hq] at hc
    simp only [List.mem_singleton] at hc
    rw [hc]; exact hvs
  · rw [hq]; exact List.nodup_singleton _
  · rw [hq]; exact List.pairwise_singleton _ _
  · intro a ha b hb
    rw [hq] at ha hb
    simp only [List.mem_singleton] at ha hb
    rw [ha, hb]; omega
  · intro p hp hpq
    rw [hvis p hp, hq] at hpq
    simp at hpq
  · intro p n hp hpq
    rw [hvis p hp, hq] at hpq
    simp at hpq
  · intro c hcs hcv
    exact absurd (hvis c hcv) hcs
  · intro c hcv
    rw [hvis c hcv, hds, hvc]
    omega
  · rw [hvc, hq, visitedCells_mark (hm.visited startN) hvs (fun c hc => by rw [hgn c hc])]
    have : visitedCells m.grid = ∅ := by
      ext c
      simp [mem_visitedCells, hm.visited c]
    rw [this]
    simp
  · intro hev
    rw [hvis endN hev, hq]
    simp

/-- The loop of `RunBFS` terminates within the iteration bound, in a state described by
`BPost`. -/
theorem bfs_loop {m : Model} (hm : Fresh m) (startN endN : Cell) :
    ∃ r, whileLoop (bfsBody endN) loopFuel (bfsInit m startN) = some r ∧
      BPost m.grid startN endN r := by
  apply whileLoop_spec (bfsBody endN) (BInv m.grid startN endN noTodo)
    (BPost m.grid startN endN) bfsMeasure
  · intro s s1 hs hb
    exact (bfsBody_spec hs).1 s1 hb
  · intro s r hs hb
    exact (bfsBody_spec hs).2.1 r hb
  · intro s hs
    exact (bfsBody_spec hs).2.2
  · exact bfsInit_inv hm startN endN
  · unfold bfsMeasure
    have : (bfsInit m startN).visitedCount = 0 := hm.vc
    rw [this]
    simp only [loopFuel, COLS, ROWS]
    omega

/-! ## Breadth-first search: what the invariant says about walks -/

/-- Along any walk that leaves an expanded cell, either some queued cell is at most as far
as the walk is long, or the walk ends on an expanded cell whose `dist` is at most the
number of steps. -/
theorem BInv.bfs_walk_bound {g0 : Grid} {startN endN : Cell} {s : BfsState}
    (h : BInv g0 startN endN noTodo s) :
    ∀ (steps : List Cell) (a c : Cell) (k : Int), Walk g0 a steps c →
      (s.grid a).visited = true → a ∉ s.q → (s.grid a).dist ≤ k →
      (∃ y ∈ s.q, (s.grid y).dist ≤ k + steps.length) ∨
      ((s.grid c).visited = true ∧ c ∉ s.q ∧ (s.grid c).dist ≤ k + steps.length) := by
  intro steps
  induction steps with
  | nil =>
    intro a c k hw hv hq hd
    simp only [Walk] at hw
    subst hw
    right
    exact ⟨hv, hq, by simpa using hd⟩
  | cons b rest ih =>
    intro a c k hw hv hq hd
    simp only [Walk] at hw
    obtain ⟨hadj, hwall, hrest⟩ := hw
    have hwall1 : (s.grid b).isWall = false := by rw [(h.terrain b).1]; exact hwall
    obtain ⟨hvb, hdb⟩ := h.expanded a b hv hq hadj (fun t => t) hwall1
    simp only [List.length_cons]
    push_cast
    by_cases hbq : b ∈ s.q
    · left
      exact ⟨b, hbq, by omega⟩
    · rcases ih b c (k + 1) hrest hvb hbq (by omega) with ⟨y, hy1, hy2⟩ | ⟨hc1, hc2, hc3⟩
      · left; exact ⟨y, hy1, by omega⟩
      · right; exact ⟨hc1, hc2, by omega⟩

/-- When the end cell is dequeued, its `dist` is at most the number of steps of every walk
from the start cell to the end cell. -/
theorem BInv.bfs_end_optimal {g0 : Grid} {startN endN : Cell} {s : BfsState} {rest : List Cell}
    (h : BInv g0 startN endN noTodo s) (hq : s.q = endN :: rest) :
    (s.grid endN).visited = true ∧
    ∀ steps, Walk g0 startN steps endN → (s.grid endN).dist ≤ (steps.length : Int) := by
  have hmem : endN ∈ s.q := by rw [hq]; exact List.mem_cons_self _ _
  have hsorted := h.sorted
  rw [hq, List.pairwise_cons] at hsorted
  have hmin : ∀ y ∈ s.q, (s.grid endN).dist ≤ (s.grid y).dist := by
    intro y hy
    rw [hq] at hy
    rcases List.mem_cons.mp hy with h1 | h1
    · rw [h1]
    · exact hsorted.1 y h1
  refine ⟨h.inQ endN hmem, ?_⟩
  intro steps hw
  by_cases hsq : startN ∈ s.q
  · have := hmin startN hsq
    have := h.start0.1
    omega
  · rcases h.bfs_walk_bound steps startN endN 0 hw h.start0.2.2 hsq (by rw [h.start0.1]) with
      ⟨y, hy1, hy2⟩ | ⟨_, hc2, _⟩
    · have := hmin y hy1
      omega
    · exact absurd hmem hc2

/-- When the queue runs empty, every cell that a walk from the start cell reaches has been
visited. -/
theorem BInv.bfs_empty_complete {g0 : Grid} {startN endN : Cell} {s : BfsState}
    (h : BInv g0 startN endN noTodo s) (hq : s.q = []) :
    ∀ steps c, Walk g0 startN steps c → (s.grid c).visited = true := by
  intro steps c hw
  rcases h.bfs_walk_bound steps startN c 0 hw h.start0.2.2 (by rw [hq]; simp)
      (by rw [h.start0.1]) with ⟨y, hy1, _⟩ | ⟨hc1, _, _⟩
  · rw [hq] at hy1
    cases hy1
  · exact hc1

/-- The parent links written by the breadth-first search form chains back to the start cell. -/
theorem BInv.bfs_chainOK {g0 : Grid} {startN endN : Cell} {s : BfsState}
    (h : BInv g0 startN endN noTodo s) :
    ChainOK s.grid startN (fun c => (s.grid c).visited = true) (fun _ => 1) :=
  { nonneg := fun c hc => (h.range c hc).1
    link := by
      intro c hcs hc
      obtain ⟨p, hp1, hp2, hp3, hp4, hp5⟩ := h.link c hcs hc
      exact ⟨p, hp1, hp2, hp3, hp5, hp4⟩
    wpos := fun _ => le_refl _ }

theorem BInv.bfs_dist_lt_fuel {g0 : Grid} {startN endN : Cell} {s : BfsState}
    (h : BInv g0 startN endN noTodo s) {c : Cell} (hc : (s.grid c).visited = true) :
    (s.grid c).dist < (loopFuel : Int) := by
  have := h.range c hc
  have := h.bfs_vc_le
  have hf : (loopFuel : Int) = 6002 := by simp [loopFuel]
  rw [hf]
  omega

/-- After a breadth-first loop that dequeued the end cell, the parent links from the end
cell form a chain to the start cell along which `dist` counts the links. -/
theorem BPost.bfs_loop_pathFacts {g0 : Grid} {startN endN : Cell} {r : BfsState}
    (h : BPost g0 startN endN r) (hf : r.pathFound = true) (hne : endN ≠ startN) :
    ∃ l cur, PathFacts r.grid startN endN (fun c => (r.grid c).visited = true)
      (fun _ => 1) l cur := by
  obtain ⟨s, hs, hg, hcase⟩ := h
  rcases hcase with ⟨_, hnf, _⟩ | ⟨_, _, rest, hq⟩
  · rw [hf] at hnf; cases hnf
  · rw [hg]
    have hopt := hs.bfs_end_optimal hq
    exact pathFacts_of_chain hs.coords hs.bfs_chainOK hopt.1 (hs.bfs_dist_lt_fuel hopt.1) hne

/-! ## Breadth-first search: the key handler as a whole -/

/-- The handler for the B key terminates on every well-formed grid. -/
theorem runBfsCmd_spec (t0 t1 : Rat) {m : Model} (hm : WellFormed m.grid) :
    ∃ m1, runBfsCmd t0 t1 m = some m1 ∧ BfsOutcome m m1 t0 t1 := by
  obtain ⟨r, hr, hpost⟩ := bfs_loop (fresh_partialReset hm) startNode endNode
  unfold runBfsCmd RunBFS
  rw [hr]
  simp only
  by_cases hf : r.pathFound = true
  · obtain ⟨l, cur, hpf⟩ := hpost.bfs_loop_pathFacts hf end_ne_start
    rw [if_pos hf, if_pos hf, hpf.snapshot, hpf.real]
    refine ⟨_, rfl, ?_⟩
    exact
      { post := hpost
        previous := rfl
        current := by simp only [hf, if_true]; exact hpf.snapshot
        real := by simp only [hf, if_true]; exact hpf.real
        last := rfl
        ran := ⟨rfl, rfl⟩
        visitedEq := rfl
        time := ⟨rfl, rfl⟩
        foundEq := rfl
        hops := rfl
        dijkstra := ⟨rfl, rfl, rfl, rfl, rfl⟩ }
  · rw [if_neg hf, if_neg hf]
    refine ⟨_, rfl, ?_⟩
    exact
      { post := hpost
        previous := rfl
        current := by simp [hf]
        real := by simp [hf]
        last := rfl
        ran := ⟨rfl, rfl⟩
        visitedEq := rfl
        time := ⟨rfl, rfl⟩
        foundEq := rfl
        hops := rfl
        dijkstra := ⟨rfl, rfl, rfl, rfl, rfl⟩ }

/-! ## Consequences for the model after a run -/

theorem walk_partialReset (m : Model) (steps : List Cell) (a c : Cell) :
    Walk (PartialReset m).grid a steps c ↔ Walk m.grid a steps c :=
  @walk_congr m.grid (PartialReset m).grid (fun _ => rfl) steps a c

theorem walkCost_partialReset (m : Model) (steps : List Cell) :
    walkCost (PartialReset m).grid steps = walkCost m.grid steps :=
  @walkCost_congr m.grid (PartialReset m).grid (fun _ => rfl) steps

theorem DPost.dijkstra_loop_frame {g0 : Grid} {startN endN : Cell} {r : DijkstraState}
    (h : DPost g0 startN endN r) :
    WellFormed r.grid ∧
      ∀ c, (r.grid c).isWall = (g0 c).isWall ∧ (r.grid c).isMud = (g0 c).isMud := by
  obtain ⟨s, hs, hg, _, _⟩ := h
  rw [hg]
  exact ⟨hs.coords, hs.terrain⟩

theorem BPost.bfs_loop_frame {g0 : Grid} {startN endN : Cell} {r : BfsState}
    (h : BPost g0 startN endN r) :
    WellFormed r.grid ∧
      ∀ c, (r.grid c).isWall = (g0 c).isWall ∧ (r.grid c).isMud = (g0 c).isMud := by
  obtain ⟨s, hs, hg, _⟩ := h
  rw [hg]
  exact ⟨hs.coords, hs.terrain⟩

/-- A run of Dijkstra leaves coordinates and terrain as they were. -/
theorem DijkstraOutcome.dijkstra_frame {m m1 : Model} {t0 t1 : Rat} (h : DijkstraOutcome m m1 t0 t1) :
    WellFormed m1.grid ∧
      ∀ c, (m1.grid c).isWall = (m.grid c).isWall ∧ (m1.grid c).isMud = (m.grid c).isMud :=
  h.post.dijkstra_loop_frame

/-- A run of the breadth-first search leaves coordinates and terrain as they were. -/
theorem BfsOutcome.bfs_frame {m m1 : Model} {t0 t1 : Rat} (h : BfsOutcome m m1 t0 t1) :
    WellFormed m1.grid ∧
      ∀ c, (m1.grid c).isWall = (m.grid c).isWall ∧ (m1.grid c).isMud = (m.grid c).isMud :=
  h.post.bfs_loop_frame

/-- After a successful run of Dijkstra: the facts about the reconstructed path, with the
stored bitmap as the snapshot. -/
theorem DijkstraOutcome.dijkstra_pathFacts {m m1 : Model} {t0 t1 : Rat}
    (h : DijkstraOutcome m m1 t0 t1) (hf : m1.pathFound = true) :
    ∃ l, PathFacts m1.grid startNode endNode (fun c => (m1.grid c).dist < SENTINEL)
      (cellCost m1.grid) l m1.currentPath := by
  obtain ⟨l, cur, hpf⟩ := h.post.dijkstra_loop_pathFacts hf end_ne_start
  have hcur := h.current
  rw [if_pos hf] at hcur
  have hs : SnapshotPath m1.grid endNode startNode = some cur := hpf.snapshot
  rw [hcur] at hs
  cases hs
  exact ⟨l, hpf⟩

/-- After a successful breadth-first run: the facts about the reconstructed path, with the
stored bitmap as the snapshot. -/
theorem BfsOutcome.bfs_pathFacts {m m1 : Model} {t0 t1 : Rat}
    (h : BfsOutcome m m1 t0 t1) (hf : m1.pathFound = true) :
    ∃ l, PathFacts m1.grid startNode endNode (fun c => (m1.grid c).visited = true)
      (fun _ => 1) l m1.currentPath := by
  obtain ⟨l, cur, hpf⟩ := h.post.bfs_loop_pathFacts hf end_ne_start
  have hcur := h.current
  rw [if_pos hf] at hcur
  have hs : SnapshotPath m1.grid endNode startNode = some cur := hpf.snapshot
  rw [hcur] at hs
  cases hs
  exact ⟨l, hpf⟩

theorem DijkstraOutcome.dijkstra_start_dist {m m1 : Model} {t0 t1 : Rat}
    (h : DijkstraOutcome m m1 t0 t1) : (m1.grid startNode).dist = 0 := by
  obtain ⟨s, hs, hg, _, _⟩ := h.post
  simp only at hg
  rw [hg]
  exact hs.start0.1

theorem BfsOutcome.bfs_start_dist {m m1 : Model} {t0 t1 : Rat}
    (h : BfsOutcome m m1 t0 t1) : (m1.grid startNode).dist = 0 := by
  obtain ⟨s, hs, hg, _⟩ := h.post
  simp only at hg
  rw [hg]
  exact hs.start0.1

/-- After a successful run of Dijkstra, `end.dist` is the cost of a walk from the start
cell to the end cell, and no such walk is cheaper. -/
theorem DijkstraOutcome.dijkstra_minimal {m m1 : Model} {t0 t1 : Rat}
    (h : DijkstraOutcome m m1 t0 t1) (hf : m1.pathFound = true) :
    (∃ steps, Walk m.grid startNode steps endNode ∧
      walkCost m.grid steps = (m1.grid endNode).dist) ∧
    ∀ steps, Walk m.grid startNode steps endNode →
      (m1.grid endNode).dist ≤ walkCost m.grid steps := by
  obtain ⟨l, hpf⟩ := h.dijkstra_pathFacts hf
  have hfr := h.dijkstra_frame.2
  constructor
  · refine ⟨(endNode :: l).reverse, ?_, ?_⟩
    · exact (walk_congr (fun c => (hfr c).1) _ _ _).mp hpf.walk
    · rw [← walkCost_congr (fun c => (hfr c).2), walkCost_reverse]
      have := hpf.sum
      rw [h.dijkstra_start_dist] at this
      unfold walkCost
      omega
  · obtain ⟨s, hs, hg, _, hcase⟩ := h.post
    simp only at hg hcase
    rcases hcase with ⟨_, hnf⟩ | ⟨_, e, he, hend⟩
    · rw [hf] at hnf; cases hnf
    · intro steps hw
      rw [hg, ← walkCost_partialReset]
      exact (hs.dijkstra_end_optimal he hend).2 steps ((walk_partialReset m _ _ _).mpr hw)

/-- After a successful breadth-first run, `end.dist` is the number of steps of a walk from
the start cell to the end cell, and no such walk has fewer steps. -/
theorem BfsOutcome.bfs_minimal {m m1 : Model} {t0 t1 : Rat}
    (h : BfsOutcome m m1 t0 t1) (hf : m1.pathFound = true) :
    (∃ steps, Walk m.grid startNode steps endNode ∧
      (steps.length : Int) = (m1.grid endNode).dist ∧
      walkCost m.grid steps = m1.bfsRealCost) ∧
    ∀ steps, Walk m.grid startNode steps endNode →
      (m1.grid endNode).dist ≤ (steps.length : Int) := by
  obtain ⟨l, hpf⟩ := h.bfs_pathFacts hf
  have hfr := h.bfs_frame.2
  constructor
  · refine ⟨(endNode :: l).reverse, ?_, ?_, ?_⟩
    · exact (walk_congr (fun c => (hfr c).1) _ _ _).mp hpf.walk
    · have := hpf.sum
      rw [h.bfs_start_dist] at this
      rw [List.length_reverse]
      simp only [List.map_const', List.sum_replicate, nsmul_eq_mul, mul_one, add_zero] at this
      exact this
    · have hreal := h.real
      rw [if_pos hf, hpf.real] at hreal
      rw [← walkCost_congr (fun c => (hfr c).2), walkCost_reverse]
      exact Option.some.inj hreal
  · obtain ⟨s, hs, hg, hcase⟩ := h.post
    simp only at hg hcase
    rcases hcase with ⟨_, hnf, _⟩ | ⟨_, _, rest, hq⟩
    · rw [hf] at hnf; cases hnf
    · intro steps hw
      rw [hg]
      exact (hs.bfs_end_optimal hq).2 steps ((walk_partialReset m _ _ _).mpr hw)

/-- Dijkstra reports a path exactly when a walk from the start cell to the end cell exists. -/
theorem DijkstraOutcome.dijkstra_found_iff {m m1 : Model} {t0 t1 : Rat}
    (h : DijkstraOutcome m m1 t0 t1) :
    m1.pathFound = true ↔ ∃ steps, Walk m.grid startNode steps endNode := by
  constructor
  · intro hf
    obtain ⟨⟨steps, hw, _⟩, _⟩ := h.dijkstra_minimal hf
    exact ⟨steps, hw⟩
  · rintro ⟨steps, hw⟩
    obtain ⟨s, hs, hg, _, hcase⟩ := h.post
    simp only at hg hcase
    rcases hcase with ⟨hq, _⟩ | ⟨hf, _⟩
    · have := hs.dijkstra_empty_complete hq steps endNode ((walk_partialReset m _ _ _).mpr hw)
      rw [hs.endOpen] at this
      cases this
    · exact hf

/-- The breadth-first search reports a path exactly when a walk from the start cell to the
end cell exists. -/
theorem BfsOutcome.bfs_found_iff {m m1 : Model} {t0 t1 : Rat}
    (h : BfsOutcome m m1 t0 t1) :
    m1.pathFound = true ↔ ∃ steps, Walk m.grid startNode steps endNode := by
  constructor
  · intro hf
    obtain ⟨⟨steps, hw, _⟩, _⟩ := h.bfs_minimal hf
    exact ⟨steps, hw⟩
  · rintro ⟨steps, hw⟩
    obtain ⟨s, hs, hg, hcase⟩ := h.post
    simp only at hg hcase
    rcases hcase with ⟨hq, _, _⟩ | ⟨hf, _⟩
    · have hv := hs.bfs_empty_complete hq steps endNode ((walk_partialReset m _ _ _).mpr hw)
      have := hs.endQ hv
      rw [hq] at this
      cases this
    · exact hf

/-- After a run of Dijkstra every settled cell other than the start cell has a settled,
adjacent parent that is the start cell or not a wall. -/
theorem DijkstraOutcome.dijkstra_links {m m1 : Model} {t0 t1 : Rat}
    (h : DijkstraOutcome m m1 t0 t1) (c : Cell) (hv : (m1.grid c).visited = true)
    (hc : c ≠ startNode) :
    ∃ p, (m1.grid c).parent = some p ∧ adjacent c p ∧ (m1.grid p).visited = true ∧
      (p = startNode ∨ (m1.grid p).isWall = false) := by
  obtain ⟨s, hs, hg, _, _⟩ := h.post
  simp only at hg
  rw [hg] at hv ⊢
  obtain ⟨p, hp1, hp2, hp3, _, _⟩ := hs.link c hc (hs.settled c hv)
  refine ⟨p, hp1, adjacent_symm hp3, hp2, ?_⟩
  by_cases hps : p = startNode
  · exact Or.inl hps
  · obtain ⟨_, _, _, _, _, hw⟩ := hs.link p hps (hs.settled p hp2)
    exact Or.inr hw

/-- After a breadth-first run every visited cell other than the start cell has a visited,
adjacent parent that is the start cell or not a wall. -/
theorem BfsOutcome.bfs_links {m m1 : Model} {t0 t1 : Rat}
    (h : BfsOutcome m m1 t0 t1) (c : Cell) (hv : (m1.grid c).visited = true)
    (hc : c ≠ startNode) :
    ∃ p, (m1.grid c).parent = some p ∧ adjacent c p ∧ (m1.grid p).visited = true ∧
      (p = startNode ∨ (m1.grid p).isWall = false) := by
  obtain ⟨s, hs, hg, _⟩ := h.post
  simp only at hg
  rw [hg] at hv ⊢
  obtain ⟨p, hp1, hp2, hp3, _, _⟩ := hs.link c hc hv
  refine ⟨p, hp1, adjacent_symm hp3, hp2, ?_⟩
  by_cases hps : p = startNode
  · exact Or.inl hps
  · obtain ⟨_, _, _, _, _, hw⟩ := hs.link p hps hp2
    exact Or.inr hw

/-- After an unsuccessful run of Dijkstra the settled cells are the cells that a walk from
the start cell reaches, and `visitedCount` is their number. -/
theorem DijkstraOutcome.dijkstra_exhausted {m m1 : Model} {t0 t1 : Rat}
    (h : DijkstraOutcome m m1 t0 t1) (hf : m1.pathFound = false) :
    m1.visitedCount = ((visitedCells m1.grid).card : Int) ∧
    ∀ c, c ∈ visitedCells m1.grid ↔ ∃ steps, Walk m.grid startNode steps c := by
  obtain ⟨s, hs, hg, hvc, hcase⟩ := h.post
  simp only at hg hvc hcase
  rcases hcase with ⟨hq, _⟩ | ⟨hf1, _⟩
  · rw [hg, hvc]
    refine ⟨hs.count, ?_⟩
    intro c
    rw [mem_visitedCells]
    constructor
    · intro hv
      have hlt := hs.settled c hv
      obtain ⟨l, _, hw, _⟩ := chain_spec hs.dijkstra_chainOK loopFuel c hlt (hs.dijkstra_dist_lt_fuel hlt)
      exact ⟨l.reverse, (walk_partialReset m _ _ _).mp
          ((walk_congr (fun c => (hs.terrain c).1) _ _ _).mp hw)⟩
    · rintro ⟨steps, hw⟩
      exact hs.dijkstra_empty_complete hq steps c ((walk_partialReset m _ _ _).mpr hw)
  · rw [hf] at hf1; cases hf1

/-- After an unsuccessful breadth-first run the visited cells are the cells that a walk
from the start cell reaches, and `visitedCount` is their number. -/
theorem BfsOutcome.bfs_exhausted {m m1 : Model} {t0 t1 : Rat}
    (h : BfsOutcome m m1 t0 t1) (hf : m1.pathFound = false) :
    m1.visitedCount = ((visitedCells m1.grid).card : Int) ∧
    ∀ c, c ∈ visitedCells m1.grid ↔ ∃ steps, Walk m.grid startNode steps c := by
  obtain ⟨s, hs, hg, hcase⟩ := h.post
  simp only at hg hcase
  rcases hcase with ⟨hq, _, hvc⟩ | ⟨hf1, _⟩
  · rw [hg, hvc]
    constructor
    · have := hs.count
      rw [hq] at this
      simpa using this
    · intro c
      rw [mem_visitedCells]
      constructor
      · intro hv
        obtain ⟨l, _, hw, _⟩ := chain_spec hs.bfs_chainOK loopFuel c hv (hs.bfs_dist_lt_fuel hv)
        exact ⟨l.reverse, (walk_partialReset m _ _ _).mp
          ((walk_congr (fun c => (hs.terrain c).1) _ _ _).mp hw)⟩
      · rintro ⟨steps, hw⟩
        exact hs.bfs_empty_complete hq steps c ((walk_partialReset m _ _ _).mpr hw)
  · rw [hf] at hf1; cases hf1

/-! ## Geometry of the board and the scenario terrains -/

/-- A walk cannot change the column by more than its number of steps. -/
theorem walk_dx {g : Grid} : ∀ (steps : List Cell) (a c : Cell), Walk g a steps c →
    (c.1.val : Int) - (a.1.val : Int) ≤ (steps.length : Int) ∧
    (a.1.val : Int) - (c.1.val : Int) ≤ (steps.length : Int) := by
  intro steps
  induction steps with
  | nil =>
    intro a c h
    simp only [Walk] at h
    subst h
    simp
  | cons b rest ih =>
    intro a c h
    simp only [Walk] at h
    obtain ⟨hadj, _, hrest⟩ := h
    have := ih b c hrest
    unfold adjacent at hadj
    simp only [List.length_cons]
    push_cast
    omega

/-- Along a stretch of a row that is free of walls there is a straight walk. -/
theorem walk_row {g : Grid} : ∀ (n : Nat) (a c : Cell), c.2 = a.2 → c.1.val = a.1.val + n →
    (∀ z : Cell, z.2 = a.2 → a.1.val < z.1.val → z.1.val ≤ c.1.val → (g z).isWall = false) →
    ∃ steps, Walk g a steps c ∧ steps.length = n ∧
      ∀ z ∈ steps, z.2 = a.2 ∧ a.1.val < z.1.val ∧ z.1.val ≤ c.1.val := by
  intro n
  induction n with
  | zero =>
    intro a c h2 h1 _
    refine ⟨[], ?_, rfl, by simp⟩
    simp only [Walk]
    exact (Prod.ext (Fin.ext (by omega)) h2).symm
  | succ n ih =>
    intro a c h2 h1 hz
    have hlt := c.1.isLt
    obtain ⟨b, hb⟩ : ∃ b : Cell, b = (⟨a.1.val + 1, by omega⟩, a.2) := ⟨_, rfl⟩
    have hb1 : b.1.val = a.1.val + 1 := by rw [hb]
    have hb2 : b.2 = a.2 := by rw [hb]
    obtain ⟨rest, hr1, hr2, hr3⟩ := ih b c (by rw [hb2]; exact h2) (by omega)
      (fun z hz2 hz1 hzc => hz z (by rw [hz2, hb2]) (by omega) hzc)
    have hbz := hz b hb2 (by omega) (by omega)
    refine ⟨b :: rest, ?_, by simp [hr2], ?_⟩
    · simp only [Walk]
      refine ⟨?_, hbz, hr1⟩
      unfold adjacent
      rw [hb2, hb1]
      simp
    · intro z hzm
      rcases List.mem_cons.mp hzm with rfl | hzr
      · exact ⟨hb2, by omega, by omega⟩
      · obtain ⟨z1, z2, z3⟩ := hr3 z hzr
        exact ⟨by rw [z1, hb2], by omega, z3⟩

/-- A walk costs exactly its number of steps if and only if it enters no mud. -/
theorem walkCost_eq_length_iff (g : Grid) (l : List Cell) :
    walkCost g l = (l.length : Int) ↔ ∀ c ∈ l, (g c).isMud = false := by
  induction l with
  | nil => simp [walkCost]
  | cons b rest ih =>
    rw [walkCost_cons]
    have hle := length_le_walkCost g rest
    have hcp := cellCost_pos g b
    simp only [List.length_cons, List.mem_cons, forall_eq_or_imp]
    push_cast
    constructor
    · intro h
      have h1 : cellCost g b = 1 := by omega
      have h2 : walkCost g rest = (rest.length : Int) := by omega
      refine ⟨?_, ih.mp h2⟩
      unfold cellCost at h1
      by_contra hm
      rw [if_pos (by simpa using hm)] at h1
      omega
    · rintro ⟨h1, h2⟩
      rw [ih.mpr h2]
      unfold cellCost
      rw [h1]
      simp only [Bool.false_eq_true, if_false]
      omega

/-- On a grid without walls and mud the end cell is thirty steps of cost one away. -/
theorem open_walk {g : Grid} (h : OpenGrid g) :
    ∃ steps, Walk g startNode steps endNode ∧ steps.length = 30 ∧ walkCost g steps = 30 := by
  obtain ⟨steps, h1, h2, _⟩ := walk_row (g := g) 30 startNode endNode (by decide) (by decide)
    (fun z _ _ _ => (h z).1)
  refine ⟨steps, h1, h2, ?_⟩
  rw [(walkCost_eq_length_iff g steps).mpr (fun c _ => (h c).2), h2]
  rfl

/-- Every walk from the start cell to the end cell has at least thirty steps. -/
theorem walk_length_ge {g : Grid} {steps : List Cell} (h : Walk g startNode steps endNode) :
    (30 : Int) ≤ (steps.length : Int) := by
  have := (walk_dx steps startNode endNode h).1
  have h1 : (endNode.1.val : Int) = 35 := by decide
  have h2 : (startNode.1.val : Int) = 5 := by decide
  omega

/-- The sequence `a :: steps` of a walk from a cell that is not a wall is a route, and
every route arises in this way. -/
theorem route_iff_walk {g : Grid} {a c : Cell} {cells : List Cell} :
    Route g a c cells ↔
      ∃ steps, cells = a :: steps ∧ (g a).isWall = false ∧ Walk g a steps c := by
  have key : ∀ (steps : List Cell) (x : Cell),
      Walk g x steps c ↔ (List.Chain adjacent x steps ∧ (∀ z ∈ steps, (g z).isWall = false) ∧
        (x :: steps).getLast? = some c) := by
    intro steps
    induction steps with
    | nil =>
      intro x
      simp [Walk]
    | cons b rest ih =>
      intro x
      simp only [Walk, ih b, List.chain_cons, List.mem_cons, forall_eq_or_imp,
        List.getLast?_cons_cons]
      tauto
  unfold Route
  constructor
  · rintro ⟨h1, h2, h3, h4⟩
    cases cells with
    | nil => simp at h1
    | cons x steps =>
      simp only [List.head?_cons, Option.some.injEq] at h1
      subst h1
      refine ⟨steps, rfl, h3 x (List.mem_cons_self _ _), ?_⟩
      exact (key steps x).mpr ⟨h4, fun z hz => h3 z (List.mem_cons_of_mem _ hz), h2⟩
  · rintro ⟨steps, rfl, hw, hwalk⟩
    obtain ⟨k1, k2, k3⟩ := (key steps a).mp hwalk
    refine ⟨rfl, k3, ?_, k1⟩
    intro z hz
    rcases List.mem_cons.mp hz with rfl | hz1
    · exact hw
    · exact k2 z hz1

theorem route_of_walk {g : Grid} {a c : Cell} {steps : List Cell} (hw : (g a).isWall = false)
    (h : Walk g a steps c) :
    Route g a c (a :: steps) ∧ routeCost g (a :: steps) = walkCost g steps ∧
      routeHops (a :: steps) = steps.length :=
  ⟨route_iff_walk.mpr ⟨steps, rfl, hw, h⟩, rfl, rfl⟩

theorem walk_of_route {g : Grid} {a c : Cell} {cells : List Cell} (h : Route g a c cells) :
    ∃ steps, Walk g a steps c ∧ routeCost g cells = walkCost g steps ∧
      routeHops cells = steps.length := by
  obtain ⟨steps, rfl, _, hw⟩ := route_iff_walk.mp h
  exact ⟨steps, hw, rfl, rfl⟩

theorem editTerrain_grid (kind : TerrainKind) (p : Int × Int) (m : Model) (c : Cell) :
    ((EditTerrain kind p.1 p.2 m).grid c).x = (m.grid c).x ∧
    ((EditTerrain kind p.1 p.2 m).grid c).y = (m.grid c).y ∧
    (editHits [p] c → kind = TerrainKind.Mud →
      ((EditTerrain kind p.1 p.2 m).grid c).isMud = true ∧
      ((EditTerrain kind p.1 p.2 m).grid c).isWall = false) ∧
    (editHits [p] c → kind = TerrainKind.Wall →
      ((EditTerrain kind p.1 p.2 m).grid c).isWall = true ∧
      ((EditTerrain kind p.1 p.2 m).grid c).isMud = false) ∧
    (¬ editHits [p] c → (EditTerrain kind p.1 p.2 m).grid c = m.grid c) := by
  unfold EditTerrain editHits
  cases hcell : cellAt p.1 p.2 with
  | none => simp [hcell]
  | some n =>
    simp only [List.mem_singleton, exists_eq_left, hcell, Option.some.injEq]
    by_cases hn : n ≠ startNode ∧ n ≠ endNode
    · rw [if_pos hn]
      by_cases hcn : c = n
      · subst hcn
        cases kind <;> simp [hn.1, hn.2]
      · have hnc : ¬ n = c := fun h => hcn h.symm
        cases kind <;> simp [Function.update_noteq hcn, hnc]
    · rw [if_neg hn]
      have : ∀ c, ¬ (n = c ∧ c ≠ startNode ∧ c ≠ endNode) := by
        rintro c ⟨rfl, h1, h2⟩
        exact hn ⟨h1, h2⟩
      simp [this c]

/-- The effect of a list of terrain edits of one kind on each cell. -/
theorem editAll_grid (kind : TerrainKind) :
    ∀ (cells : List (Int × Int)) (m : Model) (c : Cell),
      ((editAll kind cells m).grid c).x = (m.grid c).x ∧
      ((editAll kind cells m).grid c).y = (m.grid c).y ∧
      (editHits cells c → kind = TerrainKind.Mud →
        ((editAll kind cells m).grid c).isMud = true ∧
        ((editAll kind cells m).grid c).isWall = false) ∧
      (editHits cells c → kind = TerrainKind.Wall →
        ((editAll kind cells m).grid c).isWall = true ∧
        ((editAll kind cells m).grid c).isMud = false) ∧
      (¬ editHits cells c → (editAll kind cells m).grid c = m.grid c) := by
  intro cells
  induction cells with
  | nil =>
    intro m c
    have : ¬ editHits [] c := by
      rintro ⟨p, hp, _⟩
      cases hp
    exact ⟨rfl, rfl, fun h => absurd h this, fun h => absurd h this, fun _ => rfl⟩
  | cons p rest ih =>
    intro m c
    have h1 := editTerrain_grid kind p m c
    have h2 := ih (EditTerrain kind p.1 p.2 m) c
    have hfold : editAll kind (p :: rest) m = editAll kind rest (EditTerrain kind p.1 p.2 m) := rfl
    rw [hfold]
    have hsplit : editHits (p :: rest) c ↔ (editHits [p] c ∨ editHits rest c) := by
      unfold editHits
      constructor
      · rintro ⟨q, hq, h⟩
        rcases List.mem_cons.mp hq with hq1 | hq1
        · exact Or.inl ⟨q, List.mem_singleton.mpr hq1, h⟩
        · exact Or.inr ⟨q, hq1, h⟩
      · rintro (⟨q, hq, h⟩ | ⟨q, hq, h⟩)
        · exact ⟨q, List.mem_cons.mpr (Or.inl (List.mem_singleton.mp hq)), h⟩
        · exact ⟨q, List.mem_cons_of_mem _ hq, h⟩
    refine ⟨h2.1.trans h1.1, h2.2.1.trans h1.2.1, ?_, ?_, ?_⟩
    · intro hh hk
      by_cases hr : editHits rest c
      · exact h2.2.2.1 hr hk
      · rw [h2.2.2.2.2 hr]
        exact h1.2.2.1 ((hsplit.mp hh).resolve_right hr) hk
    · intro hh hk
      by_cases hr : editHits rest c
      · exact h2.2.2.2.1 hr hk
      · rw [h2.2.2.2.2 hr]
        exact h1.2.2.2.1 ((hsplit.mp hh).resolve_right hr) hk
    · intro hh
      rw [h2.2.2.2.2 (fun hr => hh (hsplit.mpr (Or.inr hr)))]
      exact h1.2.2.2.2 (fun hp => hh (hsplit.mpr (Or.inl hp)))

theorem fullReset_wf (m : Model) : WellFormed (FullReset m).grid := fun _ => ⟨rfl, rfl⟩

theorem fullReset_open (m : Model) : OpenGrid (FullReset m).grid := fun _ => ⟨rfl, rfl⟩

theorem initModel_wf : WellFormed initModel.grid := fullReset_wf staticInit

theorem initModel_open : OpenGrid initModel.grid := fullReset_open staticInit

theorem clear_of_open {g : Grid} (h : OpenGrid g) : Clear g :=
  ⟨(h startNode).1, (h startNode).2, (h endNode).1, (h endNode).2⟩

theorem initModel_clear : Clear initModel.grid := clear_of_open initModel_open

theorem s3_hits (c : Cell) :
    editHits ((List.range 21).map (fun (i : Nat) => ((10 : Int) + (i : Int), (15 : Int)))) c ↔
      (c.2.val = 15 ∧ 10 ≤ c.1.val ∧ c.1.val ≤ 30) := by
  unfold editHits
  simp only [List.mem_map, List.mem_range, cellAt_eq_some]
  constructor
  · rintro ⟨p, ⟨i, hi, rfl⟩, ⟨h1, h2⟩, _, _⟩
    simp only at h1 h2
    omega
  · rintro ⟨h2, h1, h3⟩
    have hc1 : c.1.val < 40 := c.1.isLt
    refine ⟨((10 : Int) + ((c.1.val - 10 : Nat) : Int), 15), ⟨c.1.val - 10, by omega, rfl⟩,
      ⟨?_, ?_⟩, ?_, ?_⟩
    · simp only
      omega
    · simp only
      omega
    · intro h
      rw [h] at h1
      revert h1
      decide
    · intro h
      rw [h] at h3
      revert h3
      decide

/-- The terrain of scenario S3: no walls, mud exactly on `(10..30, 15)`. -/
theorem scenarioS3_grid (m : Model) :
    WellFormed (scenarioS3 m).grid ∧
    ∀ c, ((scenarioS3 m).grid c).isWall = false ∧
      (((scenarioS3 m).grid c).isMud = true ↔ (c.2.val = 15 ∧ 10 ≤ c.1.val ∧ c.1.val ≤ 30)) := by
  unfold scenarioS3
  constructor
  · intro c
    have h := editAll_grid TerrainKind.Mud
      ((List.range 21).map (fun (i : Nat) => ((10 : Int) + (i : Int), (15 : Int)))) (FullReset m) c
    exact ⟨h.1.trans rfl, h.2.1.trans rfl⟩
  · intro c
    have h := editAll_grid TerrainKind.Mud
      ((List.range 21).map (fun (i : Nat) => ((10 : Int) + (i : Int), (15 : Int)))) (FullReset m) c
    by_cases hh : editHits ((List.range 21).map (fun (i : Nat) => ((10 : Int) + (i : Int), (15 : Int)))) c
    · have := h.2.2.1 hh rfl
      exact ⟨this.2, fun _ => (s3_hits c).mp hh, fun _ => this.1⟩
    · rw [h.2.2.2.2 hh]
      refine ⟨rfl, ?_⟩
      constructor
      · intro h1
        cases h1
      · intro h1
        exact absurd ((s3_hits c).mpr h1) hh

theorem s4_hits (c : Cell) :
    editHits ((List.range 30).map (fun (i : Nat) => ((20 : Int), (i : Int)))) c ↔ c.1.val = 20 := by
  unfold editHits
  simp only [List.mem_map, List.mem_range, cellAt_eq_some]
  constructor
  · rintro ⟨p, ⟨i, hi, rfl⟩, ⟨h1, h2⟩, _, _⟩
    simp only at h1 h2
    omega
  · intro h1
    have hc2 : c.2.val < 30 := c.2.isLt
    refine ⟨((20 : Int), (c.2.val : Int)), ⟨c.2.val, by omega, rfl⟩, ⟨?_, ?_⟩, ?_, ?_⟩
    · simp only
      omega
    · simp only
    · intro h
      rw [h] at h1
      revert h1
      decide
    · intro h
      rw [h] at h1
      revert h1
      decide

/-- The terrain of scenario S4: walls exactly on column 20, no mud. -/
theorem scenarioS4_grid (m : Model) :
    WellFormed (scenarioS4 m).grid ∧
    ∀ c, ((scenarioS4 m).grid c).isMud = false ∧
      (((scenarioS4 m).grid c).isWall = true ↔ c.1.val = 20) := by
  unfold scenarioS4
  constructor
  · intro c
    have h := editAll_grid TerrainKind.Wall
      ((List.range 30).map (fun (i : Nat) => ((20 : Int), (i : Int)))) (FullReset m) c
    exact ⟨h.1.trans rfl, h.2.1.trans rfl⟩
  · intro c
    have h := editAll_grid TerrainKind.Wall
      ((List.range 30).map (fun (i : Nat) => ((20 : Int), (i : Int)))) (FullReset m) c
    by_cases hh : editHits ((List.range 30).map (fun (i : Nat) => ((20 : Int), (i : Int)))) c
    · have := h.2.2.2.1 hh rfl
      exact ⟨this.2, fun _ => (s4_hits c).mp hh, fun _ => this.1⟩
    · rw [h.2.2.2.2 hh]
      refine ⟨rfl, ?_⟩
      constructor
      · intro h1
        cases h1
      · intro h1
        exact absurd ((s4_hits c).mpr h1) hh

/-- A wall on the whole of column 20 keeps every walk that starts left of it on the left. -/
theorem walk_blocked {g : Grid} (hw : ∀ c : Cell, c.1.val = 20 → (g c).isWall = true) :
    ∀ (steps : List Cell) (a c : Cell), Walk g a steps c → a.1.val < 20 → c.1.val < 20 := by
  intro steps
  induction steps with
  | nil =>
    intro a c h ha
    simp only [Walk] at h
    subst h
    exact ha
  | cons b rest ih =>
    intro a c h ha
    simp only [Walk] at h
    obtain ⟨hadj, hwall, hrest⟩ := h
    apply ih b c hrest
    have hb : b.1.val ≠ 20 := by
      intro h20
      rw [hw b h20] at hwall
      cases hwall
    unfold adjacent at hadj
    omega

/-- In scenario S4 no walk joins the start cell to the end cell. -/
theorem scenarioS4_blocked (m : Model) :
    ¬ ∃ steps, Walk (scenarioS4 m).grid startNode steps endNode := by
  rintro ⟨steps, h⟩
  have := walk_blocked (fun c hc => ((scenarioS4_grid m).2 c).2.mpr hc) steps startNode endNode h
    (by decide)
  revert this
  decide

theorem scenarioS4_clear (m : Model) : Clear (scenarioS4 m).grid := by
  have h := (scenarioS4_grid m).2
  refine ⟨?_, (h startNode).1, ?_, (h endNode).1⟩
  · cases hw : ((scenarioS4 m).grid startNode).isWall
    · rfl
    · have := (h startNode).2.mp hw
      revert this
      decide
  · cases hw : ((scenarioS4 m).grid endNode).isWall
    · rfl
    · have := (h endNode).2.mp hw
      revert this
      decide

/-! ## The claims -/

theorem parentChain_head {g : Grid} {startN p : Cell} {fuel : Nat} {l : List Cell}
    (h : parentChain g startN fuel (some p) = some l) (hp : p ≠ startN) : p ∈ l := by
  cases fuel with
  | zero => simp [parentChain] at h
  | succ n =>
    simp only [parentChain, if_neg hp] at h
    cases hq : parentChain g startN n (g p).parent with
    | none => rw [hq] at h; simp at h
    | some l1 =>
      rw [hq] at h
      simp only [Option.map_some', Option.some.injEq] at h
      rw [← h]
      exact List.mem_cons_self _ _

/-- In a list linked by `R` and closed by `s`, every cell before `s` has a successor. -/
theorem chain_snoc_next {α : Type} {R : α → α → Prop} :
    ∀ (l : List α) (s : α), List.Chain' R (l ++ [s]) → ∀ c ∈ l, ∃ b, R c b := by
  intro l
  induction l with
  | nil => intro s _ c hc; cases hc
  | cons a rest ih =>
    intro s h c hc
    rcases List.mem_cons.mp hc with rfl | hc1
    · cases rest with
      | nil => exact ⟨s, by simpa using h⟩
      | cons b r => exact ⟨b, (List.chain'_cons.mp h).1⟩
    · exact ih s (List.Chain'.tail h) c hc1

/-- In a non-empty list linked by `R` and closed by `s`, the last cell is linked to `s`. -/
theorem chain_snoc_last {α : Type} {R : α → α → Prop} {l : List α} {s : α}
    (h : List.Chain' R (l ++ [s])) (hne : l ≠ []) : ∃ z, l.getLast? = some z ∧ R z s := by
  refine ⟨l.getLast hne, List.getLast?_eq_getLast l hne, ?_⟩
  exact (List.chain'_append.mp h).2.2 (l.getLast hne)
    (by rw [List.getLast?_eq_getLast l hne]; exact rfl) s rfl

/-- On an open grid Run Dijkstra reports a path. -/
theorem open_dijkstra_found {m m1 : Model} {t0 t1 : Rat} (hwf : WellFormed m.grid)
    (hopen : OpenGrid m.grid) (h : runDijkstraCmd t0 t1 m = some m1) :
    m1.dijkstraFound = true := by
  obtain ⟨m2, h2, ho⟩ := runDijkstraCmd_spec t0 t1 hwf
  rw [h] at h2
  cases h2
  obtain ⟨steps, hw, _, _⟩ := open_walk hopen
  rw [ho.foundEq]
  exact ho.dijkstra_found_iff.mpr ⟨steps, hw⟩

/-- On an open grid Run BFS reports a path. -/
theorem open_bfs_found {m m1 : Model} {t0 t1 : Rat} (hwf : WellFormed m.grid)
    (hopen : OpenGrid m.grid) (h : runBfsCmd t0 t1 m = some m1) :
    m1.bfsFound = true := by
  obtain ⟨m2, h2, ho⟩ := runBfsCmd_spec t0 t1 hwf
  rw [h] at h2
  cases h2
  obtain ⟨steps, hw, _, _⟩ := open_walk hopen
  rw [ho.foundEq]
  exact ho.bfs_found_iff.mpr ⟨steps, hw⟩

/-- The run handlers keep a well-formed open grid well-formed and open. -/
theorem open_after_dijkstra {m m1 : Model} {t0 t1 : Rat} (hwf : WellFormed m.grid)
    (hopen : OpenGrid m.grid) (h : runDijkstraCmd t0 t1 m = some m1) :
    WellFormed m1.grid ∧ OpenGrid m1.grid := by
  obtain ⟨m2, h2, ho⟩ := runDijkstraCmd_spec t0 t1 hwf
  rw [h] at h2
  cases h2
  refine ⟨ho.dijkstra_frame.1, fun c => ?_⟩
  rw [(ho.dijkstra_frame.2 c).1, (ho.dijkstra_frame.2 c).2]
  exact hopen c

/-- Dijkstra on one model and BFS on another with the same walls and mud: both terminate,
and the Dijkstra cost is at most the BFS true cost when both report a path. -/
theorem cost_le_of_same_terrain (m m2 : Model) (t0 t1 t2 t3 : Rat)
    (hwf : WellFormed m.grid) (hwf2 : WellFormed m2.grid)
    (hsame : ∀ c, (m2.grid c).isWall = (m.grid c).isWall ∧ (m2.grid c).isMud = (m.grid c).isMud) :
    ∃ md mb, runDijkstraCmd t0 t1 m = some md ∧ runBfsCmd t2 t3 m2 = some mb ∧
      DijkstraOutcome m md t0 t1 ∧ BfsOutcome m2 mb t2 t3 ∧
      (md.dijkstraFound = true → mb.bfsFound = true → md.dijkstraCost ≤ mb.bfsRealCost) := by
  obtain ⟨md, hd, hdo⟩ := runDijkstraCmd_spec t0 t1 hwf
  obtain ⟨mb, hb, hbo⟩ := runBfsCmd_spec t2 t3 hwf2
  refine ⟨md, mb, hd, hb, hdo, hbo, ?_⟩
  intro hfd hfb
  rw [hdo.foundEq] at hfd
  rw [hbo.foundEq] at hfb
  obtain ⟨⟨steps, hw, _, hcost⟩, _⟩ := hbo.bfs_minimal hfb
  have hopt := (hdo.dijkstra_minimal hfd).2 steps ((walk_congr (fun c => (hsame c).1) _ _ _).mp hw)
  rw [hdo.cost, if_pos hfd, ← hcost, walkCost_congr (fun c => (hsame c).2)]
  exact hopt

/-- C1: on every terrain Run Dijkstra and Run BFS terminate, and when both report a path
the weighted cost reported by Dijkstra is at most the true cost reported for the BFS path.
This holds for the two runs made from the same model, and for the two runs made one after
the other in either order, where the model after the second run holds both results. -/
theorem C1_dijkstra_cost_le_bfs_true_cost (m : Model) (t0 t1 t2 t3 : Rat)
    (hwf : WellFormed m.grid) :
    (∃ md mb, runDijkstraCmd t0 t1 m = some md ∧ runBfsCmd t2 t3 m = some mb ∧
      (md.dijkstraFound = true → mb.bfsFound = true → md.dijkstraCost ≤ mb.bfsRealCost)) ∧
    (∃ m1 m2, runDijkstraCmd t0 t1 m = some m1 ∧ runBfsCmd t2 t3 m1 = some m2 ∧
      (m2.dijkstraFound = true → m2.bfsFound = true → m2.dijkstraCost ≤ m2.bfsRealCost)) ∧
    (∃ m1 m2, runBfsCmd t0 t1 m = some m1 ∧ runDijkstraCmd t2 t3 m1 = some m2 ∧
      (m2.dijkstraFound = true → m2.bfsFound = true → m2.dijkstraCost ≤ m2.bfsRealCost)) := by
  refine ⟨?_, ?_, ?_⟩
  · obtain ⟨md, mb, hd, hb, _, _, h⟩ :=
      cost_le_of_same_terrain m m t0 t1 t2 t3 hwf hwf (fun _ => ⟨rfl, rfl⟩)
    exact ⟨md, mb, hd, hb, h⟩
  · obtain ⟨m1, h1, ho⟩ := runDijkstraCmd_spec t0 t1 hwf
    obtain ⟨md, m2, hd, h2, _, ho2, h⟩ :=
      cost_le_of_same_terrain m m1 t0 t1 t2 t3 hwf ho.dijkstra_frame.1 ho.dijkstra_frame.2
    rw [h1] at hd
    cases hd
    refine ⟨m1, m2, h1, h2, ?_⟩
    rw [ho2.dijkstra.2.2.2.1, ho2.dijkstra.2.2.2.2]
    exact h
  · obtain ⟨m1, h1, ho⟩ := runBfsCmd_spec t0 t1 hwf
    obtain ⟨m2, mb, h2, hb, ho2, _, h⟩ :=
      cost_le_of_same_terrain m1 m t2 t3 t0 t1 ho.bfs_frame.1 hwf
        (fun c => ⟨((ho.bfs_frame.2 c).1).symm, ((ho.bfs_frame.2 c).2).symm⟩)
    rw [h1] at hb
    cases hb
    refine ⟨m1, m2, h1, h2, ?_⟩
    rw [ho2.bfs.2.2.2.1, ho2.bfs.2.2.2.2.2]
    exact h

/-- Witness for C1: Run Dijkstra then Run BFS on the freshly reset board; both searches
find a path and the comparison holds. -/
theorem C1_witness :
    ∃ m1 m2, runDijkstraCmd 0 1 initModel = some m1 ∧ runBfsCmd 2 3 m1 = some m2 ∧
      m2.dijkstraFound = true ∧ m2.bfsFound = true ∧ m2.dijkstraCost ≤ m2.bfsRealCost := by
  obtain ⟨m1, m2, h1, h2, h⟩ :=
    (C1_dijkstra_cost_le_bfs_true_cost initModel 0 1 2 3 initModel_wf).2.1
  have hopen1 := open_after_dijkstra initModel_wf initModel_open h1
  have hfb : m2.bfsFound = true := open_bfs_found hopen1.1 hopen1.2 h2
  obtain ⟨m3, h3, ho3⟩ := runBfsCmd_spec 2 3 hopen1.1
  rw [h2] at h3
  cases h3
  have hfd : m2.dijkstraFound = true := by
    rw [ho3.dijkstra.2.2.2.1]
    exact open_dijkstra_found initModel_wf initModel_open h1
  exact ⟨m1, m2, h1, h2, hfd, hfb, h hfd hfb⟩

/-- C2: after Run Dijkstra on a terrain with start and end clear, a reported path has as
weighted cost the minimum of the route costs (mud 5, otherwise 1, the start cell not
counted) over all routes from the start cell to the end cell: some route has that cost and
none costs less.  On the open grid the run reports a path of weighted cost 30. -/
theorem C2_dijkstra_cost_is_minimum (m : Model) (t0 t1 : Rat) (hwf : WellFormed m.grid)
    (hclear : Clear m.grid) :
    ∃ m1, runDijkstraCmd t0 t1 m = some m1 ∧
      (m1.dijkstraFound = true →
        (∃ cells, Route m.grid startNode endNode cells ∧
          routeCost m.grid cells = m1.dijkstraCost) ∧
        (∀ cells, Route m.grid startNode endNode cells →
          m1.dijkstraCost ≤ routeCost m.grid cells)) ∧
      (OpenGrid m.grid → m1.dijkstraFound = true ∧ m1.dijkstraCost = 30) := by
  obtain ⟨m1, h1, ho⟩ := runDijkstraCmd_spec t0 t1 hwf
  refine ⟨m1, h1, ?_, ?_⟩
  · intro hf
    rw [ho.foundEq] at hf
    rw [ho.cost, if_pos hf]
    obtain ⟨⟨steps, hw, hc⟩, hmin⟩ := ho.dijkstra_minimal hf
    constructor
    · obtain ⟨r1, r2, _⟩ := route_of_walk hclear.1 hw
      exact ⟨startNode :: steps, r1, by rw [r2, hc]⟩
    · intro cells hr
      obtain ⟨steps1, hw1, hc1, _⟩ := walk_of_route hr
      rw [hc1]
      exact hmin steps1 hw1
  · intro hopen
    obtain ⟨steps, hw, _, hc⟩ := open_walk hopen
    have hf : m1.pathFound = true := ho.dijkstra_found_iff.mpr ⟨steps, hw⟩
    refine ⟨by rw [ho.foundEq]; exact hf, ?_⟩
    rw [ho.cost, if_pos hf]
    obtain ⟨⟨steps1, hw1, hc1⟩, hmin⟩ := ho.dijkstra_minimal hf
    have hup := hmin steps hw
    have hlo := walk_length_ge hw1
    have := length_le_walkCost m.grid steps1
    omega

/-- Witness for C2: the freshly reset board is open, and Dijkstra reports cost 30 on it. -/
theorem C2_witness :
    ∃ m1, runDijkstraCmd 0 1 initModel = some m1 ∧ m1.dijkstraFound = true ∧
      m1.dijkstraCost = 30 := by
  obtain ⟨m1, h1, _, h3⟩ :=
    C2_dijkstra_cost_is_minimum initModel 0 1 initModel_wf initModel_clear
  exact ⟨m1, h1, h3 initModel_open⟩

/-- C3: after Run BFS on a terrain with start and end clear, a reported path has as hop
count the minimum number of edges over all routes from the start cell to the end cell
(mud counts like any passable cell): some route has that many edges and none has fewer.
On the open grid the run reports 30 hops. -/
theorem C3_bfs_hops_is_minimum (m : Model) (t0 t1 : Rat) (hwf : WellFormed m.grid)
    (hclear : Clear m.grid) :
    ∃ m1, runBfsCmd t0 t1 m = some m1 ∧
      (m1.bfsFound = true →
        (∃ cells, Route m.grid startNode endNode cells ∧
          (routeHops cells : Int) = m1.bfsHops) ∧
        (∀ cells, Route m.grid startNode endNode cells →
          m1.bfsHops ≤ (routeHops cells : Int))) ∧
      (OpenGrid m.grid → m1.bfsFound = true ∧ m1.bfsHops = 30) := by
  obtain ⟨m1, h1, ho⟩ := runBfsCmd_spec t0 t1 hwf
  refine ⟨m1, h1, ?_, ?_⟩
  · intro hf
    rw [ho.foundEq] at hf
    rw [ho.hops, if_pos hf]
    obtain ⟨⟨steps, hw, hl, _⟩, hmin⟩ := ho.bfs_minimal hf
    constructor
    · obtain ⟨r1, _, r3⟩ := route_of_walk hclear.1 hw
      exact ⟨startNode :: steps, r1, by rw [r3, hl]⟩
    · intro cells hr
      obtain ⟨steps1, hw1, _, hl1⟩ := walk_of_route hr
      rw [hl1]
      exact hmin steps1 hw1
  · intro hopen
    obtain ⟨steps, hw, hl, _⟩ := open_walk hopen
    have hf : m1.pathFound = true := ho.bfs_found_iff.mpr ⟨steps, hw⟩
    refine ⟨by rw [ho.foundEq]; exact hf, ?_⟩
    rw [ho.hops, if_pos hf]
    obtain ⟨⟨steps1, hw1, hl1, _⟩, hmin⟩ := ho.bfs_minimal hf
    have hup := hmin steps hw
    have hlo := walk_length_ge hw1
    rw [hl] at hup
    push_cast at hup
    omega

/-- Witness for C3: the breadth-first search reports 30 hops on the freshly reset board. -/
theorem C3_witness :
    ∃ m1, runBfsCmd 0 1 initModel = some m1 ∧ m1.bfsFound = true ∧ m1.bfsHops = 30 := by
  obtain ⟨m1, h1, _, h3⟩ := C3_bfs_hops_is_minimum initModel 0 1 initModel_wf initModel_clear
  exact ⟨m1, h1, h3 initModel_open⟩

/-- C4: after a Run Dijkstra that reports a path, `CalcRealCost(endNode, startNode)`
terminates and returns `endNode->dist`, which is the reported weighted cost. -/
theorem C4_dijkstra_dist_eq_real_cost (m : Model) (t0 t1 : Rat) (hwf : WellFormed m.grid) :
    ∃ m1, runDijkstraCmd t0 t1 m = some m1 ∧
      (m1.dijkstraFound = true →
        CalcRealCost m1.grid endNode startNode = some (m1.grid endNode).dist ∧
        m1.dijkstraCost = (m1.grid endNode).dist) := by
  obtain ⟨m1, h1, ho⟩ := runDijkstraCmd_spec t0 t1 hwf
  refine ⟨m1, h1, ?_⟩
  intro hf
  rw [ho.foundEq] at hf
  obtain ⟨l, hpf⟩ := ho.dijkstra_pathFacts hf
  refine ⟨?_, by rw [ho.cost, if_pos hf]⟩
  rw [hpf.real]
  have := hpf.sum
  rw [ho.dijkstra_start_dist] at this
  unfold walkCost
  congr 1
  omega

/-- Witness for C4: on the freshly reset board Dijkstra finds a path, and the cost walk
returns `endNode->dist`. -/
theorem C4_witness :
    ∃ m1, runDijkstraCmd 0 1 initModel = some m1 ∧ m1.dijkstraFound = true ∧
      CalcRealCost m1.grid endNode startNode = some (m1.grid endNode).dist ∧
      m1.dijkstraCost = (m1.grid endNode).dist := by
  obtain ⟨m1, h1, h⟩ := C4_dijkstra_dist_eq_real_cost initModel 0 1 initModel_wf
  have hf := open_dijkstra_found initModel_wf initModel_open h1
  exact ⟨m1, h1, hf, h hf⟩

/-- C5: after a Run BFS that reports a path on a terrain with start and end clear, the
parent links from the end cell lead to the start cell: the chain begins with the end cell,
every cell of it has a parent, each cell has the next one as its parent and the last one has
the start cell as its parent. The hop count is the number of links followed, it is at most
the true cost, and it equals the true cost exactly when no cell of the chain (the start cell
included) is mud. -/
theorem C5_bfs_hops_and_true_cost (m : Model) (t0 t1 : Rat) (hwf : WellFormed m.grid)
    (hclear : Clear m.grid) :
    ∃ m1, runBfsCmd t0 t1 m = some m1 ∧
      (m1.bfsFound = true →
        ∃ chain, parentChain m1.grid startNode loopFuel (some endNode) = some chain ∧
          chain.head? = some endNode ∧
          (∀ c ∈ chain, ∃ p, (m1.grid c).parent = some p) ∧
          List.Chain' (fun a b => (m1.grid a).parent = some b) (chain ++ [startNode]) ∧
          Walk m1.grid startNode chain.reverse endNode ∧
          m1.bfsHops = (chain.length : Int) ∧
          m1.bfsHops ≤ m1.bfsRealCost ∧
          (m1.bfsHops = m1.bfsRealCost ↔
            ∀ c, c ∈ chain ∨ c = startNode → (m1.grid c).isMud = false)) := by
  obtain ⟨m1, h1, ho⟩ := runBfsCmd_spec t0 t1 hwf
  refine ⟨m1, h1, ?_⟩
  intro hf
  rw [ho.foundEq] at hf
  obtain ⟨l, hpf⟩ := ho.bfs_pathFacts hf
  have hreal := ho.real
  rw [if_pos hf, hpf.real] at hreal
  have hreal1 : walkCost m1.grid (endNode :: l) = m1.bfsRealCost := Option.some.inj hreal
  have hsum := hpf.sum
  rw [ho.bfs_start_dist] at hsum
  simp only [List.map_const', List.sum_replicate, nsmul_eq_mul, mul_one, add_zero] at hsum
  have hhops : m1.bfsHops = ((endNode :: l).length : Int) := by
    rw [ho.hops, if_pos hf, hsum]
  have hstart : (m1.grid startNode).isMud = false := by
    rw [(ho.bfs_frame.2 startNode).2]
    exact hclear.2.1
  refine ⟨endNode :: l, hpf.chain, rfl, chain_snoc_next _ _ hpf.links, hpf.links, hpf.walk,
    hhops, ?_, ?_⟩
  · rw [hhops, ← hreal1]
    exact length_le_walkCost _ _
  · rw [hhops, ← hreal1]
    constructor
    · intro h c hc
      rcases hc with hc | hc
      · exact (walkCost_eq_length_iff _ _).mp h.symm c hc
      · rw [hc]; exact hstart
    · intro h
      exact ((walkCost_eq_length_iff _ _).mpr (fun c hc => h c (Or.inl hc))).symm

/-- Witness for C5: on the freshly reset board the breadth-first search finds a path, and
the chain facts hold for it. -/
theorem C5_witness :
    ∃ m1, runBfsCmd 0 1 initModel = some m1 ∧ m1.bfsFound = true ∧
      ∃ chain, parentChain m1.grid startNode loopFuel (some endNode) = some chain ∧
        chain.head? = some endNode ∧
        (∀ c ∈ chain, ∃ p, (m1.grid c).parent = some p) ∧
        List.Chain' (fun a b => (m1.grid a).parent = some b) (chain ++ [startNode]) ∧
        Walk m1.grid startNode chain.reverse endNode ∧
        m1.bfsHops = (chain.length : Int) ∧
        m1.bfsHops ≤ m1.bfsRealCost ∧
        (m1.bfsHops = m1.bfsRealCost ↔
          ∀ c, c ∈ chain ∨ c = startNode → (m1.grid c).isMud = false) := by
  obtain ⟨m1, h1, h⟩ := C5_bfs_hops_and_true_cost initModel 0 1 initModel_wf initModel_clear
  have hf := open_bfs_found initModel_wf initModel_open h1
  exact ⟨m1, h1, hf, h hf⟩

/-- C6: on a terrain with start and end clear, immediately after Run Dijkstra and
immediately after Run BFS, every visited cell other than the start cell has a parent, and
that parent is one cardinal step away, is not a wall and is itself visited. -/
theorem C6_visited_cells_have_parents (m : Model) (t0 t1 : Rat) (hwf : WellFormed m.grid)
    (hclear : Clear m.grid) :
    (∃ m1, runDijkstraCmd t0 t1 m = some m1 ∧
      ∀ c, (m1.grid c).visited = true → c ≠ startNode →
        ∃ p, (m1.grid c).parent = some p ∧ adjacent c p ∧ (m1.grid p).isWall = false ∧
          (m1.grid p).visited = true) ∧
    (∃ m1, runBfsCmd t0 t1 m = some m1 ∧
      ∀ c, (m1.grid c).visited = true → c ≠ startNode →
        ∃ p, (m1.grid c).parent = some p ∧ adjacent c p ∧ (m1.grid p).isWall = false ∧
          (m1.grid p).visited = true) := by
  constructor
  · obtain ⟨m1, h1, ho⟩ := runDijkstraCmd_spec t0 t1 hwf
    refine ⟨m1, h1, ?_⟩
    intro c hv hc
    obtain ⟨p, hp1, hp2, hp3, hp4⟩ := ho.dijkstra_links c hv hc
    refine ⟨p, hp1, hp2, ?_, hp3⟩
    rcases hp4 with rfl | hw
    · rw [(ho.dijkstra_frame.2 startNode).1]; exact hclear.1
    · exact hw
  · obtain ⟨m1, h1, ho⟩ := runBfsCmd_spec t0 t1 hwf
    refine ⟨m1, h1, ?_⟩
    intro c hv hc
    obtain ⟨p, hp1, hp2, hp3, hp4⟩ := ho.bfs_links c hv hc
    refine ⟨p, hp1, hp2, ?_, hp3⟩
    rcases hp4 with rfl | hw
    · rw [(ho.bfs_frame.2 startNode).1]; exact hclear.1
    · exact hw

/-- Witness for C6 on the freshly reset board. -/
theorem C6_witness :
    (∃ m1, runDijkstraCmd 0 1 initModel = some m1 ∧
      ∀ c, (m1.grid c).visited = true → c ≠ startNode →
        ∃ p, (m1.grid c).parent = some p ∧ adjacent c p ∧ (m1.grid p).isWall = false ∧
          (m1.grid p).visited = true) ∧
    (∃ m1, runBfsCmd 0 1 initModel = some m1 ∧
      ∀ c, (m1.grid c).visited = true → c ≠ startNode →
        ∃ p, (m1.grid c).parent = some p ∧ adjacent c p ∧ (m1.grid p).isWall = false ∧
          (m1.grid p).visited = true) :=
  C6_visited_cells_have_parents initModel 0 1 initModel_wf initModel_clear

/-- C7: with the start cell at (5,15) and the end cell at (35,15), after Run Dijkstra and
after Run BFS on any terrain exactly one of the following holds: a path is reported and the
current bitmap marks at least one cell, or no path is reported and the current bitmap marks
no cell. -/
theorem C7_found_iff_bitmap_nonempty (m : Model) (t0 t1 : Rat) (hwf : WellFormed m.grid) :
    (∃ m1, runDijkstraCmd t0 t1 m = some m1 ∧
      Xor' (m1.dijkstraFound = true ∧ ∃ c, m1.currentPath c = true)
        (m1.dijkstraFound = false ∧ ∀ c, m1.currentPath c = false)) ∧
    (∃ m1, runBfsCmd t0 t1 m = some m1 ∧
      Xor' (m1.bfsFound = true ∧ ∃ c, m1.currentPath c = true)
        (m1.bfsFound = false ∧ ∀ c, m1.currentPath c = false)) := by
  constructor
  · obtain ⟨m1, h1, ho⟩ := runDijkstraCmd_spec t0 t1 hwf
    refine ⟨m1, h1, ?_⟩
    rw [ho.foundEq]
    by_cases hf : m1.pathFound = true
    · left
      obtain ⟨l, hpf⟩ := ho.dijkstra_pathFacts hf
      obtain ⟨p, _, hadj, hchain⟩ := hpf.parent
      have hps : p ≠ startNode := by
        rintro rfl
        exact not_adjacent_start_end hadj
      refine ⟨⟨hf, p, (hpf.marks p).mpr (parentChain_head hchain hps)⟩, ?_⟩
      rintro ⟨hnf, _⟩
      rw [hf] at hnf
      cases hnf
    · right
      have hf0 : m1.pathFound = false := by simpa using hf
      have hcur := ho.current
      rw [if_neg hf] at hcur
      refine ⟨⟨hf0, fun c => by rw [hcur]; rfl⟩, ?_⟩
      rintro ⟨hf1, _⟩
      exact hf hf1
  · obtain ⟨m1, h1, ho⟩ := runBfsCmd_spec t0 t1 hwf
    refine ⟨m1, h1, ?_⟩
    rw [ho.foundEq]
    by_cases hf : m1.pathFound = true
    · left
      obtain ⟨l, hpf⟩ := ho.bfs_pathFacts hf
      obtain ⟨p, _, hadj, hchain⟩ := hpf.parent
      have hps : p ≠ startNode := by
        rintro rfl
        exact not_adjacent_start_end hadj
      refine ⟨⟨hf, p, (hpf.marks p).mpr (parentChain_head hchain hps)⟩, ?_⟩
      rintro ⟨hnf, _⟩
      rw [hf] at hnf
      cases hnf
    · right
      have hf0 : m1.pathFound = false := by simpa using hf
      have hcur := ho.current
      rw [if_neg hf] at hcur
      refine ⟨⟨hf0, fun c => by rw [hcur]; rfl⟩, ?_⟩
      rintro ⟨hf1, _⟩
      exact hf hf1

/-- Witness for C7 on the freshly reset board. -/
theorem C7_witness :
    (∃ m1, runDijkstraCmd 0 1 initModel = some m1 ∧
      Xor' (m1.dijkstraFound = true ∧ ∃ c, m1.currentPath c = true)
        (m1.dijkstraFound = false ∧ ∀ c, m1.currentPath c = false)) ∧
    (∃ m1, runBfsCmd 0 1 initModel = some m1 ∧
      Xor' (m1.bfsFound = true ∧ ∃ c, m1.currentPath c = true)
        (m1.bfsFound = false ∧ ∀ c, m1.currentPath c = false)) :=
  C7_found_iff_bitmap_nonempty initModel 0 1 initModel_wf

/-- C8: a Run of either algorithm, whether or not it finds a path, copies the current
bitmap into the previous bitmap, stores the snapshot of the new search in the current
bitmap if a path was found and clears it otherwise, records the algorithm as the last one
run, sets its `ran` flag and leaves the metrics of the other algorithm unchanged.  On the
open grid, Run Dijkstra followed by Run BFS leaves the Dijkstra snapshot in the previous
bitmap, the BFS snapshot in the current bitmap and BFS as the last algorithm. -/
theorem C8_history_shift (m : Model) (t0 t1 t2 t3 : Rat) (hwf : WellFormed m.grid) :
    (∃ m1, runDijkstraCmd t0 t1 m = some m1 ∧
      m1.previousPath = m.currentPath ∧
      (m1.dijkstraFound = true → SnapshotPath m1.grid endNode startNode = some m1.currentPath) ∧
      (m1.dijkstraFound = false → ∀ c, m1.currentPath c = false) ∧
      m1.lastWasDijkstra = true ∧ m1.dijkstraRan = true ∧
      m1.bfsRan = m.bfsRan ∧ m1.bfsVisited = m.bfsVisited ∧ m1.bfsTime = m.bfsTime ∧
      m1.bfsFound = m.bfsFound ∧ m1.bfsHops = m.bfsHops ∧ m1.bfsRealCost = m.bfsRealCost) ∧
    (∃ m1, runBfsCmd t0 t1 m = some m1 ∧
      m1.previousPath = m.currentPath ∧
      (m1.bfsFound = true → SnapshotPath m1.grid endNode startNode = some m1.currentPath) ∧
      (m1.bfsFound = false → ∀ c, m1.currentPath c = false) ∧
      m1.lastWasDijkstra = false ∧ m1.bfsRan = true ∧
      m1.dijkstraRan = m.dijkstraRan ∧ m1.dijkstraVisited = m.dijkstraVisited ∧
      m1.dijkstraTime = m.dijkstraTime ∧ m1.dijkstraFound = m.dijkstraFound ∧
      m1.dijkstraCost = m.dijkstraCost) ∧
    (OpenGrid m.grid →
      ∃ m1 m2, runDijkstraCmd t0 t1 m = some m1 ∧ runBfsCmd t2 t3 m1 = some m2 ∧
        m1.dijkstraFound = true ∧ m2.bfsFound = true ∧
        SnapshotPath m1.grid endNode startNode = some m2.previousPath ∧
        SnapshotPath m2.grid endNode startNode = some m2.currentPath ∧
        m2.lastWasDijkstra = false ∧ m2.dijkstraRan = true ∧ m2.bfsRan = true) := by
  obtain ⟨m1, h1, ho⟩ := runDijkstraCmd_spec t0 t1 hwf
  obtain ⟨mb, hb, hbo⟩ := runBfsCmd_spec t0 t1 hwf
  refine ⟨⟨m1, h1, ho.previous, ?_, ?_, ho.last, ho.ran.2, ho.bfs⟩,
    ⟨mb, hb, hbo.previous, ?_, ?_, hbo.last, hbo.ran.2, hbo.dijkstra⟩, ?_⟩
  · intro hf
    rw [ho.foundEq] at hf
    have := ho.current
    rw [if_pos hf] at this
    exact this
  · intro hf c
    rw [ho.foundEq] at hf
    have := ho.current
    rw [if_neg (by rw [hf]; simp)] at this
    rw [this]
    rfl
  · intro hf
    rw [hbo.foundEq] at hf
    have := hbo.current
    rw [if_pos hf] at this
    exact this
  · intro hf c
    rw [hbo.foundEq] at hf
    have := hbo.current
    rw [if_neg (by rw [hf]; simp)] at this
    rw [this]
    rfl
  · intro hopen
    obtain ⟨m2, h2, ho2⟩ := runBfsCmd_spec t2 t3 ho.dijkstra_frame.1
    obtain ⟨steps, hw, _, _⟩ := open_walk hopen
    have hf1 : m1.pathFound = true := ho.dijkstra_found_iff.mpr ⟨steps, hw⟩
    have hw2 : Walk m1.grid startNode steps endNode :=
      (walk_congr (fun c => (ho.dijkstra_frame.2 c).1) _ _ _).mpr hw
    have hf2 : m2.pathFound = true := ho2.bfs_found_iff.mpr ⟨steps, hw2⟩
    have hc1 := ho.current
    rw [if_pos hf1] at hc1
    have hc2 := ho2.current
    rw [if_pos hf2] at hc2
    refine ⟨m1, m2, h1, h2, by rw [ho.foundEq]; exact hf1, by rw [ho2.foundEq]; exact hf2,
      ?_, hc2, ho2.last, ?_, ho2.ran.2⟩
    · rw [ho2.previous]; exact hc1
    · rw [ho2.dijkstra.1]; exact ho.ran.2

/-- Witness for C8: the scenario on the freshly reset board. -/
theorem C8_witness :
    ∃ m1 m2, runDijkstraCmd 0 1 initModel = some m1 ∧ runBfsCmd 2 3 m1 = some m2 ∧
      m1.dijkstraFound = true ∧ m2.bfsFound = true ∧
      SnapshotPath m1.grid endNode startNode = some m2.previousPath ∧
      SnapshotPath m2.grid endNode startNode = some m2.currentPath ∧
      m2.lastWasDijkstra = false ∧ m2.dijkstraRan = true ∧ m2.bfsRan = true :=
  (C8_history_shift initModel 0 1 2 3 initModel_wf).2.2 initModel_open

/-- C9: on a terrain with the start cell clear on which no route joins the start cell to
the end cell, Run Dijkstra and Run BFS terminate without a path: the cost outputs are 0,
the current bitmap is empty, and the visit count is the number of cells that a route from
the start cell reaches, the start cell included. -/
theorem C9_no_route (m : Model) (t0 t1 : Rat) (hwf : WellFormed m.grid)
    (hstart : (m.grid startNode).isWall = false)
    (hno : ¬ ∃ cells, Route m.grid startNode endNode cells) :
    (∃ m1, runDijkstraCmd t0 t1 m = some m1 ∧ m1.dijkstraFound = false ∧
      m1.dijkstraCost = 0 ∧ (∀ c, m1.currentPath c = false) ∧
      ∃ S : Finset Cell, startNode ∈ S ∧ (∀ c, c ∈ S ↔ ∃ cells, Route m.grid startNode c cells) ∧
        m1.dijkstraVisited = (S.card : Int)) ∧
    (∃ m1, runBfsCmd t0 t1 m = some m1 ∧ m1.bfsFound = false ∧
      m1.bfsHops = 0 ∧ m1.bfsRealCost = 0 ∧ (∀ c, m1.currentPath c = false) ∧
      ∃ S : Finset Cell, startNode ∈ S ∧ (∀ c, c ∈ S ↔ ∃ cells, Route m.grid startNode c cells) ∧
        m1.bfsVisited = (S.card : Int)) := by
  have hno1 : ¬ ∃ steps, Walk m.grid startNode steps endNode := by
    rintro ⟨steps, hw⟩
    exact hno ⟨_, (route_of_walk hstart hw).1⟩
  have hreach : ∀ c, (∃ steps, Walk m.grid startNode steps c) ↔
      ∃ cells, Route m.grid startNode c cells := by
    intro c
    constructor
    · rintro ⟨steps, hw⟩
      exact ⟨_, (route_of_walk hstart hw).1⟩
    · rintro ⟨cells, hr⟩
      obtain ⟨steps, hw, _⟩ := walk_of_route hr
      exact ⟨steps, hw⟩
  constructor
  · obtain ⟨m1, h1, ho⟩ := runDijkstraCmd_spec t0 t1 hwf
    have hf : m1.pathFound = false := by
      cases hpf : m1.pathFound
      · rfl
      · exact absurd (ho.dijkstra_found_iff.mp hpf) hno1
    have hcur := ho.current
    rw [if_neg (by rw [hf]; simp)] at hcur
    obtain ⟨hcount, hmem⟩ := ho.dijkstra_exhausted hf
    refine ⟨m1, h1, by rw [ho.foundEq]; exact hf, ?_, fun c => by rw [hcur]; rfl,
      visitedCells m1.grid, ?_, fun c => (hmem c).trans (hreach c), ?_⟩
    · rw [ho.cost, if_neg (by rw [hf]; simp)]
    · exact (hmem startNode).mpr ⟨[], rfl⟩
    · rw [ho.visitedEq]; exact hcount
  · obtain ⟨m1, h1, ho⟩ := runBfsCmd_spec t0 t1 hwf
    have hf : m1.pathFound = false := by
      cases hpf : m1.pathFound
      · rfl
      · exact absurd (ho.bfs_found_iff.mp hpf) hno1
    have hcur := ho.current
    rw [if_neg (by rw [hf]; simp)] at hcur
    have hreal := ho.real
    rw [if_neg (by rw [hf]; simp)] at hreal
    obtain ⟨hcount, hmem⟩ := ho.bfs_exhausted hf
    refine ⟨m1, h1, by rw [ho.foundEq]; exact hf, ?_, hreal, fun c => by rw [hcur]; rfl,
      visitedCells m1.grid, ?_, fun c => (hmem c).trans (hreach c), ?_⟩
    · rw [ho.hops, if_neg (by rw [hf]; simp)]
    · exact (hmem startNode).mpr ⟨[], rfl⟩
    · rw [ho.visitedEq]; exact hcount

/-- Witness for C9: scenario S4, walls on the whole of column 20. -/
theorem C9_witness :
    (∃ m1, runDijkstraCmd 0 1 (scenarioS4 staticInit) = some m1 ∧ m1.dijkstraFound = false ∧
      m1.dijkstraCost = 0 ∧ (∀ c, m1.currentPath c = false) ∧
      ∃ S : Finset Cell, startNode ∈ S ∧
        (∀ c, c ∈ S ↔ ∃ cells, Route (scenarioS4 staticInit).grid startNode c cells) ∧
        m1.dijkstraVisited = (S.card : Int)) ∧
    (∃ m1, runBfsCmd 0 1 (scenarioS4 staticInit) = some m1 ∧ m1.bfsFound = false ∧
      m1.bfsHops = 0 ∧ m1.bfsRealCost = 0 ∧ (∀ c, m1.currentPath c = false) ∧
      ∃ S : Finset Cell, startNode ∈ S ∧
        (∀ c, c ∈ S ↔ ∃ cells, Route (scenarioS4 staticInit).grid startNode c cells) ∧
        m1.bfsVisited = (S.card : Int)) :=
  C9_no_route (scenarioS4 staticInit) 0 1 (scenarioS4_grid staticInit).1
    (scenarioS4_clear staticInit).1
    (fun h => scenarioS4_blocked staticInit (by
      obtain ⟨cells, hr⟩ := h
      obtain ⟨steps, hw, _⟩ := walk_of_route hr
      exact ⟨steps, hw⟩))

/-- A walk that gains one column with every step runs straight along its row. -/
theorem straight_walk_cost {g : Grid} (f : Nat → Int) (y : Fin ROWS)
    (hf : ∀ c : Cell, c.2 = y → cellCost g c = f c.1.val) :
    ∀ (steps : List Cell) (a c : Cell), Walk g a steps c → a.2 = y →
      c.1.val = a.1.val + steps.length → walkCost g steps = rowSum f a.1.val steps.length := by
  intro steps
  induction steps with
  | nil =>
    intro a c _ _ _
    rfl
  | cons b rest ih =>
    intro a c h ha hc
    simp only [Walk] at h
    obtain ⟨hadj, _, hrest⟩ := h
    have hdx := (walk_dx rest b c hrest).1
    simp only [List.length_cons] at hc
    have hb1 : b.1.val = a.1.val + 1 := by
      unfold adjacent at hadj
      omega
    have hb2 : b.2 = a.2 := by
      unfold adjacent at hadj
      apply Fin.ext
      omega
    rw [walkCost_cons, List.length_cons, rowSum, hf b (by rw [hb2, ha]),
      ih b c hrest (by rw [hb2, ha]) (by omega), hb1]

theorem s3_cost (m : Model) (c : Cell) (hc : c.2 = 15) :
    cellCost (scenarioS3 m).grid c = s3RowCost c.1.val := by
  have h := ((scenarioS3_grid m).2 c).2
  have hc2 : c.2.val = 15 := by rw [hc]; rfl
  unfold cellCost s3RowCost
  by_cases hm : ((scenarioS3 m).grid c).isMud = true
  · rw [if_pos hm, if_pos (h.mp hm).2]
  · rw [if_neg hm, if_neg (fun hx => hm (h.mpr ⟨hc2, hx⟩))]

/-- In scenario S3 a walk of 32 steps avoids the mud: up, along row 14, down. -/
theorem s3_detour (m : Model) :
    ∃ steps, Walk (scenarioS3 m).grid startNode steps endNode ∧
      walkCost (scenarioS3 m).grid steps = 32 := by
  have hg := (scenarioS3_grid m).2
  obtain ⟨row, hr1, hr2, hr3⟩ := walk_row (g := (scenarioS3 m).grid) 30 ((5, 14) : Cell)
    ((35, 14) : Cell) (by decide) (by decide) (fun z _ _ _ => (hg z).1)
  have hrowcost : walkCost (scenarioS3 m).grid row = 30 := by
    rw [(walkCost_eq_length_iff _ row).mpr, hr2]
    · rfl
    · intro c hc
      have h14 := (hr3 c hc).1
      cases hmud : ((scenarioS3 m).grid c).isMud
      · rfl
      · have := ((hg c).2.mp hmud).1
        rw [h14] at this
        revert this
        decide
  have hup : Walk (scenarioS3 m).grid startNode [((5, 14) : Cell)] ((5, 14) : Cell) := by
    simp only [Walk]
    exact ⟨by decide, (hg _).1, trivial⟩
  have hdown : Walk (scenarioS3 m).grid ((35, 14) : Cell) [endNode] endNode := by
    simp only [Walk]
    exact ⟨by decide, (hg _).1, trivial⟩
  have hnomud : ∀ c : Cell, ¬ (c.2.val = 15 ∧ 10 ≤ c.1.val ∧ c.1.val ≤ 30) →
      cellCost (scenarioS3 m).grid c = 1 := by
    intro c hc
    unfold cellCost
    rw [if_neg (fun hm => hc ((hg c).2.mp hm))]
  refine ⟨[((5, 14) : Cell)] ++ (row ++ [endNode]), walk_append _ hup (walk_append _ hr1 hdown), ?_⟩
  rw [walkCost_append, walkCost_append, hrowcost, walkCost_cons, walkCost_cons, walkCost_nil,
    hnomud _ (by decide), hnomud _ (by decide)]
  rfl

/-- C10 (scenario S3): from a fully reset model with mud on every cell `(x, 15)`,
`10 ≤ x ≤ 30`, and no other terrain, Run Dijkstra followed by Run BFS terminates with both
algorithms reporting a path, 30 hops for BFS, a Dijkstra cost (at most 32) strictly below
the BFS true cost (114), and the BFS true cost at least 16 above the Dijkstra cost. -/
theorem C10_scenario_S3 (m : Model) (t0 t1 t2 t3 : Rat) :
    ∃ m1 m2, runDijkstraCmd t0 t1 (scenarioS3 m) = some m1 ∧ runBfsCmd t2 t3 m1 = some m2 ∧
      m2.dijkstraFound = true ∧ m2.bfsFound = true ∧ m2.bfsHops = 30 ∧
      m2.dijkstraCost < m2.bfsRealCost ∧ m2.bfsRealCost ≥ m2.dijkstraCost + 16 ∧
      m2.bfsRealCost = 114 ∧ m2.dijkstraCost ≤ 32 := by
  have hg := scenarioS3_grid m
  obtain ⟨m1, h1, ho⟩ := runDijkstraCmd_spec t0 t1 hg.1
  obtain ⟨m2, h2, ho2⟩ := runBfsCmd_spec t2 t3 ho.dijkstra_frame.1
  have hterr := ho.dijkstra_frame.2
  obtain ⟨det, hdet, hdetc⟩ := s3_detour m
  have hf1 : m1.pathFound = true := ho.dijkstra_found_iff.mpr ⟨det, hdet⟩
  have hdet1 : Walk m1.grid startNode det endNode :=
    (walk_congr (fun c => (hterr c).1) _ _ _).mpr hdet
  have hf2 : m2.pathFound = true := ho2.bfs_found_iff.mpr ⟨det, hdet1⟩
  have hcost : m1.dijkstraCost ≤ 32 := by
    rw [ho.cost, if_pos hf1, ← hdetc]
    exact (ho.dijkstra_minimal hf1).2 det hdet
  obtain ⟨row, hr1, hr2, _⟩ := walk_row (g := m1.grid) 30 startNode endNode (by decide)
    (by decide) (fun z _ _ _ => by rw [(hterr z).1]; exact (hg.2 z).1)
  obtain ⟨⟨steps, hw, hl, hreal⟩, hmin⟩ := ho2.bfs_minimal hf2
  have hhops : (m2.grid endNode).dist = 30 := by
    have hup := hmin row hr1
    have hlo := walk_length_ge hw
    rw [hr2] at hup
    push_cast at hup
    omega
  have hlen : steps.length = 30 := by
    rw [hhops] at hl
    exact_mod_cast hl
  have hw0 : Walk (scenarioS3 m).grid startNode steps endNode :=
    (walk_congr (fun c => (hterr c).1) _ _ _).mp hw
  have hstraight := straight_walk_cost (g := (scenarioS3 m).grid) s3RowCost 15
    (fun c hc => s3_cost m c hc) steps startNode endNode hw0 (by decide)
    (by rw [hlen]; decide)
  have hrealv : m2.bfsRealCost = 114 := by
    rw [← hreal, walkCost_congr (fun c => (hterr c).2), hstraight, hlen]
    decide
  have hdc : m2.dijkstraCost = m1.dijkstraCost := ho2.dijkstra.2.2.2.2
  refine ⟨m1, m2, h1, h2, ?_, ?_, ?_, ?_, ?_, hrealv, ?_⟩
  · rw [ho2.dijkstra.2.2.2.1, ho.foundEq]; exact hf1
  · rw [ho2.foundEq]; exact hf2
  · rw [ho2.hops, if_pos hf2]; exact hhops
  · rw [hrealv, hdc]; omega
  · rw [hrealv, hdc]; omega
  · rw [hdc]; exact hcost

/-! ## The claims about resets, terrain edits and reachable states -/

/-- C11: `PartialReset` sets `dist` to the sentinel, `parent` to null and `visited` to false
in every cell, and leaves unchanged the coordinates and the wall and mud flags of every
cell, both path bitmaps, `lastWasDijkstra` and all per-algorithm metrics. -/
theorem C11_partial_reset_frame (m : Model) :
    (∀ c, ((PartialReset m).grid c).dist = SENTINEL ∧
      ((PartialReset m).grid c).parent = none ∧
      ((PartialReset m).grid c).visited = false ∧
      ((PartialReset m).grid c).isWall = (m.grid c).isWall ∧
      ((PartialReset m).grid c).isMud = (m.grid c).isMud ∧
      ((PartialReset m).grid c).x = (m.grid c).x ∧
      ((PartialReset m).grid c).y = (m.grid c).y) ∧
    (PartialReset m).currentPath = m.currentPath ∧
    (PartialReset m).previousPath = m.previousPath ∧
    (PartialReset m).lastWasDijkstra = m.lastWasDijkstra ∧
    (PartialReset m).dijkstraRan = m.dijkstraRan ∧
    (PartialReset m).dijkstraTime = m.dijkstraTime ∧
    (PartialReset m).dijkstraVisited = m.dijkstraVisited ∧
    (PartialReset m).dijkstraFound = m.dijkstraFound ∧
    (PartialReset m).dijkstraCost = m.dijkstraCost ∧
    (PartialReset m).bfsRan = m.bfsRan ∧
    (PartialReset m).bfsTime = m.bfsTime ∧
    (PartialReset m).bfsVisited = m.bfsVisited ∧
    (PartialReset m).bfsFound = m.bfsFound ∧
    (PartialReset m).bfsHops = m.bfsHops ∧
    (PartialReset m).bfsRealCost = m.bfsRealCost :=
  ⟨fun _ => ⟨rfl, rfl, rfl, rfl, rfl, rfl, rfl⟩, rfl, rfl, rfl, rfl, rfl, rfl, rfl, rfl, rfl,
    rfl, rfl, rfl, rfl, rfl⟩

/-- C12: after `FullReset` every cell is neither wall nor mud, has `dist` at the sentinel,
a null parent and `visited` false; both path bitmaps are all false; and the `ran` flags of
both algorithms are false. -/
theorem C12_full_reset_clears (m : Model) :
    (∀ c, ((FullReset m).grid c).isWall = false ∧
      ((FullReset m).grid c).isMud = false ∧
      ((FullReset m).grid c).dist = SENTINEL ∧
      ((FullReset m).grid c).parent = none ∧
      ((FullReset m).grid c).visited = false) ∧
    (∀ c, (FullReset m).currentPath c = false) ∧
    (∀ c, (FullReset m).previousPath c = false) ∧
    (FullReset m).dijkstraRan = false ∧
    (FullReset m).bfsRan = false :=
  ⟨fun _ => ⟨rfl, rfl, rfl, rfl, rfl⟩, fun _ => rfl, fun _ => rfl, rfl, rfl⟩

/-- C17: `PartialReset` followed by `FullReset` gives the same model as `FullReset` alone,
and `PartialReset` applied twice gives the same model as `PartialReset` applied once. -/
theorem C17_reset_algebra (m : Model) :
    FullReset (PartialReset m) = FullReset m ∧
    PartialReset (PartialReset m) = PartialReset m :=
  ⟨rfl, rfl⟩

/-- A successful run of Dijkstra settles at least the start cell. -/
theorem DijkstraOutcome.dijkstra_visited_pos {m m1 : Model} {t0 t1 : Rat}
    (h : DijkstraOutcome m m1 t0 t1) (hf : m1.pathFound = true) : 0 < m1.visitedCount := by
  obtain ⟨s, hs, hg, hvc, hcase⟩ := h.post
  simp only at hg hvc hcase
  rcases hcase with ⟨_, hnf⟩ | ⟨_, e, he, hend⟩
  · rw [hf] at hnf; cases hnf
  · rw [hvc, hs.count]
    have hsv : (s.grid startNode).visited = true := by
      by_contra hsv
      have hsv0 : (s.grid startNode).visited = false := by simpa using hsv
      have h0 := hs.start0.1
      have hq := hs.queued startNode hsv0 (by rw [h0, sentinel_val]; omega)
      have hle := pqTop_le he _ hq
      have hkey := hs.top_key he (by rw [hend]; exact hs.endOpen)
      rw [hend] at hkey
      obtain ⟨p, _, _, _, hp4, _⟩ := hs.link endNode end_ne_start (hs.dijkstra_end_optimal he hend).1
      have hp0 := (hs.range p).1
      have hcp := cellCost_pos s.grid endNode
      simp only at hle
      omega
    have : 0 < (visitedCells s.grid).card :=
      Finset.card_pos.mpr ⟨startNode, mem_visitedCells.mpr hsv⟩
    exact_mod_cast this

/-- A successful breadth-first run dequeues at least the end cell. -/
theorem BfsOutcome.bfs_visited_pos {m m1 : Model} {t0 t1 : Rat}
    (h : BfsOutcome m m1 t0 t1) (hf : m1.pathFound = true) : 0 < m1.visitedCount := by
  obtain ⟨s, hs, hg, hcase⟩ := h.post
  simp only at hg hcase
  rcases hcase with ⟨_, hnf, _⟩ | ⟨_, hvc, _⟩
  · rw [hf] at hnf; cases hnf
  · rw [hvc]
    have := hs.range startNode hs.start0.2.2
    omega

/-- C13 (the code at the failing input): after Run Dijkstra and Run BFS on the freshly
reset board, `FullReset` leaves `dijkstraFound` and `bfsFound` true, leaves the two recorded
times and the two positive visit counts in place, and leaves `lastWasDijkstra` false; only
the `ran` flags, the weighted cost, the hops and the true cost are cleared. -/
theorem C13_full_reset_keeps_metrics :
    ∃ m1 m2, runDijkstraCmd 0 1 initModel = some m1 ∧ runBfsCmd 2 4 m1 = some m2 ∧
      (FullReset m2).dijkstraFound = true ∧ (FullReset m2).bfsFound = true ∧
      (FullReset m2).dijkstraTime = 1 ∧ (FullReset m2).bfsTime = 2 ∧
      0 < (FullReset m2).dijkstraVisited ∧ 0 < (FullReset m2).bfsVisited ∧
      (FullReset m2).lastWasDijkstra = false ∧
      (FullReset m2).dijkstraRan = false ∧ (FullReset m2).bfsRan = false ∧
      (FullReset m2).dijkstraCost = 0 ∧ (FullReset m2).bfsHops = 0 ∧
      (FullReset m2).bfsRealCost = 0 := by
  obtain ⟨m1, h1, ho⟩ := runDijkstraCmd_spec 0 1 initModel_wf
  have hopen1 := open_after_dijkstra initModel_wf initModel_open h1
  obtain ⟨m2, h2, ho2⟩ := runBfsCmd_spec 2 4 hopen1.1
  have hfd : m1.dijkstraFound = true := open_dijkstra_found initModel_wf initModel_open h1
  have hfb : m2.bfsFound = true := open_bfs_found hopen1.1 hopen1.2 h2
  have hpf1 : m1.pathFound = true := by rw [← ho.foundEq]; exact hfd
  have hpf2 : m2.pathFound = true := by rw [← ho2.foundEq]; exact hfb
  refine ⟨m1, m2, h1, h2, ?_, hfb, ?_, ?_, ?_, ?_, ho2.last, rfl, rfl, rfl, rfl, rfl⟩
  · show m2.dijkstraFound = true
    rw [ho2.dijkstra.2.2.2.1]; exact hfd
  · show m2.dijkstraTime = 1
    rw [ho2.dijkstra.2.2.1, ho.time.2]; norm_num
  · show m2.bfsTime = 2
    rw [ho2.time.2]; norm_num
  · show 0 < m2.dijkstraVisited
    rw [ho2.dijkstra.2.1, ho.visitedEq]; exact ho.dijkstra_visited_pos hpf1
  · show 0 < m2.bfsVisited
    rw [ho2.visitedEq]; exact ho2.bfs_visited_pos hpf2

/-- C14: a terrain edit at the start cell, at the end cell or outside the board leaves the
whole model unchanged; any other edit sets the chosen flag of the cell at `(x, y)`, clears
its opposite flag, keeps its other fields, keeps every other cell and keeps every other
part of the model. -/
theorem C14_edit_terrain (m : Model) (kind : TerrainKind) (x y : Int) :
    ((x = 5 ∧ y = 15) ∨ (x = 35 ∧ y = 15) ∨ ¬ (0 ≤ x ∧ x < 40 ∧ 0 ≤ y ∧ y < 30) →
      EditTerrain kind x y m = m) ∧
    (¬ (x = 5 ∧ y = 15) → ¬ (x = 35 ∧ y = 15) → 0 ≤ x ∧ x < 40 ∧ 0 ≤ y ∧ y < 30 →
      ∃ c : Cell, (c.1.val : Int) = x ∧ (c.2.val : Int) = y ∧
        (kind = TerrainKind.Wall →
          ((EditTerrain kind x y m).grid c).isWall = true ∧
          ((EditTerrain kind x y m).grid c).isMud = false) ∧
        (kind = TerrainKind.Mud →
          ((EditTerrain kind x y m).grid c).isMud = true ∧
          ((EditTerrain kind x y m).grid c).isWall = false) ∧
        ((EditTerrain kind x y m).grid c).x = (m.grid c).x ∧
        ((EditTerrain kind x y m).grid c).y = (m.grid c).y ∧
        ((EditTerrain kind x y m).grid c).dist = (m.grid c).dist ∧
        ((EditTerrain kind x y m).grid c).parent = (m.grid c).parent ∧
        ((EditTerrain kind x y m).grid c).visited = (m.grid c).visited ∧
        (∀ c1, c1 ≠ c → (EditTerrain kind x y m).grid c1 = m.grid c1) ∧
        { EditTerrain kind x y m with grid := m.grid } = m) := by
  have hs1 : (startNode.1.val : Int) = 5 := by decide
  have hs2 : (startNode.2.val : Int) = 15 := by decide
  have he1 : (endNode.1.val : Int) = 35 := by decide
  have he2 : (endNode.2.val : Int) = 15 := by decide
  constructor
  · intro h
    unfold EditTerrain
    cases hc : cellAt x y with
    | none => rfl
    | some c =>
      obtain ⟨h1, h2⟩ := cellAt_eq_some.mp hc
      have hb1 : c.1.val < 40 := c.1.isLt
      have hb2 : c.2.val < 30 := c.2.isLt
      simp only
      have hcond : ¬ (c ≠ startNode ∧ c ≠ endNode) := by
        rintro ⟨hcs, hce⟩
        rcases h with ⟨hx, hy⟩ | ⟨hx, hy⟩ | hout
        · exact hcs (cell_ext (by omega) (by omega))
        · exact hce (cell_ext (by omega) (by omega))
        · exact hout (by omega)
      rw [if_neg hcond]
  · intro hns hne hin
    have hx : x.toNat < COLS := by
      show x.toNat < 40
      omega
    have hy : y.toNat < ROWS := by
      show y.toNat < 30
      omega
    obtain ⟨c, hcdef⟩ : ∃ c : Cell, c = (⟨x.toNat, hx⟩, ⟨y.toNat, hy⟩) := ⟨_, rfl⟩
    have h1 : (c.1.val : Int) = x := by
      rw [hcdef]
      simp only [Int.toNat_of_nonneg hin.1]
    have h2 : (c.2.val : Int) = y := by
      rw [hcdef]
      simp only [Int.toNat_of_nonneg hin.2.2.1]
    have hc : cellAt x y = some c := cellAt_eq_some.mpr ⟨h1, h2⟩
    have hcs : c ≠ startNode := by
      intro hcs
      rw [hcs] at h1 h2
      exact hns ⟨by omega, by omega⟩
    have hce : c ≠ endNode := by
      intro hce
      rw [hce] at h1 h2
      exact hne ⟨by omega, by omega⟩
    refine ⟨c, h1, h2, ?_⟩
    unfold EditTerrain
    rw [hc]
    simp only
    rw [if_pos ⟨hcs, hce⟩]
    cases kind
    · dsimp only
      refine ⟨fun _ => ?_, (fun hk => by cases hk), ?_, ?_, ?_, ?_, ?_,
        (fun c1 hc1 => Function.update_noteq hc1 _ _), rfl⟩
      all_goals simp only [Function.update_same, and_self]
    · dsimp only
      refine ⟨(fun hk => by cases hk), fun _ => ?_, ?_, ?_, ?_, ?_, ?_,
        (fun c1 hc1 => Function.update_noteq hc1 _ _), rfl⟩
      all_goals simp only [Function.update_same, and_self]

/-- Witness for C14: a wall placed on cell (20, 3) of the freshly reset board, and an edit
at the start cell that changes nothing. -/
theorem C14_witness :
    EditTerrain TerrainKind.Wall 5 15 initModel = initModel ∧
    ∃ c : Cell, (c.1.val : Int) = 20 ∧ (c.2.val : Int) = 3 ∧
      ((EditTerrain TerrainKind.Wall 20 3 initModel).grid c).isWall = true ∧
      ((EditTerrain TerrainKind.Wall 20 3 initModel).grid c).isMud = false := by
  refine ⟨(C14_edit_terrain initModel TerrainKind.Wall 5 15).1 (Or.inl ⟨rfl, rfl⟩), ?_⟩
  obtain ⟨c, h1, h2, h3, _⟩ := (C14_edit_terrain initModel TerrainKind.Wall 20 3).2
    (by decide) (by decide) (by decide)
  exact ⟨c, h1, h2, h3 rfl⟩

/-- The cost walk from a cell without parent that is not the start cell counts that cell
and stops. -/
theorem calcRealCost_no_parent (g : Grid) (endN startN : Cell) (hne : endN ≠ startN)
    (hp : (g endN).parent = none) :
    CalcRealCost g endN startN = some (if (g endN).isMud = true then 5 else 1) := by
  have hf : loopFuel = 6000 + 1 + 1 := rfl
  unfold CalcRealCost
  rw [hf]
  simp only [whileLoop, calcBody, if_neg hne, hp, zero_add]

/-- C16 (as amended): on a grid in which the end cell has no parent and is not the start
cell, `CalcRealCost(endNode, startNode)` returns the entry cost of the end cell, which is 1,
or 5 when the end cell is mud. -/
theorem C16_real_cost_without_parent (g : Grid) (endN startN : Cell) (hne : endN ≠ startN)
    (hp : (g endN).parent = none) :
    CalcRealCost g endN startN = some (if (g endN).isMud = true then 5 else 1) :=
  calcRealCost_no_parent g endN startN hne hp

/-- Witness for the amended C16 right after a partial reset of the freshly reset board. -/
theorem C16_witness :
    CalcRealCost (PartialReset initModel).grid endNode startNode =
      some (if ((PartialReset initModel).grid endNode).isMud = true then 5 else 1) :=
  C16_real_cost_without_parent (PartialReset initModel).grid endNode startNode end_ne_start rfl

/-- C16 (counterexample): right after a partial reset of the freshly reset board the end
cell has no parent and is not the start cell, yet `CalcRealCost(endNode, startNode)`
returns 1 and not 0. -/
theorem C16_counterexample :
    ((PartialReset initModel).grid endNode).parent = none ∧ endNode ≠ startNode ∧
    CalcRealCost (PartialReset initModel).grid endNode startNode = some 1 ∧
    CalcRealCost (PartialReset initModel).grid endNode startNode ≠ some 0 := by
  have h := calcRealCost_no_parent (PartialReset initModel).grid endNode startNode
    end_ne_start rfl
  have h1 : CalcRealCost (PartialReset initModel).grid endNode startNode = some 1 := by
    rw [h]
    rfl
  refine ⟨rfl, end_ne_start, h1, ?_⟩
  rw [h1]
  decide

/-- A terrain edit touches nothing but the grid. -/
theorem editTerrain_rest (kind : TerrainKind) (x y : Int) (m : Model) :
    { EditTerrain kind x y m with grid := m.grid } = m := by
  unfold EditTerrain
  cases cellAt x y with
  | none => rfl
  | some c =>
    simp only
    split_ifs
    · cases kind <;> rfl
    · rfl

theorem fullReset_ok (m : Model) : StateOK (FullReset m) := by
  refine ⟨fullReset_wf m, ⟨fun c h => ?_, clear_of_open (fullReset_open m)⟩, ?_, ?_⟩
  · have := ((fullReset_open m) c).1
    rw [h.1] at this
    cases this
  · intro h
    cases h
  · intro h
    rcases h with h | h <;> cases h

theorem editTerrain_ok (kind : TerrainKind) (x y : Int) {m : Model} (h : StateOK m) :
    StateOK (EditTerrain kind x y m) := by
  obtain ⟨hwf, ⟨hexcl, hclear⟩, hlast⟩ := h
  have hg := editTerrain_grid kind (x, y) m
  simp only at hg
  have hrest := editTerrain_rest kind x y m
  have hflags : ∀ c, ¬ editHits [(x, y)] c →
      (EditTerrain kind x y m).grid c = m.grid c := fun c hc => (hg c).2.2.2.2 hc
  have hnostart : ¬ editHits [(x, y)] startNode := by
    rintro ⟨_, _, _, h1, _⟩
    exact h1 rfl
  have hnoend : ¬ editHits [(x, y)] endNode := by
    rintro ⟨_, _, _, _, h2⟩
    exact h2 rfl
  refine ⟨fun c => ?_, ⟨fun c hb => ?_, ?_⟩, ?_⟩
  · rw [(hg c).1, (hg c).2.1]
    exact hwf c
  · by_cases hh : editHits [(x, y)] c
    · cases kind
      · have := (hg c).2.2.2.1 hh rfl
        rw [this.2] at hb
        cases hb.2
      · have := (hg c).2.2.1 hh rfl
        rw [this.2] at hb
        cases hb.1
    · rw [hflags c hh] at hb
      exact hexcl c hb
  · unfold Clear
    rw [hflags startNode hnostart, hflags endNode hnoend]
    exact hclear
  · have e1 : (EditTerrain kind x y m).algorithmRan = m.algorithmRan := by
      have := congrArg Model.algorithmRan hrest
      exact this
    have e2 : (EditTerrain kind x y m).dijkstraRan = m.dijkstraRan := by
      have := congrArg Model.dijkstraRan hrest
      exact this
    have e3 : (EditTerrain kind x y m).bfsRan = m.bfsRan := by
      have := congrArg Model.bfsRan hrest
      exact this
    have e4 : (EditTerrain kind x y m).lastWasDijkstra = m.lastWasDijkstra := by
      have := congrArg Model.lastWasDijkstra hrest
      exact this
    unfold LastOK
    rw [e1, e2, e3, e4]
    exact hlast

theorem terrainOK_congr {g g1 : Grid}
    (h : ∀ c, (g1 c).isWall = (g c).isWall ∧ (g1 c).isMud = (g c).isMud) (hg : TerrainOK g) :
    TerrainOK g1 := by
  refine ⟨fun c hb => hg.1 c ?_, ?_⟩
  · rw [← (h c).1, ← (h c).2]
    exact hb
  · unfold Clear
    rw [(h startNode).1, (h startNode).2, (h endNode).1, (h endNode).2]
    exact hg.2

/-- Every command is served, and it keeps the state invariants. -/
theorem applyCommand_ok {m : Model} (c : Command) (h : StateOK m) :
    ∃ m1, applyCommand m c = some m1 ∧ StateOK m1 := by
  cases c with
  | editTerrain kind x y => exact ⟨_, rfl, editTerrain_ok kind x y h⟩
  | runDijkstra t0 t1 =>
    obtain ⟨m1, h1, ho⟩ := runDijkstraCmd_spec t0 t1 h.1
    refine ⟨m1, h1, ho.dijkstra_frame.1, terrainOK_congr ho.dijkstra_frame.2 h.2.1, ?_, ?_⟩
    · intro _
      exact Or.inl ho.ran.2
    · intro _
      refine ⟨fun _ => ho.ran.2, fun hl => ?_⟩
      rw [ho.last] at hl
      cases hl
  | runBfs t0 t1 =>
    obtain ⟨m1, h1, ho⟩ := runBfsCmd_spec t0 t1 h.1
    refine ⟨m1, h1, ho.bfs_frame.1, terrainOK_congr ho.bfs_frame.2 h.2.1, ?_, ?_⟩
    · intro _
      exact Or.inr ho.ran.2
    · intro _
      refine ⟨fun hl => ?_, fun _ => ho.ran.2⟩
      rw [ho.last] at hl
      cases hl
  | fullReset => exact ⟨_, rfl, fullReset_ok m⟩

/-- Every finite sequence of commands is served, and it keeps the state invariants. -/
theorem applyCommands_ok : ∀ (cmds : List Command) (m : Model), StateOK m →
    ∃ m1, applyCommands m cmds = some m1 ∧ StateOK m1 := by
  intro cmds
  induction cmds with
  | nil => intro m h; exact ⟨m, rfl, h⟩
  | cons c cs ih =>
    intro m h
    obtain ⟨m1, h1, hok⟩ := applyCommand_ok c h
    obtain ⟨m2, h2, hok2⟩ := ih m1 hok
    refine ⟨m2, ?_, hok2⟩
    simp only [applyCommands, h1]
    exact h2

/-- C15: every finite sequence of EditTerrain, Run Dijkstra, Run BFS and FullReset
commands served from a fully reset model ends in a state in which no cell is both wall and
mud and in which the start cell and the end cell are neither wall nor mud. -/
theorem C15_terrain_invariant (m : Model) (cmds : List Command) :
    ∃ m1, applyCommands (FullReset m) cmds = some m1 ∧
      (∀ c, ¬ ((m1.grid c).isWall = true ∧ (m1.grid c).isMud = true)) ∧
      (m1.grid startNode).isWall = false ∧ (m1.grid startNode).isMud = false ∧
      (m1.grid endNode).isWall = false ∧ (m1.grid endNode).isMud = false := by
  obtain ⟨m1, h1, _, ⟨hx, hc⟩, _⟩ := applyCommands_ok cmds (FullReset m) (fullReset_ok m)
  exact ⟨m1, h1, hx, hc⟩

/-- C18: Run Dijkstra and Run BFS on the same terrain terminate and report the same
`found`; when a route joins the start cell to the end cell both report a path.  The same
holds when Run BFS is made on the model that Run Dijkstra leaves. -/
theorem C18_found_iff_route (m : Model) (t0 t1 t2 t3 : Rat) (hwf : WellFormed m.grid) :
    (∃ md mb, runDijkstraCmd t0 t1 m = some md ∧ runBfsCmd t2 t3 m = some mb ∧
      md.dijkstraFound = mb.bfsFound ∧
      ((∃ cells, Route m.grid startNode endNode cells) →
        md.dijkstraFound = true ∧ mb.bfsFound = true)) ∧
    (∃ m1 m2, runDijkstraCmd t0 t1 m = some m1 ∧ runBfsCmd t2 t3 m1 = some m2 ∧
      m2.dijkstraFound = m2.bfsFound ∧
      ((∃ cells, Route m.grid startNode endNode cells) →
        m2.dijkstraFound = true ∧ m2.bfsFound = true)) := by
  obtain ⟨md, hd, hdo⟩ := runDijkstraCmd_spec t0 t1 hwf
  obtain ⟨mb, hb, hbo⟩ := runBfsCmd_spec t2 t3 hwf
  obtain ⟨m2, h2, ho2⟩ := runBfsCmd_spec t2 t3 hdo.dijkstra_frame.1
  have hwalk : (∃ steps, Walk md.grid startNode steps endNode) ↔
      ∃ steps, Walk m.grid startNode steps endNode := by
    constructor
    · rintro ⟨steps, hw⟩
      exact ⟨steps, (walk_congr (fun c => (hdo.dijkstra_frame.2 c).1) _ _ _).mp hw⟩
    · rintro ⟨steps, hw⟩
      exact ⟨steps, (walk_congr (fun c => (hdo.dijkstra_frame.2 c).1) _ _ _).mpr hw⟩
  have hroute : (∃ cells, Route m.grid startNode endNode cells) →
      ∃ steps, Walk m.grid startNode steps endNode := by
    rintro ⟨cells, hr⟩
    obtain ⟨steps, hw, _⟩ := walk_of_route hr
    exact ⟨steps, hw⟩
  have hiff1 : md.pathFound = true ↔ mb.pathFound = true :=
    hdo.dijkstra_found_iff.trans hbo.bfs_found_iff.symm
  have hiff2 : md.pathFound = true ↔ m2.pathFound = true :=
    hdo.dijkstra_found_iff.trans (hwalk.symm.trans ho2.bfs_found_iff.symm)
  refine ⟨⟨md, mb, hd, hb, ?_, ?_⟩, ⟨md, m2, hd, h2, ?_, ?_⟩⟩
  · rw [hdo.foundEq, hbo.foundEq]
    exact Bool.eq_iff_iff.mpr hiff1
  · intro hr
    rw [hdo.foundEq, hbo.foundEq]
    exact ⟨hdo.dijkstra_found_iff.mpr (hroute hr), hbo.bfs_found_iff.mpr (hroute hr)⟩
  · rw [ho2.dijkstra.2.2.2.1, hdo.foundEq, ho2.foundEq]
    exact Bool.eq_iff_iff.mpr hiff2
  · intro hr
    rw [ho2.dijkstra.2.2.2.1, hdo.foundEq, ho2.foundEq]
    exact ⟨hdo.dijkstra_found_iff.mpr (hroute hr),
      ho2.bfs_found_iff.mpr (hwalk.mpr (hroute hr))⟩

/-- Witness for C18: on the freshly reset board a route exists and both runs report a
path. -/
theorem C18_witness :
    ∃ md mb, runDijkstraCmd 0 1 initModel = some md ∧ runBfsCmd 0 1 initModel = some mb ∧
      md.dijkstraFound = true ∧ mb.bfsFound = true := by
  obtain ⟨md, mb, hd, hb, _, h⟩ :=
    (C18_found_iff_route initModel 0 1 0 1 initModel_wf).1
  obtain ⟨steps, hw, _, _⟩ := open_walk initModel_open
  have hr := (route_of_walk initModel_clear.1 hw).1
  exact ⟨md, mb, hd, hb, h ⟨_, hr⟩⟩

/-- The cells entered by a walk are not walls, and each is adjacent to the one before. -/
theorem walk_chain {g : Grid} : ∀ (steps : List Cell) (a c : Cell), Walk g a steps c →
    List.Chain adjacent a steps ∧ ∀ z ∈ steps, (g z).isWall = false := by
  intro steps
  induction steps with
  | nil =>
    intro a c _
    exact ⟨List.Chain.nil, fun z hz => by cases hz⟩
  | cons b rest ih =>
    intro a c h
    simp only [Walk] at h
    obtain ⟨hadj, hw, hrest⟩ := h
    obtain ⟨h1, h2⟩ := ih b c hrest
    refine ⟨List.Chain.cons hadj h1, ?_⟩
    intro z hz
    rcases List.mem_cons.mp hz with rfl | hz1
    · exact hw
    · exact h2 z hz1

/-- What the path facts say about the marked cells: they are the cells `l` strictly between
the end cell and the start cell on the parent chain. -/
theorem pathFacts_marked {g : Grid} {startN endN : Cell} {R : Cell → Prop} {w : Cell → Int}
    {l : List Cell} {cur : PathArray} (h : PathFacts g startN endN R w l cur) :
    (∀ c, cur c = true ↔ c ∈ l) ∧ l.Nodup ∧ (∀ c ∈ l, (g c).isWall = false) ∧
      startN ∉ l ∧ endN ∉ l ∧ List.Chain' adjacent (endN :: l ++ [startN]) ∧
      (markedCells cur).card = l.length := by
  have hnd : (endN :: l).Nodup :=
    h.decr.imp (fun {a b} hab heq => by rw [heq] at hab; exact lt_irrefl _ hab)
  rw [List.nodup_cons] at hnd
  obtain ⟨hchain, hwalls⟩ := walk_chain _ _ _ h.walk
  refine ⟨h.marks, hnd.2, ?_, ?_, hnd.1, ?_, ?_⟩
  · intro c hc
    exact hwalls c (List.mem_reverse.mpr (List.mem_cons_of_mem _ hc))
  · intro hs
    exact (h.mem startN (List.mem_cons_of_mem _ hs)).2 rfl
  · have h1 : List.Chain' adjacent (startN :: (endN :: l).reverse) := hchain
    have h2 : List.Chain' (flip adjacent) (startN :: (endN :: l).reverse) :=
      h1.imp (fun {a b} hab => adjacent_symm hab)
    have h3 := List.chain'_reverse.mpr h2
    simpa using h3
  · have : markedCells cur = l.toFinset := by
      ext c
      simp [markedCells, h.marks c]
    rw [this, List.toFinset_card_of_nodup hnd.2]

/-- When the start cell and the end cell are not adjacent, the parent chain has cells
strictly between them, and the last of these has the start cell as its parent. -/
theorem pathFacts_last {g : Grid} {startN endN : Cell} {R : Cell → Prop} {w : Cell → Int}
    {l : List Cell} {cur : PathArray} (h : PathFacts g startN endN R w l cur)
    (hna : ¬ adjacent startN endN) :
    ∃ z, l.getLast? = some z ∧ (g z).parent = some startN := by
  have hne : l ≠ [] := by
    intro hl
    have hw := h.walk
    rw [hl] at hw
    simp only [List.reverse_cons, List.reverse_nil, List.nil_append, Walk] at hw
    exact hna hw.1
  exact chain_snoc_last (List.Chain'.tail h.links) hne

/-- C19: after a Run of either algorithm that reports a path, the cells marked in the
current bitmap are exactly the cells `l` strictly between the end cell and the start cell
on the parent chain: in the sequence end cell, `l`, start cell every cell has the next one
as its parent, so the last cell of `l` has the start cell as its parent. The cells of `l`
are pairwise distinct, none is a wall, neither the start cell nor the end cell is among
them, and consecutive cells of the sequence end cell, `l`, start cell are cardinally
adjacent; for BFS their number is `hops - 1`. -/
theorem C19_marked_cells (m : Model) (t0 t1 : Rat) (hwf : WellFormed m.grid) :
    (∃ m1, runDijkstraCmd t0 t1 m = some m1 ∧
      (m1.dijkstraFound = true →
        ∃ l, parentChain m1.grid startNode loopFuel (some endNode) = some (endNode :: l) ∧
          List.Chain' (fun a b => (m1.grid a).parent = some b)
            (endNode :: l ++ [startNode]) ∧
          (∃ z, l.getLast? = some z ∧ (m1.grid z).parent = some startNode) ∧
          (∀ c, m1.currentPath c = true ↔ c ∈ l) ∧ l.Nodup ∧
          (∀ c ∈ l, (m1.grid c).isWall = false) ∧ startNode ∉ l ∧ endNode ∉ l ∧
          List.Chain' adjacent (endNode :: l ++ [startNode]))) ∧
    (∃ m1, runBfsCmd t0 t1 m = some m1 ∧
      (m1.bfsFound = true →
        ∃ l, parentChain m1.grid startNode loopFuel (some endNode) = some (endNode :: l) ∧
          List.Chain' (fun a b => (m1.grid a).parent = some b)
            (endNode :: l ++ [startNode]) ∧
          (∃ z, l.getLast? = some z ∧ (m1.grid z).parent = some startNode) ∧
          (∀ c, m1.currentPath c = true ↔ c ∈ l) ∧ l.Nodup ∧
          (∀ c ∈ l, (m1.grid c).isWall = false) ∧ startNode ∉ l ∧ endNode ∉ l ∧
          List.Chain' adjacent (endNode :: l ++ [startNode]) ∧
          ((markedCells m1.currentPath).card : Int) = m1.bfsHops - 1)) := by
  constructor
  · obtain ⟨m1, h1, ho⟩ := runDijkstraCmd_spec t0 t1 hwf
    refine ⟨m1, h1, ?_⟩
    intro hf
    rw [ho.foundEq] at hf
    obtain ⟨l, hpf⟩ := ho.dijkstra_pathFacts hf
    obtain ⟨a1, a2, a3, a4, a5, a6, _⟩ := pathFacts_marked hpf
    exact ⟨l, hpf.chain, hpf.links, pathFacts_last hpf not_adjacent_start_end,
      a1, a2, a3, a4, a5, a6⟩
  · obtain ⟨m1, h1, ho⟩ := runBfsCmd_spec t0 t1 hwf
    refine ⟨m1, h1, ?_⟩
    intro hf
    rw [ho.foundEq] at hf
    obtain ⟨l, hpf⟩ := ho.bfs_pathFacts hf
    obtain ⟨a1, a2, a3, a4, a5, a6, a7⟩ := pathFacts_marked hpf
    refine ⟨l, hpf.chain, hpf.links, pathFacts_last hpf not_adjacent_start_end,
      a1, a2, a3, a4, a5, a6, ?_⟩
    have hsum := hpf.sum
    rw [ho.bfs_start_dist] at hsum
    simp only [List.map_const', List.sum_replicate, nsmul_eq_mul, mul_one, add_zero,
      List.length_cons] at hsum
    rw [ho.hops, if_pos hf, a7, ← hsum]
    push_cast
    omega

/-- Witness for C19: on the freshly reset board both runs report a path, and the marked
cells are as stated. -/
theorem C19_witness :
    (∃ m1, runDijkstraCmd 0 1 initModel = some m1 ∧ m1.dijkstraFound = true ∧
      ∃ l, parentChain m1.grid startNode loopFuel (some endNode) = some (endNode :: l) ∧
        List.Chain' (fun a b => (m1.grid a).parent = some b)
          (endNode :: l ++ [startNode]) ∧
        (∃ z, l.getLast? = some z ∧ (m1.grid z).parent = some startNode) ∧
        (∀ c, m1.currentPath c = true ↔ c ∈ l) ∧ l.Nodup ∧
        (∀ c ∈ l, (m1.grid c).isWall = false) ∧ startNode ∉ l ∧ endNode ∉ l ∧
        List.Chain' adjacent (endNode :: l ++ [startNode])) ∧
    (∃ m1, runBfsCmd 0 1 initModel = some m1 ∧ m1.bfsFound = true ∧
      ∃ l, parentChain m1.grid startNode loopFuel (some endNode) = some (endNode :: l) ∧
        List.Chain' (fun a b => (m1.grid a).parent = some b)
          (endNode :: l ++ [startNode]) ∧
        (∃ z, l.getLast? = some z ∧ (m1.grid z).parent = some startNode) ∧
        (∀ c, m1.currentPath c = true ↔ c ∈ l) ∧ l.Nodup ∧
        (∀ c ∈ l, (m1.grid c).isWall = false) ∧ startNode ∉ l ∧ endNode ∉ l ∧
        List.Chain' adjacent (endNode :: l ++ [startNode]) ∧
        ((markedCells m1.currentPath).card : Int) = m1.bfsHops - 1) := by
  obtain ⟨⟨md, hd, h1⟩, ⟨mb, hb, h2⟩⟩ := C19_marked_cells initModel 0 1 initModel_wf
  have hfd := open_dijkstra_found initModel_wf initModel_open hd
  have hfb := open_bfs_found initModel_wf initModel_open hb
  exact ⟨⟨md, hd, hfd, h1 hfd⟩, ⟨mb, hb, hfb, h2 hfb⟩⟩

/-- C20: every finite sequence of EditTerrain, Run Dijkstra, Run BFS and FullReset
commands served from the fully reset model of program start ends in a state in which: if
exactly one `ran` flag is set, `lastWasDijkstra` names that algorithm; if at least one is
set, `lastWasDijkstra` names an algorithm whose flag is set; and the dashboard shows the
single-algorithm layout of an algorithm only when that algorithm's `ran` flag is set. -/
theorem C20_last_algorithm_has_run (m : Model) (cmds : List Command) :
    ∃ m1, applyCommands (FullReset m) cmds = some m1 ∧
      (m1.dijkstraRan = true → m1.bfsRan = false → m1.lastWasDijkstra = true) ∧
      (m1.dijkstraRan = false → m1.bfsRan = true → m1.lastWasDijkstra = false) ∧
      (m1.dijkstraRan = true ∨ m1.bfsRan = true →
        (m1.lastWasDijkstra = true → m1.dijkstraRan = true) ∧
        (m1.lastWasDijkstra = false → m1.bfsRan = true)) ∧
      (dashboardMode m1 = DashboardMode.singleDijkstra → m1.dijkstraRan = true) ∧
      (dashboardMode m1 = DashboardMode.singleBfs → m1.bfsRan = true) := by
  obtain ⟨m1, h1, _, _, hrun, hlast⟩ := applyCommands_ok cmds (FullReset m) (fullReset_ok m)
  refine ⟨m1, h1, ?_, ?_, hlast, ?_, ?_⟩
  · intro hd hb
    cases hl : m1.lastWasDijkstra
    · have := (hlast (Or.inl hd)).2 hl
      rw [hb] at this
      cases this
    · rfl
  · intro hd hb
    cases hl : m1.lastWasDijkstra
    · rfl
    · have := (hlast (Or.inr hb)).1 hl
      rw [hd] at this
      cases this
  · intro hmode
    unfold dashboardMode at hmode
    split_ifs at hmode with c1 c2 c3
    have hsome : m1.dijkstraRan = true ∨ m1.bfsRan = true := by
      cases ha : m1.algorithmRan
      · cases hd : m1.dijkstraRan
        · cases hb : m1.bfsRan
          · rw [ha, hd, hb] at c1
            exact absurd rfl c1
          · exact Or.inr rfl
        · exact Or.inl rfl
      · exact hrun ha
    exact (hlast hsome).1 c3
  · intro hmode
    unfold dashboardMode at hmode
    split_ifs at hmode with c1 c2 c3
    have hsome : m1.dijkstraRan = true ∨ m1.bfsRan = true := by
      cases ha : m1.algorithmRan
      · cases hd : m1.dijkstraRan
        · cases hb : m1.bfsRan
          · rw [ha, hd, hb] at c1
            exact absurd rfl c1
          · exact Or.inr rfl
        · exact Or.inl rfl
      · exact hrun ha
    exact (hlast hsome).2 (by simpa using c3)

end Pathfinding
